import Mathlib

/-!
# Baseline JPEG encoder: quantisation tables, Huffman tables, entropy coder

A shallow embedding of `src/src/jpeg_encoder.cpp` (class `jpeg::JPEGEncoder`).

Conventions of the embedding

* C arrays are functions `Nat → _` from the index; a store `a[i] = v` is
  `Function.update a i v`.  Arrays that the code fills front to back through a
  running index (`huffsize[p++] = l`, `outputbuf.push_back(c)`) are lists and the
  running index is the length of the list.
* Machine integers are `Nat`/`Int` with the conversions written out:
  `to_uchar` (8 bit), `to_uint` (32 bit), `to_int` (32 bit two's complement),
  `to_long` (64 bit two's complement, LP64) and `to_size_t` (64 bit).
* The two nested loops of Figure C.2 carry fuel and return `none` when the fuel
  runs out; the theorems show that the fuel chosen is enough.  The two loops that
  count a variable down (`r -= 16`, `bits -= 8`) take that variable as fuel, which
  is always enough.
* `tables.h` is not part of the sources at hand: the tables it declares are
  parameters, or definitions marked as modelled from the specification.
-/

namespace jpeg

/-! ## Machine integers -/

/-- Conversion to `unsigned char`. -/
def to_uchar (x : Int) : Nat := (x % 0x100).toNat

/-- Conversion to `unsigned int` (32 bit). -/
def to_uint (x : Int) : Nat := (x % 0x100000000).toNat

/-- Conversion to `int` (32 bit two's complement). -/
def to_int (x : Int) : Int := (x + 0x80000000) % 0x100000000 - 0x80000000

/-- Conversion to `long` (64 bit two's complement). -/
def to_long (x : Int) : Int :=
  (x + 0x8000000000000000) % 0x10000000000000000 - 0x8000000000000000

/-- Conversion to `size_t` (64 bit). -/
def to_size_t (x : Int) : Nat := (x % 0x10000000000000000).toNat

/-- The value of `x << n` before it is brought back to the width of its type. -/
def shl (x : Int) (n : Nat) : Int := x * 2 ^ n

/-! ## Quantisation tables (`set_quality_setting`, `create_quant_table`) -/

/-- The member `m_quant_tbls[0x2]`: table index, then position, to the stored
`unsigned char`. -/
abbrev quant_tbls := Nat → Nat → Nat

/-- Body of the loop of `create_quant_table` for one base entry `b = base_table[i]`:
`temp = ((long)b * scale + 50) / 100`, the two clamps, the cast to `unsigned char`. -/
def create_quant_table_value (scale : Nat) (b : Nat) : Nat :=
  let temp : Int := Int.tdiv (to_long (to_long (to_long b * scale) + 50)) 100
  let temp : Int := if temp ≤ 0 then 1 else if temp > 0xFF then 0xFF else temp
  to_uchar temp

/-- `JPEGEncoder::create_quant_table(table_idx, scale, base_table)`: the loop
`for (i = 0; i < 0x40; ++i) tblptr->value[i] = ...` on `m_quant_tbls[table_idx]`. -/
def create_quant_table (m_quant_tbls : quant_tbls) (table_idx : Nat) (scale : Nat)
    (base_table : Nat → Nat) : quant_tbls :=
  Function.update m_quant_tbls table_idx
    ((List.range 0x40).foldl
      (fun value i => Function.update value i (create_quant_table_value scale (base_table i)))
      (m_quant_tbls table_idx))

/-- The local `unsigned char q` of `set_quality_setting` after the `if` chain. -/
def set_quality_setting_q (quality : Nat) : Nat :=
  if quality ≤ 0 then to_uchar 1
  else if quality > 100 then to_uchar 100
  else if quality < 50 then to_uchar (Int.tdiv 5000 quality)
  else to_uchar (200 - shl quality 0x1)

/-- `JPEGEncoder::set_quality_setting(quality)`.  The two base tables
`std_luminance_quant_tbl` and `std_chrominance_quant_tbl` come from `tables.h` and
are parameters here. -/
def set_quality_setting (std_luminance_quant_tbl std_chrominance_quant_tbl : Nat → Nat)
    (m_quant_tbls : quant_tbls) (quality : Nat) : quant_tbls :=
  let q := set_quality_setting_q quality
  let t := create_quant_table m_quant_tbls 0 q std_luminance_quant_tbl
  create_quant_table t 1 q std_chrominance_quant_tbl

/-- Modelled from the spec: the standard luminance quantisation base table of
`tables.h` (ISO/IEC 10918-1 Annex K, natural order), used as a concrete input. -/
def std_luminance_quant_tbl (i : Nat) : Nat :=
  [16, 11, 10, 16, 24, 40, 51, 61,
   12, 12, 14, 19, 26, 58, 60, 55,
   14, 13, 16, 24, 40, 57, 69, 56,
   14, 17, 22, 29, 51, 87, 80, 62,
   18, 22, 37, 56, 68, 109, 103, 77,
   24, 35, 55, 64, 81, 104, 113, 92,
   49, 64, 78, 87, 103, 121, 120, 101,
   72, 92, 95, 98, 112, 100, 103, 99].getD i 0

/-- Modelled from the spec: the standard chrominance quantisation base table of
`tables.h` (ISO/IEC 10918-1 Annex K, natural order), used as a concrete input. -/
def std_chrominance_quant_tbl (i : Nat) : Nat :=
  [17, 18, 24, 47, 99, 99, 99, 99,
   18, 21, 26, 66, 99, 99, 99, 99,
   24, 26, 56, 99, 99, 99, 99, 99,
   47, 66, 99, 99, 99, 99, 99, 99,
   99, 99, 99, 99, 99, 99, 99, 99,
   99, 99, 99, 99, 99, 99, 99, 99,
   99, 99, 99, 99, 99, 99, 99, 99,
   99, 99, 99, 99, 99, 99, 99, 99].getD i 0

/-! ## Huffman tables (`derive_huffman_table`) -/

/-- The C `struct huffman_table`: `unsigned char bits[0x11]` and
`unsigned char value[0x100]`. -/
structure huffman_table where
  bits : Nat → Nat
  value : Nat → Nat

/-- The C `struct derived_huffman_table`: `unsigned int code[0x100]` and
`unsigned char length[0x100]`. -/
structure derived_huffman_table where
  code : Nat → Nat
  length : Nat → Nat

/-- Figure C.1, inner loop `while (i--) huffsize[p++] = (char) l;` on the filled part
of `huffsize` (its length is `p`). -/
def derive_huffsize_fill (l : Nat) : Nat → List Nat → List Nat
  | 0, huffsize => huffsize
  | i + 1, huffsize => derive_huffsize_fill l i (huffsize ++ [l])

/-- Figure C.1 of `derive_huffman_table`: the loop `for (l = 1; l < 0x11; l++)`,
giving the filled part `huffsize[0 .. lastp)`. -/
def derive_huffsize (htbl : huffman_table) : List Nat :=
  (List.range' 1 0x10).foldl (fun huffsize l => derive_huffsize_fill l (htbl.bits l) huffsize) []

/-- Figure C.2, inner loop `while (((int) huffsize[p]) == si) { huffcode[p++] = code; code++; }`
on the state `(p, code, huffcode)`; `code` is an `unsigned int`. -/
def derive_huffcode_inner (huffsize : List Nat) (si : Nat) :
    Nat → Nat × Nat × (Nat → Nat) → Option (Nat × Nat × (Nat → Nat))
  | 0, _ => none
  | fuel + 1, (p, code, huffcode) =>
    if huffsize.getD p 0 = si then
      derive_huffcode_inner huffsize si fuel
        (p + 1, (code + 1) % 0x100000000, Function.update huffcode p code)
    else some (p, code, huffcode)

/-- Figure C.2, outer loop `while (huffsize[p]) { ...; code <<= 1; si++; }` on the
state `(p, code, si, huffcode)`. -/
def derive_huffcode_outer (huffsize : List Nat) :
    Nat → Nat × Nat × Nat × (Nat → Nat) → Option (Nat × Nat × Nat × (Nat → Nat))
  | 0, _ => none
  | fuel + 1, (p, code, si, huffcode) =>
    if huffsize.getD p 0 ≠ 0 then
      match derive_huffcode_inner huffsize si 0x102 (p, code, huffcode) with
      | none => none
      | some (p1, code1, huffcode1) =>
        derive_huffcode_outer huffsize fuel (p1, (code1 <<< 1) % 0x100000000, si + 1, huffcode1)
    else some (p, code, si, huffcode)

/-- Figure C.2 of `derive_huffman_table` on the terminated array
`huffsize[0 .. lastp]` (`huffsize[lastp] = 0`): `code = 0; si = huffsize[0]; p = 0;`
and the loops, giving `huffcode`. -/
def derive_huffcode (htbl : huffman_table) : Option (Nat → Nat) :=
  let huffsize := derive_huffsize htbl ++ [0]
  match derive_huffcode_outer huffsize 0x12 (0, 0, huffsize.getD 0 0, fun _ => 0) with
  | none => none
  | some (_, _, _, huffcode) => some huffcode

/-- Figure C.3 of `derive_huffman_table`: `memset` of `length`, then
`for (p = 0; p < lastp; ++p)` storing `huffcode[p]`, `huffsize[p]` at `value[p]`. -/
def derive_fill (htbl : huffman_table) (huffsize : List Nat) (huffcode : Nat → Nat) (lastp : Nat)
    (dhtbl : derived_huffman_table) : derived_huffman_table :=
  (List.range lastp).foldl
    (fun d p =>
      { code := Function.update d.code (htbl.value p) (huffcode p),
        length := Function.update d.length (htbl.value p) (huffsize.getD p 0) })
    { code := dhtbl.code, length := fun _ => 0 }

/-- `JPEGEncoder::derive_huffman_table(is_dc, htblptr, dhtblptr)`; `dhtbl` is the
content of `*dhtblptr` on entry.  `huffsize` has `0x101` entries and the stores of
Figure C.1 reach index `lastp`, so a run with `lastp ≥ 0x101` leaves the array and
has no result. -/
def derive_huffman_table (is_dc : Nat) (htbl : huffman_table) (dhtbl : derived_huffman_table) :
    Option derived_huffman_table :=
  let _ := is_dc
  let lastp := (derive_huffsize htbl).length
  if lastp < 0x101 then
    match derive_huffcode htbl with
    | none => none
    | some huffcode =>
      some (derive_fill htbl (derive_huffsize htbl ++ [0]) huffcode lastp dhtbl)
  else none

/-- The word of `length` bits that a table entry `(code, length)` stands for, most
significant bit first. -/
def code_word (code length : Nat) : List Bool :=
  (List.range length).map (fun k => code.testBit (length - 1 - k))

/-- The sum of `BITS[1..16]`. -/
def bits_sum (htbl : huffman_table) : Nat :=
  ((List.range' 1 0x10).map htbl.bits).sum

/-- The Kraft sum of a specification, in units of `2^-16`: each code of length `l`
takes `2^(16 - l)` of the `2^16` words of 16 bits. -/
def kraft_sum (htbl : huffman_table) : Nat :=
  ((List.range' 1 0x10).map (fun l => htbl.bits l * 2 ^ (0x10 - l))).sum

/-- No two different symbols that have a code have words of which one is a
beginning of the other. -/
def words_unambiguous (d : derived_huffman_table) : Prop :=
  ∀ s t, s < 0x100 → t < 0x100 → s ≠ t → d.length s ≠ 0 → d.length t ≠ 0 →
    ¬ (code_word (d.code s) (d.length s) <+: code_word (d.code t) (d.length t))

/-! ### Predicates used in the proofs about `derive_huffman_table` -/

/-- What Figure C.2 needs of the terminated array `huffsize[0 .. n]`: a zero at `n`
(and nothing read beyond it), lengths between 1 and 16 before it, in
non-decreasing order. -/
structure sizes_ok (L : List Nat) (n : Nat) : Prop where
  zero : ∀ p, n ≤ p → L.getD p 0 = 0
  pos : ∀ p, p < n → 1 ≤ L.getD p 0 ∧ L.getD p 0 ≤ 0x10
  mono : ∀ i j, i ≤ j → j < n → L.getD i 0 ≤ L.getD j 0

/-- The loop invariant of Figure C.2 at the head of the outer loop. -/
structure huffcode_inv (L : List Nat) (n p code si : Nat) (hc : Nat → Nat) : Prop where
  p_le : p ≤ n
  code_lt : code < 0x100000000
  si_pos : 1 ≤ si
  si_le : p < n → si ≤ L.getD p 0
  start : p = 0 → code = 0 ∧ si = L.getD 0 0
  last : 0 < p → L.getD (p - 1) 0 < si
    ∧ code = ((hc (p - 1) + 1) * 2 ^ (si - L.getD (p - 1) 0)) % 0x100000000
    ∧ hc 0 = 0
  chain : ∀ j, j + 1 < p →
    hc (j + 1) = ((hc j + 1) * 2 ^ (L.getD (j + 1) 0 - L.getD j 0)) % 0x100000000

/-- The part of the Kraft sum taken by the first `j` code lengths. -/
def kraft_upto (hs : List Nat) : Nat → Nat
  | 0 => 0
  | j + 1 => kraft_upto hs j + 2 ^ (0x10 - hs.getD j 0)

/-! ### The four standard tables (`create_huffman_tables`, `create_derived_huffman_tables`) -/

/-- Modelled from the spec: `bits_dc_luminance` of `tables.h`, the canonical `BITS` of
the DC luminance table (ISO/IEC 10918-1 Annex K, Table K.3). -/
def bits_dc_luminance (l : Nat) : Nat :=
  [0, 0, 1, 5, 1, 1, 1, 1, 1, 1, 0, 0, 0, 0, 0, 0, 0].getD l 0

/-- Modelled from the spec: `value_dc_luminance` of `tables.h` (Table K.3). -/
def value_dc_luminance (p : Nat) : Nat :=
  [0, 1, 2, 3, 4, 5, 6, 7, 8, 9, 10, 11].getD p 0

/-- Modelled from the spec: `bits_dc_chrominance` of `tables.h` (Table K.4). -/
def bits_dc_chrominance (l : Nat) : Nat :=
  [0, 0, 3, 1, 1, 1, 1, 1, 1, 1, 1, 1, 0, 0, 0, 0, 0].getD l 0

/-- Modelled from the spec: `value_dc_chrominance` of `tables.h` (Table K.4). -/
def value_dc_chrominance (p : Nat) : Nat :=
  [0, 1, 2, 3, 4, 5, 6, 7, 8, 9, 10, 11].getD p 0

/-- Modelled from the spec: `bits_ac_luminance` of `tables.h` (Table K.5). -/
def bits_ac_luminance (l : Nat) : Nat :=
  [0, 0, 2, 1, 3, 3, 2, 4, 3, 5, 5, 4, 4, 0, 0, 1, 0x7d].getD l 0

/-- Modelled from the spec: `value_ac_luminance` of `tables.h` (Table K.5). -/
def value_ac_luminance (p : Nat) : Nat :=
  [0x01, 0x02, 0x03, 0x00, 0x04, 0x11, 0x05, 0x12,
   0x21, 0x31, 0x41, 0x06, 0x13, 0x51, 0x61, 0x07,
   0x22, 0x71, 0x14, 0x32, 0x81, 0x91, 0xa1, 0x08,
   0x23, 0x42, 0xb1, 0xc1, 0x15, 0x52, 0xd1, 0xf0,
   0x24, 0x33, 0x62, 0x72, 0x82, 0x09, 0x0a, 0x16,
   0x17, 0x18, 0x19, 0x1a, 0x25, 0x26, 0x27, 0x28,
   0x29, 0x2a, 0x34, 0x35, 0x36, 0x37, 0x38, 0x39,
   0x3a, 0x43, 0x44, 0x45, 0x46, 0x47, 0x48, 0x49,
   0x4a, 0x53, 0x54, 0x55, 0x56, 0x57, 0x58, 0x59,
   0x5a, 0x63, 0x64, 0x65, 0x66, 0x67, 0x68, 0x69,
   0x6a, 0x73, 0x74, 0x75, 0x76, 0x77, 0x78, 0x79,
   0x7a, 0x83, 0x84, 0x85, 0x86, 0x87, 0x88, 0x89,
   0x8a, 0x92, 0x93, 0x94, 0x95, 0x96, 0x97, 0x98,
   0x99, 0x9a, 0xa2, 0xa3, 0xa4, 0xa5, 0xa6, 0xa7,
   0xa8, 0xa9, 0xaa, 0xb2, 0xb3, 0xb4, 0xb5, 0xb6,
   0xb7, 0xb8, 0xb9, 0xba, 0xc2, 0xc3, 0xc4, 0xc5,
   0xc6, 0xc7, 0xc8, 0xc9, 0xca, 0xd2, 0xd3, 0xd4,
   0xd5, 0xd6, 0xd7, 0xd8, 0xd9, 0xda, 0xe1, 0xe2,
   0xe3, 0xe4, 0xe5, 0xe6, 0xe7, 0xe8, 0xe9, 0xea,
   0xf1, 0xf2, 0xf3, 0xf4, 0xf5, 0xf6, 0xf7, 0xf8,
   0xf9, 0xfa].getD p 0

/-- Modelled from the spec: `bits_ac_chrominance` of `tables.h` (Table K.6). -/
def bits_ac_chrominance (l : Nat) : Nat :=
  [0, 0, 2, 1, 2, 4, 4, 3, 4, 7, 5, 4, 4, 0, 1, 2, 0x77].getD l 0

/-- Modelled from the spec: `value_ac_chrominance` of `tables.h` (Table K.6). -/
def value_ac_chrominance (p : Nat) : Nat :=
  [0x00, 0x01, 0x02, 0x03, 0x11, 0x04, 0x05, 0x21,
   0x31, 0x06, 0x12, 0x41, 0x51, 0x07, 0x61, 0x71,
   0x13, 0x22, 0x32, 0x81, 0x08, 0x14, 0x42, 0x91,
   0xa1, 0xb1, 0xc1, 0x09, 0x23, 0x33, 0x52, 0xf0,
   0x15, 0x62, 0x72, 0xd1, 0x0a, 0x16, 0x24, 0x34,
   0xe1, 0x25, 0xf1, 0x17, 0x18, 0x19, 0x1a, 0x26,
   0x27, 0x28, 0x29, 0x2a, 0x35, 0x36, 0x37, 0x38,
   0x39, 0x3a, 0x43, 0x44, 0x45, 0x46, 0x47, 0x48,
   0x49, 0x4a, 0x53, 0x54, 0x55, 0x56, 0x57, 0x58,
   0x59, 0x5a, 0x63, 0x64, 0x65, 0x66, 0x67, 0x68,
   0x69, 0x6a, 0x73, 0x74, 0x75, 0x76, 0x77, 0x78,
   0x79, 0x7a, 0x82, 0x83, 0x84, 0x85, 0x86, 0x87,
   0x88, 0x89, 0x8a, 0x92, 0x93, 0x94, 0x95, 0x96,
   0x97, 0x98, 0x99, 0x9a, 0xa2, 0xa3, 0xa4, 0xa5,
   0xa6, 0xa7, 0xa8, 0xa9, 0xaa, 0xb2, 0xb3, 0xb4,
   0xb5, 0xb6, 0xb7, 0xb8, 0xb9, 0xba, 0xc2, 0xc3,
   0xc4, 0xc5, 0xc6, 0xc7, 0xc8, 0xc9, 0xca, 0xd2,
   0xd3, 0xd4, 0xd5, 0xd6, 0xd7, 0xd8, 0xd9, 0xda,
   0xe2, 0xe3, 0xe4, 0xe5, 0xe6, 0xe7, 0xe8, 0xe9,
   0xea, 0xf2, 0xf3, 0xf4, 0xf5, 0xf6, 0xf7, 0xf8,
   0xf9, 0xfa].getD p 0

/-- `JPEGEncoder::add_huffman_table(tblptr, bits, values)`: the 0x11 counts are copied,
`value` is zeroed and the first `n` values are copied, `n` the sum of the counts. -/
def add_huffman_table (bits values : Nat → Nat) : huffman_table :=
  let n := ((List.range 0x11).map bits).sum
  { bits := fun l => if l < 0x11 then bits l else 0,
    value := fun p => if p < n then values p else 0 }

/-- `JPEGEncoder::create_huffman_tables()`: the member `m_dc_huff_tbls`. -/
def m_dc_huff_tbls (i : Nat) : huffman_table :=
  if i = 0 then add_huffman_table bits_dc_luminance value_dc_luminance
  else add_huffman_table bits_dc_chrominance value_dc_chrominance

/-- `JPEGEncoder::create_huffman_tables()`: the member `m_ac_huff_tbls`. -/
def m_ac_huff_tbls (i : Nat) : huffman_table :=
  if i = 0 then add_huffman_table bits_ac_luminance value_ac_luminance
  else add_huffman_table bits_ac_chrominance value_ac_chrominance

/-- A derived table with every entry 0, for the content of a table before it is built. -/
def zero_derived_tbl : derived_huffman_table := { code := fun _ => 0, length := fun _ => 0 }

/-- `JPEGEncoder::create_derived_huffman_tables()` on tables that hold zeros before:
the members `m_dc_derived_tbls` and `m_ac_derived_tbls`. -/
def create_derived_huffman_tables :
    Option ((Nat → derived_huffman_table) × (Nat → derived_huffman_table)) :=
  match derive_huffman_table 1 (m_dc_huff_tbls 0) zero_derived_tbl,
      derive_huffman_table 0 (m_ac_huff_tbls 0) zero_derived_tbl,
      derive_huffman_table 1 (m_dc_huff_tbls 1) zero_derived_tbl,
      derive_huffman_table 0 (m_ac_huff_tbls 1) zero_derived_tbl with
  | some dc0, some ac0, some dc1, some ac1 =>
    some (fun i => if i = 0 then dc0 else dc1, fun i => if i = 0 then ac0 else ac1)
  | _, _, _, _ => none

/-- A specification with three codes of length 1 and one of length 2: its counts sum
to 4, and length 1 is given more codes than there are words of one bit. -/
def oversubscribed_table : huffman_table :=
  { bits := fun l => [0, 3, 1].getD l 0, value := fun p => [0, 1, 2, 3].getD p 0 }

/-- A specification with no code of length 2: one code of length 1, two of length 3. -/
def gap_table : huffman_table :=
  { bits := fun l => [0, 1, 0, 2].getD l 0, value := fun p => [7, 8, 9].getD p 0 }

/-! ## Entropy coder (`EMIT_BITS`, `encode_entropy_single_block`, `encode_entropy`,
the entropy loop and the flush of `encode_image`) -/

/-- The C `struct entropy_state`: `size_t buffer`, `int bits`, `int last_dc_val[0x3]`.
`bits` never goes below 0 (every `put_bits -= 8` stands behind `put_bits > 0xF`), so
it is a `Nat`. -/
structure entropy_state where
  buffer : Nat
  bits : Nat
  last_dc_val : Nat → Int

/-- The locals `put_buffer`, `put_bits` of `encode_entropy_single_block` together with
the output vector `outputbuf` that the emit macros work on.  A byte of the vector is
kept as its value `0 .. 255`. -/
structure emit_state where
  put_buffer : Nat
  put_bits : Nat
  outputbuf : List Nat

/-- Modelled from the spec: the lookup table `nbits_table` of `tables.h`; entry `i` is
the number of bits of `i` (`nbits`), here for `i < 65536`. -/
def nbits_table (i : Nat) : Nat :=
  ((List.range 0x10).filter (fun k => 2 ^ k ≤ i)).length

/-- The macro `EMIT_BYTE()`. -/
def EMIT_BYTE (s : emit_state) : emit_state :=
  let put_bits := s.put_bits - 8
  let c := to_uchar (s.put_buffer >>> put_bits)
  let outputbuf := s.outputbuf ++ [c]
  let outputbuf := if c = 0xFF then outputbuf ++ [0] else outputbuf
  { put_buffer := s.put_buffer, put_bits := put_bits, outputbuf := outputbuf }

/-- The macro `CHECKBUF15()`. -/
def CHECKBUF15 (s : emit_state) : emit_state :=
  if s.put_bits > 0xF then EMIT_BYTE (EMIT_BYTE s) else s

/-- The macro `PUT_BITS(code, size)`; `code` is an `int`, widened to `size_t` for the
`|`, and the shift is on 64 bits. -/
def PUT_BITS (code : Int) (size : Nat) (s : emit_state) : emit_state :=
  { put_buffer := to_size_t (s.put_buffer <<< size) ||| to_size_t code,
    put_bits := s.put_bits + size,
    outputbuf := s.outputbuf }

/-- The macro `EMIT_BITS(code, size)`. -/
def EMIT_BITS (code : Int) (size : Nat) (s : emit_state) : emit_state :=
  CHECKBUF15 (PUT_BITS code size s)

/-- The macro `EMIT_CODE(code, size)` with the locals `temp2` and `nbits` it reads. -/
def EMIT_CODE (code : Int) (size : Nat) (temp2 : Int) (nbits : Nat) (s : emit_state) :
    emit_state :=
  let temp2 := to_int (Int.land temp2 (to_int (to_int (shl 1 nbits) - 1)))
  let s := CHECKBUF15 (PUT_BITS code size s)
  CHECKBUF15 (PUT_BITS temp2 nbits s)

/-- The loop `while (r > 15) { EMIT_BITS(code_0xf0, size_0xf0) r -= 16; }` of `kloop`.
Each turn takes 16 from `r`, so `r` turns of fuel are always enough. -/
def kloop_zrl (code_0xf0 : Int) (size_0xf0 : Nat) : Nat → Nat → emit_state → Nat × emit_state
  | 0, r, s => (r, s)
  | fuel + 1, r, s =>
    if r > 15 then kloop_zrl code_0xf0 size_0xf0 fuel (r - 16) (EMIT_BITS code_0xf0 size_0xf0 s)
    else (r, s)

/-- The macro `kloop(k)` of `encode_entropy_single_block` on the run length `r` and the
emit state. -/
def kloop (acd : derived_huffman_table) (block : Nat → Int) (k : Nat) (rs : Nat × emit_state) :
    Nat × emit_state :=
  let code_0xf0 := to_int (acd.code 0xf0)
  let size_0xf0 := acd.length 0xf0
  let temp := block k
  if temp = 0 then (rs.1 + 1, rs.2)
  else
    let temp2 := temp
    let temp3 := temp >>> 31
    let temp := Int.xor temp temp3
    let temp := to_int (temp - temp3)
    let temp2 := to_int (temp2 + temp3)
    let nbits := nbits_table temp.toNat
    let (r, s) := kloop_zrl code_0xf0 size_0xf0 rs.1 rs.1 rs.2
    let temp3 := (r <<< 4) + nbits
    let code := to_int (acd.code temp3)
    let size := acd.length temp3
    (0, EMIT_CODE code size temp2 nbits s)

/-- The order of the `kloop(k)` calls (zig-zag order of the 63 AC coefficients). -/
def kloop_order : List Nat :=
  [1, 8, 16, 9, 2, 3, 10, 17, 24, 32, 25, 18, 11, 4, 5, 12, 19, 26, 33, 40, 48, 41, 34, 27,
   20, 13, 6, 7, 14, 21, 28, 35, 42, 49, 56, 57, 50, 43, 36, 29, 22, 15, 23, 30, 37, 44, 51, 58,
   59, 52, 45, 38, 31, 39, 46, 53, 60, 61, 54, 47, 55, 62, 63]

/-- The statements of `encode_entropy_single_block` from the sign handling of the DC
difference to the end-of-block code, on the emit state; `diff` is the value of
`temp = temp2 = block[0] - last_dc_val`. -/
def encode_block_emit (dcd acd : derived_huffman_table) (block : Nat → Int) (diff : Int)
    (s : emit_state) : emit_state :=
  let temp := diff
  let temp2 := diff
  let temp3 := temp >>> 31
  let temp := Int.xor temp temp3
  let temp := to_int (temp - temp3)
  let temp2 := to_int (temp2 + temp3)
  let nbits := nbits_table temp.toNat
  let code := to_int (dcd.code nbits)
  let size := dcd.length nbits
  let s := EMIT_BITS code size s
  let temp2 := to_int (to_long (Int.land temp2 (to_long (to_long (shl 1 nbits) - 1))))
  let s := EMIT_BITS temp2 nbits s
  let rs := kloop_order.foldl (fun rs k => kloop acd block k rs) (0, s)
  if rs.1 > 0 then EMIT_BITS (to_int (acd.code 0)) (acd.length 0) rs.2 else rs.2

/-- The body of `encode_entropy_single_block` after its first statement
`temp = temp2 = block[0] - last_dc_val`, with that difference as `diff`: the tables
are chosen, `put_buffer` and `put_bits` are loaded from `state`, the block is emitted,
and the two are stored back. -/
def encode_block_from_diff (m_dc_derived_tbls m_ac_derived_tbls : Nat → derived_huffman_table)
    (block : Nat → Int) (table_index : Nat) (diff : Int) (outputbuf : List Nat)
    (state : entropy_state) : List Nat × entropy_state :=
  let s := encode_block_emit (m_dc_derived_tbls table_index) (m_ac_derived_tbls table_index)
    block diff { put_buffer := state.buffer, put_bits := state.bits, outputbuf := outputbuf }
  (s.outputbuf, { buffer := s.put_buffer, bits := s.put_bits, last_dc_val := state.last_dc_val })

/-- `JPEGEncoder::encode_entropy_single_block(block, table_index, last_dc_val, outputbuf,
state)`; the subtraction is on `int`. -/
def encode_entropy_single_block
    (m_dc_derived_tbls m_ac_derived_tbls : Nat → derived_huffman_table)
    (block : Nat → Int) (table_index : Nat) (last_dc_val : Int) (outputbuf : List Nat)
    (state : entropy_state) : List Nat × entropy_state :=
  encode_block_from_diff m_dc_derived_tbls m_ac_derived_tbls block table_index
    (to_int (block 0 - last_dc_val)) outputbuf state

/-- The table `mcu_membership` of `encode_entropy`. -/
def mcu_membership (i : Nat) : Nat := [0x0, 0x0, 0x0, 0x0, 0x1, 0x2].getD i 0

/-- The table `table_index` of `encode_entropy`. -/
def table_index (i : Nat) : Nat := [0x0, 0x0, 0x0, 0x0, 0x1, 0x1].getD i 0

/-- The body of the loop of `encode_entropy` for the block `i` of the MCU, on the
output vector and the state. -/
def encode_entropy_step (m_dc_derived_tbls m_ac_derived_tbls : Nat → derived_huffman_table)
    (mcu_buffer : Nat → Nat → Int) (os : List Nat × entropy_state) (i : Nat) :
    List Nat × entropy_state :=
  let ci := mcu_membership i
  let os1 := encode_entropy_single_block m_dc_derived_tbls m_ac_derived_tbls
    (mcu_buffer i) (table_index i) (os.2.last_dc_val ci) os.1 os.2
  (os1.1, { os1.2 with last_dc_val := Function.update os1.2.last_dc_val ci (mcu_buffer i 0) })

/-- `JPEGEncoder::encode_entropy(mcu_buffer, outputbuf, state)`: the loop
`for (i = 0; i < 0x6; ++i)` over the six blocks of one MCU. -/
def encode_entropy (m_dc_derived_tbls m_ac_derived_tbls : Nat → derived_huffman_table)
    (mcu_buffer : Nat → Nat → Int) (outputbuf : List Nat) (state : entropy_state) :
    List Nat × entropy_state :=
  (List.range 0x6).foldl
    (encode_entropy_step m_dc_derived_tbls m_ac_derived_tbls mcu_buffer) (outputbuf, state)

/-- The entropy loop of `encode_image`: `last_dc_val` zeroed, `bits = 0`, then
`encode_entropy` on every MCU in turn.  `state.buffer` is not initialised by the code;
its value on entry is the parameter `buffer`. -/
def encode_image_entropy (m_dc_derived_tbls m_ac_derived_tbls : Nat → derived_huffman_table)
    (mcus : List (Nat → Nat → Int)) (output_buffer : List Nat) (buffer : Nat) :
    List Nat × entropy_state :=
  mcus.foldl
    (fun (os : List Nat × entropy_state) mcu_buffer =>
      encode_entropy m_dc_derived_tbls m_ac_derived_tbls mcu_buffer os.1 os.2)
    (output_buffer, { buffer := buffer, bits := 0, last_dc_val := fun _ => 0 })

/-- The loop `while (bits > 0x7)` of the flush in `encode_image`.  Each turn takes 8
from `bits`, so `bits` turns of fuel are always enough. -/
def encode_image_flush_loop (buffer : Nat) : Nat → Nat → List Nat → List Nat
  | 0, _, output_buffer => output_buffer
  | fuel + 1, bits, output_buffer =>
    if bits > 0x7 then
      let bits := bits - 0x8
      let c := to_uchar (buffer >>> bits)
      let output_buffer := output_buffer ++ [c]
      let output_buffer := if c = 0xFF then output_buffer ++ [c] else output_buffer
      encode_image_flush_loop buffer fuel bits output_buffer
    else output_buffer

/-- The block "Flush Entropy" of `encode_image`. -/
def encode_image_flush (output_buffer : List Nat) (state : entropy_state) : List Nat :=
  let bits := state.bits
  let buffer := state.buffer
  let bits := bits + 7
  let buffer := to_size_t (buffer <<< 0x7) ||| 0x7F
  encode_image_flush_loop buffer bits bits output_buffer

/-- The entropy-coded segment of `encode_image`: the bytes appended by the entropy
loop and the flush. -/
def encode_image_scan (m_dc_derived_tbls m_ac_derived_tbls : Nat → derived_huffman_table)
    (mcus : List (Nat → Nat → Int)) (buffer : Nat) : List Nat :=
  let os := encode_image_entropy m_dc_derived_tbls m_ac_derived_tbls mcus [] buffer
  encode_image_flush os.1 os.2

/-! ### Reference definitions for the entropy coder -/

/-- Every `0xFF` byte is followed at once by a `0x00` byte. -/
def stuffing_holds : List Nat → Prop
  | [] => True
  | [x] => x ≠ 0xFF
  | x :: y :: rest => (x = 0xFF → y = 0) ∧ stuffing_holds (y :: rest)

/-- A run of `EMIT_BITS(code, size)` on the emit state, one for each pair of the list. -/
def emit_sequence (emissions : List (Int × Nat)) (s : emit_state) : emit_state :=
  emissions.foldl (fun s e => EMIT_BITS e.1 e.2 s) s

/-- The bytes of the chunked writer of the code: `EMIT_BITS` for every emission from
`bits = 0` and an empty output, then the flush of `encode_image`. -/
def chunked_writer (emissions : List (Int × Nat)) (buffer : Nat) : List Nat :=
  let s := emit_sequence emissions { put_buffer := buffer, put_bits := 0, outputbuf := [] }
  encode_image_flush s.outputbuf
    { buffer := s.put_buffer, bits := s.put_bits, last_dc_val := fun _ => 0 }

/-- The number that a word of bits stands for, most significant bit first. -/
def bits_value (w : List Bool) : Nat :=
  w.foldl (fun acc b => 2 * acc + (if b then 1 else 0)) 0

/-- A bit string cut into whole bytes; bits after the last whole byte are dropped. -/
def bytes_of_bits (bs : List Bool) : List Nat :=
  (List.range (bs.length / 8)).map (fun k => bits_value ((bs.drop (8 * k)).take 8))

/-- A `0x00` put after every `0xFF` byte. -/
def stuff_bytes : List Nat → List Nat
  | [] => []
  | c :: rest => if c = 0xFF then c :: 0 :: stuff_bytes rest else c :: stuff_bytes rest

/-- The byte-at-a-time reference writer of the specification: all codes joined most
significant bit first, 7 one-bits appended, cut into whole bytes, and a `0x00` put
after every `0xFF`. -/
def reference_writer (emissions : List (Nat × Nat)) : List Nat :=
  stuff_bytes (bytes_of_bits
    (emissions.flatMap (fun e => code_word e.1 e.2) ++ List.replicate 7 true))

/-- A value that an `int` holds. -/
def int_ok (x : Int) : Prop := -0x80000000 ≤ x ∧ x < 0x80000000

/-- A value that a `short` holds. -/
def short_ok (x : Int) : Prop := -0x8000 ≤ x ∧ x ≤ 0x7FFF

/-- One block to encode: the block, the index of its Huffman tables and the DC
difference that is encoded for it. -/
structure block_call where
  block : Nat → Int
  table_index : Nat
  diff : Int

/-- The blocks of a list encoded one after the other, each with the DC difference
given for it. -/
def encode_blocks (m_dc_derived_tbls m_ac_derived_tbls : Nat → derived_huffman_table)
    (calls : List block_call) (outputbuf : List Nat) (state : entropy_state) :
    List Nat × entropy_state :=
  calls.foldl
    (fun (os : List Nat × entropy_state) c =>
      encode_block_from_diff m_dc_derived_tbls m_ac_derived_tbls c.block c.table_index c.diff
        os.1 os.2)
    (outputbuf, state)

/-- The DC of the block that precedes block `i` of MCU `m` among the blocks of the
same component in scan order, and 0 for the first block of a component: for Y1, Y2, Y3
the Y block before it in the same MCU, for Y0 the block Y3 of the MCU before, for Cb
and Cr the Cb and Cr block of the MCU before. -/
def preceding_dc (mcus : List (Nat → Nat → Int)) (m i : Nat) : Int :=
  if i = 1 ∨ i = 2 ∨ i = 3 then mcus.getD m (fun _ _ => 0) (i - 1) 0
  else if m = 0 then 0
  else mcus.getD (m - 1) (fun _ _ => 0) (if i = 0 then 3 else i) 0

/-- The blocks of a scan in the order of the code, MCU by MCU and Y0, Y1, Y2, Y3, Cb, Cr
within one, with table index 0 for Y and 1 for Cb and Cr, each with its DC minus the
DC of the preceding block of its component. -/
def scan_calls (mcus : List (Nat → Nat → Int)) : List block_call :=
  (List.range mcus.length).flatMap (fun m =>
    (List.range 0x6).map (fun i =>
      { block := mcus.getD m (fun _ _ => 0) i,
        table_index := if i < 4 then 0 else 1,
        diff := mcus.getD m (fun _ _ => 0) i 0 - preceding_dc mcus m i }))

/-- Two results of the entropy coder with the same output, bit buffer and bit count. -/
def same_emit (x y : List Nat × entropy_state) : Prop :=
  x.1 = y.1 ∧ x.2.buffer = y.2.buffer ∧ x.2.bits = y.2.bits

/-- The blocks of a list of MCUs with their DC differences, from the last DC values
`a`, `b`, `c` of the three components: the chain that `encode_entropy` follows. -/
def calls_from : Int → Int → Int → List (Nat → Nat → Int) → List block_call
  | _, _, _, [] => []
  | a, b, c, mcu :: rest =>
    [ { block := mcu 0, table_index := 0, diff := mcu 0 0 - a },
      { block := mcu 1, table_index := 0, diff := mcu 1 0 - mcu 0 0 },
      { block := mcu 2, table_index := 0, diff := mcu 2 0 - mcu 1 0 },
      { block := mcu 3, table_index := 0, diff := mcu 3 0 - mcu 2 0 },
      { block := mcu 4, table_index := 1, diff := mcu 4 0 - b },
      { block := mcu 5, table_index := 1, diff := mcu 5 0 - c } ]
    ++ calls_from (mcu 3 0) (mcu 4 0) (mcu 5 0) rest

/-- The preceding DC as in `preceding_dc`, with `a`, `b`, `c` in place of 0 for the
first block of the three components. -/
def preceding_dc_from (a b c : Int) (mcus : List (Nat → Nat → Int)) (m i : Nat) : Int :=
  if i = 1 ∨ i = 2 ∨ i = 3 then mcus.getD m (fun _ _ => 0) (i - 1) 0
  else if m = 0 then (if i = 0 then a else if i = 4 then b else c)
  else mcus.getD (m - 1) (fun _ _ => 0) (if i = 0 then 3 else i) 0

/-- The blocks of a scan as in `scan_calls`, with `preceding_dc_from`. -/
def scan_calls_from (a b c : Int) (mcus : List (Nat → Nat → Int)) : List block_call :=
  (List.range mcus.length).flatMap (fun m =>
    (List.range 0x6).map (fun i =>
      { block := mcus.getD m (fun _ _ => 0) i,
        table_index := if i < 4 then 0 else 1,
        diff := mcus.getD m (fun _ _ => 0) i 0 - preceding_dc_from a b c mcus m i }))

/-- An MCU whose blocks are zero but for the DC of the Cb block, which is 255. -/
def mcu_cb_255 : Nat → Nat → Int := fun i k => if i = 4 ∧ k = 0 then 255 else 0

/-- An MCU with the DCs 10, 12, 9, 9 in its Y blocks, -3 in Cb and 5 in Cr, and the AC
coefficient 2 at position 1 of Y0. -/
def mcu_sample : Nat → Nat → Int := fun i k =>
  if k = 0 then [10, 12, 9, 9, -3, 5].getD i 0 else if i = 0 ∧ k = 1 then 2 else 0

/-- The entropy state at the start of a scan with a zero bit buffer. -/
def zero_entropy_state : entropy_state :=
  { buffer := 0, bits := 0, last_dc_val := fun _ => 0 }

/-- The output vector is `out0` followed by bytes in which every `0xFF` is followed at
once by `0x00`. -/
def appended_stuffed (out0 : List Nat) (outputbuf : List Nat) : Prop :=
  ∃ app, outputbuf = out0 ++ app ∧ stuffing_holds app

/-! ## Container writer (`write_byte`, `write_2byte`, `write_marker`, the header
writers of `JPEGEncoder`) -/

/-- `write_byte(output_buf, value)`: `output_buf.push_back((char)value)`; the byte is
kept as its value `0 .. 255`. -/
def write_byte (output_buf : List Nat) (value : Int) : List Nat :=
  output_buf ++ [to_uchar value]

/-- `write_2byte(output_buf, value)` on an `int`. -/
def write_2byte (output_buf : List Nat) (value : Int) : List Nat :=
  write_byte (write_byte output_buf (Int.land (value >>> 0x8) 0xFF)) (Int.land value 0xFF)

/-- `write_marker(output_buf, value)`. -/
def write_marker (output_buf : List Nat) (value : Int) : List Nat :=
  write_byte (write_byte output_buf 0xFF) value

/-- The array `headMagic` of `write_file_header`. -/
def headMagic (i : Nat) : Nat := [0xFF, 0xD8, 0xFF, 0xE0].getD i 0

/-- The array `jfifApp0` of `write_file_header`; `'J'`, `'F'`, `'I'`, `'F'` are
`0x4A`, `0x46`, `0x49`, `0x46`. -/
def jfifApp0 (i : Nat) : Nat :=
  [0x00, 0x10, 0x4A, 0x46, 0x49, 0x46, 0x0, 0x1, 0x1, 0x0, 0x0, 0x1, 0x0, 0x1, 0x0, 0x0].getD i 0

/-- `JPEGEncoder::write_file_header(output)`: the two loops of `push_back`. -/
def write_file_header (output : List Nat) : List Nat :=
  let output := (List.range 0x4).foldl (fun o i => o ++ [headMagic i]) output
  (List.range 0x10).foldl (fun o i => o ++ [jfifApp0 i]) output

/-- `JPEGEncoder::write_quant_table(output_buf, index)`; `jpeg_natural_order` comes from
`tables.h` and is a parameter here. -/
def write_quant_table (m_quant_tbls : quant_tbls) (jpeg_natural_order : Nat → Nat)
    (output_buf : List Nat) (index : Nat) : List Nat :=
  let output_buf := write_marker output_buf 0xDB
  let output_buf := write_2byte output_buf (0x40 + 1 + 2)
  let output_buf := write_byte output_buf index
  (List.range 0x40).foldl
    (fun o i =>
      let qval := m_quant_tbls index (jpeg_natural_order i)
      write_byte o ((qval &&& 0xFF : Nat) : Int))
    output_buf

/-- `JPEGEncoder::write_sof(output_buf, w, h)`; the `size_t` arguments `w`, `h` are
converted to the `int` parameter of `write_2byte`. -/
def write_sof (output_buf : List Nat) (w h : Nat) : List Nat :=
  let output_buf := write_marker output_buf 0xC0
  let output_buf := write_2byte output_buf (3 * 0x3 + 2 + 5 + 1)
  let output_buf := write_byte output_buf 0x8
  let output_buf := write_2byte output_buf (to_int h)
  let output_buf := write_2byte output_buf (to_int w)
  let output_buf := write_byte output_buf 0x3
  let output_buf := write_byte output_buf 0x1
  let output_buf := write_byte output_buf (shl 0x2 4 + 0x2)
  let output_buf := write_byte output_buf 0
  let output_buf := write_byte output_buf 0x2
  let output_buf := write_byte output_buf (shl 0x1 4 + 0x1)
  let output_buf := write_byte output_buf 1
  let output_buf := write_byte output_buf 0x3
  let output_buf := write_byte output_buf (shl 0x1 4 + 0x1)
  write_byte output_buf 1

/-- `JPEGEncoder::write_frame_header(output_buf, w, h)`. -/
def write_frame_header (m_quant_tbls : quant_tbls) (jpeg_natural_order : Nat → Nat)
    (output_buf : List Nat) (w h : Nat) : List Nat :=
  let output_buf := write_quant_table m_quant_tbls jpeg_natural_order output_buf 0
  let output_buf := write_quant_table m_quant_tbls jpeg_natural_order output_buf 1
  write_sof output_buf w h

/-- `JPEGEncoder::write_huffman_table(output_buf, index, is_ac)` on the members
`m_dc_huff_tbls` and `m_ac_huff_tbls`, here the parameters `dc_huff_tbls` and
`ac_huff_tbls`; `length` is a `size_t`. -/
def write_huffman_table (dc_huff_tbls ac_huff_tbls : Nat → huffman_table)
    (output_buf : List Nat) (index : Nat) (is_ac : Nat) : List Nat :=
  let htbl := if is_ac ≠ 0 then ac_huff_tbls index else dc_huff_tbls index
  let index := if is_ac ≠ 0 then index + 0x10 else index
  let output_buf := write_marker output_buf 0xC4
  let length := (List.range' 1 0x10).foldl (fun length i => length + htbl.bits i) 0
  let output_buf := write_2byte output_buf (to_int ((length + 2 + 1 + 0x10 : Nat) : Int))
  let output_buf := write_byte output_buf index
  let output_buf := (List.range' 1 0x10).foldl (fun o i => write_byte o (htbl.bits i)) output_buf
  (List.range length).foldl (fun o i => write_byte o (htbl.value i)) output_buf

/-- `JPEGEncoder::write_sos(output_buf)`. -/
def write_sos (output_buf : List Nat) : List Nat :=
  let output_buf := write_marker output_buf 0xDA
  let output_buf := write_2byte output_buf (2 * 0x3 + 2 + 1 + 3)
  let output_buf := write_byte output_buf 0x3
  let output_buf := write_byte output_buf 1
  let output_buf := write_byte output_buf (shl 0 0x4 + 0)
  let output_buf := write_byte output_buf 2
  let output_buf := write_byte output_buf (shl 1 0x4 + 1)
  let output_buf := write_byte output_buf 3
  let output_buf := write_byte output_buf (shl 1 0x4 + 1)
  let output_buf := write_byte output_buf 0
  let output_buf := write_byte output_buf 0x3F
  write_byte output_buf 0

/-- `JPEGEncoder::write_scan_header(output_buf)`. -/
def write_scan_header (dc_huff_tbls ac_huff_tbls : Nat → huffman_table)
    (output_buf : List Nat) : List Nat :=
  let output_buf := write_huffman_table dc_huff_tbls ac_huff_tbls output_buf 0 0
  let output_buf := write_huffman_table dc_huff_tbls ac_huff_tbls output_buf 0 1
  let output_buf := write_huffman_table dc_huff_tbls ac_huff_tbls output_buf 1 0
  let output_buf := write_huffman_table dc_huff_tbls ac_huff_tbls output_buf 1 1
  write_sos output_buf

/-- The three header calls of `encode_image` (lines 200 to 203) on its fresh, empty
`output_buffer`. -/
def encode_image_headers (m_quant_tbls : quant_tbls) (jpeg_natural_order : Nat → Nat)
    (dc_huff_tbls ac_huff_tbls : Nat → huffman_table) (width height : Nat) : List Nat :=
  let output_buffer : List Nat := []
  let output_buffer := write_file_header output_buffer
  let output_buffer :=
    write_frame_header m_quant_tbls jpeg_natural_order output_buffer width height
  write_scan_header dc_huff_tbls ac_huff_tbls output_buffer

/-- Modelled from the spec: the table `jpeg_natural_order` of `tables.h`, the natural
index of the `i`-th coefficient in zig-zag order (index 0, then the order of the AC
walk). -/
def jpeg_natural_order (i : Nat) : Nat := (0 :: kloop_order).getD i 0

/-- The bytes of the SOI marker and the APP0/JFIF segment. -/
def soi_app0_bytes : List Nat :=
  [0xFF, 0xD8, 0xFF, 0xE0, 0x00, 0x10, 0x4A, 0x46, 0x49, 0x46, 0x00, 0x01, 0x01, 0x00, 0x00,
   0x01, 0x00, 0x01, 0x00, 0x00]

/-- The bytes of the DQT segment of table `index`: marker, length `0x0043`, the index,
the 64 values in zig-zag order. -/
def dqt_bytes (m_quant_tbls : quant_tbls) (jpeg_natural_order : Nat → Nat) (index : Nat) :
    List Nat :=
  [0xFF, 0xDB, 0x00, 0x43, index]
    ++ (List.range 0x40).map (fun i => m_quant_tbls index (jpeg_natural_order i))

/-- The bytes of the SOF0 segment for width `w` and height `h`. -/
def sof_bytes (w h : Nat) : List Nat :=
  [0xFF, 0xC0, 0x00, 0x11, 0x08, h / 256, h % 256, w / 256, w % 256,
   0x03, 0x01, 0x22, 0x00, 0x02, 0x11, 0x01, 0x03, 0x11, 0x01]

/-- The bytes of the DHT segment of a Huffman specification with table class `is_ac`
and table index `t`: marker, big-endian length `19 + n`, the byte `(is_ac << 4) | t`,
the 16 counts and the `n` values, `n` the sum of the counts. -/
def dht_bytes (htbl : huffman_table) (t is_ac : Nat) : List Nat :=
  [0xFF, 0xC4, (19 + bits_sum htbl) / 256, (19 + bits_sum htbl) % 256, (is_ac <<< 4) ||| t]
    ++ (List.range' 1 0x10).map htbl.bits
    ++ (List.range (bits_sum htbl)).map htbl.value

/-- The 14 bytes of the SOS segment. -/
def sos_bytes : List Nat :=
  [0xFF, 0xDA, 0x00, 0x0C, 0x03, 0x01, 0x00, 0x02, 0x11, 0x03, 0x11, 0x00, 0x3F, 0x00]

/-! ## Reciprocal quadruples (`compute_reciprocal`, `create_dct_division_tables`) -/

/-- Conversion to `short` (16 bit two's complement). -/
def to_short (x : Int) : Int := (x + 0x8000) % 0x10000 - 0x8000

/-- Conversion to `unsigned short` (16 bit). -/
def to_ushort (x : Int) : Nat := (x % 0x10000).toNat

/-- The four values that `compute_reciprocal` stores and the value it returns. -/
structure reciprocal_result where
  reciprocal : Int
  correction : Int
  scale : Int
  shift : Int
  ret : Int

/-- The computation of `compute_reciprocal(divisor, dtbl)`: the values stored at
`dtbl[0x40 * 0]`, `dtbl[0x40 * 1]`, `dtbl[0x40 * 2]`, `dtbl[0x40 * 3]`, each converted to
`short`, and the return value.  `fq`, `fr` are `unsigned int`, `c` is an
`unsigned short`, `b` and `r` are `int`; a divisor of 0 divides by zero in the code
and has no meaning here. -/
def compute_reciprocal_values (divisor : Nat) : reciprocal_result :=
  if divisor = 1 then
    { reciprocal := to_short 1, correction := to_short 0, scale := to_short 1,
      shift := to_short (-(to_short (2 * 8))), ret := 0 }
  else
    let b : Int := nbits_table divisor - 1
    let r : Int := to_int (2 * 8 + b)
    let fq : Nat := to_uint (shl 1 r.toNat) / divisor
    let fr : Nat := to_uint (shl 1 r.toNat) % divisor
    let c : Nat := to_ushort ((divisor >>> 0x1 : Nat) : Int)
    let fq1 : Nat := if fr = 0 then fq >>> 1 else if fr ≤ divisor / 2 then fq else to_uint (fq + 1)
    let r1 : Int := if fr = 0 then to_int (r - 1) else r
    let c1 : Nat := if fr = 0 then c else if fr ≤ divisor / 2 then to_ushort (c + 1) else c
    { reciprocal := to_short fq1,
      correction := to_short c1,
      scale := to_short (to_int (shl 1 (2 * 8 * 2 - r1).toNat)),
      shift := to_short (to_size_t (to_short r1 - 2 * 8)),
      ret := if r1 ≤ 16 then 0 else 1 }

/-- `compute_reciprocal(divisor, dtbl)`: the four stores into `dtbl` and the return
value. -/
def compute_reciprocal (divisor : Nat) (dtbl : Nat → Int) : (Nat → Int) × Int :=
  let v := compute_reciprocal_values divisor
  let dtbl := Function.update dtbl (0x40 * 0) v.reciprocal
  let dtbl := Function.update dtbl (0x40 * 1) v.correction
  let dtbl := Function.update dtbl (0x40 * 2) v.scale
  let dtbl := Function.update dtbl (0x40 * 3) v.shift
  (dtbl, v.ret)

/-- One of the two loops of `create_dct_division_tables`:
`compute_reciprocal(qtblptr->value[i] << 0x3, &dtblptr[i])` for `i = 0 .. 0x3F`, the
argument converted to `unsigned short`; `dtblptr[i + k]` is `&dtblptr[i]` at `k`. -/
def create_dct_division_table (value : Nat → Nat) (dtblptr : Nat → Int) : Nat → Int :=
  (List.range 0x40).foldl
    (fun d i =>
      let res := compute_reciprocal (to_ushort (shl (value i) 0x3)) (fun k => d (i + k))
      fun j => if i ≤ j then res.1 (j - i) else d j)
    dtblptr

/-- `JPEGEncoder::create_dct_division_tables()` on the members `m_quant_tbls` and
`m_fdct_divisors`. -/
def create_dct_division_tables (m_quant_tbls : quant_tbls) (m_fdct_divisors : Nat → Nat → Int) :
    Nat → Nat → Int :=
  let d := Function.update m_fdct_divisors 0
    (create_dct_division_table (m_quant_tbls 0) (m_fdct_divisors 0))
  Function.update d 1 (create_dct_division_table (m_quant_tbls 1) (d 1))

/-- What makes the multiplication by `fq` and the shift by `r` a division by `d` with
rounding for `x ≤ 32767`: `fq` is the exact quotient `2^r / d`, or the quotient rounded
down with the correction `d / 2 + 1`, or rounded up with the correction `d / 2`, and
in the last two cases the error of `fq` is small against `2^r`. -/
def reciprocal_ok (d r fq c : Nat) : Prop :=
  0 < d
  ∧ ((c = d / 2 ∧ fq * d = 2 ^ r)
    ∨ (c = d / 2 + 1 ∧ fq * d < 2 ^ r ∧ (32767 + d / 2 + 1) * (2 ^ r - fq * d) ≤ 2 ^ r)
    ∨ (c = d / 2 ∧ 2 ^ r < fq * d ∧ (32767 + d / 2) * (fq * d - 2 ^ r) < 2 ^ r))

instance reciprocal_ok_decidable (d r fq c : Nat) : Decidable (reciprocal_ok d r fq c) := by
  unfold reciprocal_ok
  infer_instance

/-- The check of the stored values of one divisor `8 * v`. -/
def reciprocal_values_ok (v : Nat) : Bool :=
  let q := compute_reciprocal_values (8 * v)
  decide (0 ≤ q.correction ∧ 0 ≤ q.shift
    ∧ reciprocal_ok (8 * v) (16 + q.shift.toNat) (to_ushort q.reciprocal) q.correction.toNat)

/-! ### The emissions of one block -/

/-- The run-length part of `encode_entropy_single_block`: `r = 0`, the 63 `kloop(k)`
calls and the end-of-block code, on the emit state. -/
def encode_block_ac (acd : derived_huffman_table) (block : Nat → Int) (s : emit_state) :
    emit_state :=
  let rs := kloop_order.foldl (fun rs k => kloop acd block k rs) (0, s)
  if rs.1 > 0 then EMIT_BITS (to_int (acd.code 0)) (acd.length 0) rs.2 else rs.2

/-- One thing that `encode_entropy_single_block` hands to the bit writer: the code of
the entry `index` of the DC table, the code of the entry `index` of the AC table, or
the `nbits` low bits of `temp2`. -/
inductive emitted where
  | dc_symbol (index : Nat)
  | ac_symbol (index : Nat)
  | magnitude (temp2 : Int) (nbits : Nat)
deriving DecidableEq

/-- The code and size that go to the bit writer for an emitted thing; a table code is
the `int` that the local `code` holds. -/
def emitted_bits (dcd acd : derived_huffman_table) : emitted → Int × Nat
  | emitted.dc_symbol index => (to_int (dcd.code index), dcd.length index)
  | emitted.ac_symbol index => (to_int (acd.code index), acd.length index)
  | emitted.magnitude temp2 nbits => (temp2, nbits)

/-- The value of `nbits` after the sign handling of `encode_entropy_single_block` on
`temp` (`temp3 = temp >> 31; temp ^= temp3; temp -= temp3; nbits = nbits_table[temp]`). -/
def sign_nbits (temp : Int) : Nat :=
  let temp3 := temp >>> 31
  let temp := Int.xor temp temp3
  let temp := to_int (temp - temp3)
  nbits_table temp.toNat

/-- The value of `temp2` after the sign handling of `encode_entropy_single_block`
(`temp2 += temp3`). -/
def sign_temp2 (temp : Int) : Int :=
  to_int (temp + (temp >>> 31))

/-- The two emissions of the DC part of `encode_entropy_single_block` for the
difference `diff`. -/
def dc_trace (diff : Int) : List emitted :=
  [ emitted.dc_symbol (sign_nbits diff),
    emitted.magnitude
      (to_int (to_long (Int.land (sign_temp2 diff)
        (to_long (to_long (shl 1 (sign_nbits diff)) - 1)))))
      (sign_nbits diff) ]

/-- The emissions of `kloop(k)` added to those before it, with the run length `r`:
`r / 16` times the entry `0xf0`, the entry `(r << 4) + nbits` for the `r` that the
`while` loop leaves, and the bits of `temp2`. -/
def kloop_trace (block : Nat → Int) (k : Nat) (rt : Nat × List emitted) : Nat × List emitted :=
  if block k = 0 then (rt.1 + 1, rt.2)
  else
    (0, rt.2 ++ List.replicate (rt.1 / 16) (emitted.ac_symbol 0xf0)
      ++ [ emitted.ac_symbol (((rt.1 % 16) <<< 4) + sign_nbits (block k)),
           emitted.magnitude
             (to_int (Int.land (sign_temp2 (block k))
               (to_int (to_int (shl 1 (sign_nbits (block k))) - 1))))
             (sign_nbits (block k)) ])

/-- The emissions of the 63 `kloop(k)` calls in their order, with the run length that
is left after the last one. -/
def walk_trace (block : Nat → Int) (order : List Nat) : Nat × List emitted :=
  order.foldl (fun rt k => kloop_trace block k rt) (0, [])

/-- The emissions of the run-length part of `encode_entropy_single_block`: those of
the 63 `kloop(k)` calls, and the entry 0 of the AC table if `r > 0` after them. -/
def ac_trace (block : Nat → Int) : List emitted :=
  let rt := walk_trace block kloop_order
  if rt.1 > 0 then rt.2 ++ [emitted.ac_symbol 0] else rt.2

/-- The emissions of `encode_entropy_single_block` for a block and its DC difference. -/
def block_trace (block : Nat → Int) (diff : Int) : List emitted :=
  dc_trace diff ++ ac_trace block

/-- The magnitude bits of a value as the specification gives them: the value itself if
it is positive, the value plus `2^n - 1` if not. -/
def magnitude_value (v : Int) (n : Nat) : Int :=
  if v > 0 then v else v + 2 ^ n - 1

/-- The emissions for a non-zero AC coefficient `v` after a run of `r` zeros as the
specification gives them: `r / 16` times ZRL (`0xF0`), the symbol
`((r mod 16) << 4) | n` with `n` the bit length of `|v|`, and `n` magnitude bits. -/
def coefficient_items (r : Nat) (v : Int) : List emitted :=
  List.replicate (r / 16) (emitted.ac_symbol 0xF0)
    ++ [ emitted.ac_symbol (((r % 16) <<< 4) ||| Nat.size v.natAbs),
         emitted.magnitude (magnitude_value v (Nat.size v.natAbs)) (Nat.size v.natAbs) ]

/-- The walk over AC positions as the specification gives it, from the run length `r`:
a zero coefficient adds one to the run and emits nothing, a non-zero one emits its
items and starts a new run. -/
def walk_items (block : Nat → Int) : List Nat → Nat → List emitted
  | [], _ => []
  | k :: order, r =>
    if block k = 0 then walk_items block order (r + 1)
    else coefficient_items r (block k) ++ walk_items block order 0

/-- A table with the three codes `00`, `01`, `10` for the AC entries `0x10`, `0x20`
and `0x00`. -/
def run_table : huffman_table :=
  { bits := fun l => if l = 2 then 3 else 0, value := fun p => [0x10, 0x20, 0x00].getD p 0 }

/-- A block with the coefficient -32768 at position 8 after one zero at position 1,
all others zero. -/
def block_min_short : Nat → Int := fun k => if k = 8 then -32768 else 0

/-- An emit state with an empty bit buffer and an empty output vector. -/
def empty_emit_state : emit_state := { put_buffer := 0, put_bits := 0, outputbuf := [] }

/-- A block with the DC 7 and the AC coefficients 5 at position 1, -3 at position 2 and
1 at position 35, all others zero; in the order of the walk 3 zeros lie before
position 2 and 26 zeros between position 2 and position 35. -/
def block_sample : Nat → Int := fun k =>
  if k = 0 then 7 else if k = 1 then 5 else if k = 2 then -3 else if k = 35 then 1 else 0

/-! ### Reference definitions for the bit writer -/

/-- The bits of a list of bytes, each byte most significant bit first. -/
def bits_of_bytes (bytes : List Nat) : List Bool :=
  bytes.flatMap (fun c => code_word c 8)

/-- The bytes that the flush of `encode_image` writes for a list of data bytes: each
byte `c`, and after a byte `0xFF` the byte that the flush pushes behind it (`c` again). -/
def flush_bytes (data : List Nat) : List Nat :=
  data.flatMap (fun c => if c = 0xFF then [c, c] else [c])

/-- The bits of a list of emissions `(code, size)` in their order, each code as a word
of `size` bits, most significant bit first. -/
def emission_bits (emissions : List (Int × Nat)) : List Bool :=
  emissions.flatMap (fun e => code_word e.1.toNat e.2)

/-- Every emission has a code that fits its size, and a size of at most 16 bits. -/
def emissions_fit (emissions : List (Int × Nat)) : Prop :=
  ∀ e, e ∈ emissions → 0 ≤ e.1 ∧ e.1 < 2 ^ e.2 ∧ e.2 ≤ 16

/-- The number of 1-bits that fill `k` bits up to a byte boundary. -/
def pad_bits (k : Nat) : Nat := (8 - k % 8) % 8

/-- The state of the bit writer against the bits written so far: at most 15 bits are
pending, the output is `out0` followed by the stuffed bytes `data`, and the bits are
those of `data` followed by the pending bits, the low `put_bits` bits of `put_buffer`. -/
def writer_inv (out0 : List Nat) (bits : List Bool) (data : List Nat) (s : emit_state) : Prop :=
  s.put_bits ≤ 15
  ∧ s.outputbuf = out0 ++ stuff_bytes data
  ∧ (∀ c, c ∈ data → c < 0x100)
  ∧ bits = bits_of_bytes data ++ code_word s.put_buffer s.put_bits

/-- The emissions of a list of blocks in their order, each block with the tables of
its table index. -/
def calls_emissions (m_dc_derived_tbls m_ac_derived_tbls : Nat → derived_huffman_table)
    (calls : List block_call) : List (Int × Nat) :=
  calls.flatMap (fun c =>
    (block_trace c.block c.diff).map
      (emitted_bits (m_dc_derived_tbls c.table_index) (m_ac_derived_tbls c.table_index)))

/-- Every entry of every table has a code that fits its length, and a length of at
most 16. -/
def tables_fit (m_dc_derived_tbls m_ac_derived_tbls : Nat → derived_huffman_table) : Prop :=
  ∀ i s, ((m_dc_derived_tbls i).code s < 2 ^ (m_dc_derived_tbls i).length s
      ∧ (m_dc_derived_tbls i).length s ≤ 0x10)
    ∧ ((m_ac_derived_tbls i).code s < 2 ^ (m_ac_derived_tbls i).length s
      ∧ (m_ac_derived_tbls i).length s ≤ 0x10)

/-- Every one of the 64 coefficients of the 6 blocks of every MCU of the list is a
`short`. -/
def mcus_short (mcus : List (Nat → Nat → Int)) : Prop :=
  ∀ mcu, mcu ∈ mcus → ∀ i, i < 0x6 → ∀ k, k < 0x40 → short_ok (mcu i k)

/-! ## The host part of `encode_image` -/

/-- The check that `compute_reciprocal` returns 1 for the divisor `8 * v`. -/
def reciprocal_returns_one (v : Nat) : Bool :=
  decide ((compute_reciprocal_values (8 * v)).ret = 1)

/-- The three arrays that `encode_image` reads back from the device and casts to
`y_blocks[id][b][k]`, `cb_blocks[id][k]`, `cr_blocks[id][k]`. -/
structure host_blocks where
  y_blocks : Nat → Nat → Nat → Int
  cb_blocks : Nat → Nat → Int
  cr_blocks : Nat → Nat → Int

/-- `cl_uint nbw = (width + 0x7) >> 0x3`: the sum and the shift on `size_t`, the
result cut to the 32 bits of `cl_uint`. -/
def encode_image_nbw (width : Nat) : Nat :=
  to_uint ((to_size_t ((width + 0x7 : Nat) : Int) >>> 0x3 : Nat) : Int)

/-- `cl_uint nbh = (height + 0x7) >> 0x3`. -/
def encode_image_nbh (height : Nat) : Nat :=
  to_uint ((to_size_t ((height + 0x7 : Nat) : Int) >>> 0x3 : Nat) : Int)

/-- `cl_uint nsbw = (width + 0xF) >> 0x4`. -/
def encode_image_nsbw (width : Nat) : Nat :=
  to_uint ((to_size_t ((width + 0xF : Nat) : Int) >>> 0x4 : Nat) : Int)

/-- `cl_uint nsbh = (height + 0xF) >> 0x4`. -/
def encode_image_nsbh (height : Nat) : Nat :=
  to_uint ((to_size_t ((height + 0xF : Nat) : Int) >>> 0x4 : Nat) : Int)

/-- The body of the loop over `gx` of the edge fix-up of `encode_image` on `y_blocks`,
with the locals `super_block_y`, `super_block_id_base` and `nbh`. -/
def encode_image_fixup_step (super_block_y super_block_id_base nbh : Nat)
    (y_blocks : Nat → Nat → Nat → Int) (gx : Nat) : Nat → Nat → Nat → Int :=
  if to_size_t (to_size_t ((super_block_y <<< 0x1 : Nat) : Int) + 1) ≥ nbh then
    let super_block_x := gx
    let super_block_id := to_size_t ((super_block_id_base + super_block_x : Nat) : Int)
    let value := y_blocks super_block_id 1 0
    let y_blocks : Nat → Nat → Nat → Int := fun id b k =>
      if id = super_block_id ∧ b = 2 ∧ k = 0 then value else y_blocks id b k
    fun id b k => if id = super_block_id ∧ b = 3 ∧ k = 0 then value else y_blocks id b k
  else y_blocks

/-- The edge fix-up of `encode_image`: `super_block_y = nsbh - 1` (on `cl_uint`),
`super_block_id_base = super_block_y * nsbw` (on `size_t`) and the loop
`for (gx = 0; gx < nsbw; ++gx)`; only `y_blocks` is written. -/
def encode_image_fixup (width height : Nat) (blocks : host_blocks) : host_blocks :=
  let nbh := encode_image_nbh height
  let nsbw := encode_image_nsbw width
  let nsbh := encode_image_nsbh height
  let super_block_y := to_uint ((nsbh : Int) - 1)
  let super_block_id_base := to_size_t ((super_block_y * nsbw : Nat) : Int)
  { y_blocks := (List.range nsbw).foldl
      (encode_image_fixup_step super_block_y super_block_id_base nbh) blocks.y_blocks,
    cb_blocks := blocks.cb_blocks,
    cr_blocks := blocks.cr_blocks }

/-- The array `mcu_buffer` that the entropy loop of `encode_image` fills for the super
block `i`: the four blocks of `y_blocks[i]`, `cb_blocks[i]` and `cr_blocks[i]`. -/
def encode_image_mcu (blocks : host_blocks) (i : Nat) : Nat → Nat → Int := fun b =>
  if b = 0 then blocks.y_blocks i 0
  else if b = 1 then blocks.y_blocks i 1
  else if b = 2 then blocks.y_blocks i 2
  else if b = 3 then blocks.y_blocks i 3
  else if b = 4 then blocks.cb_blocks i
  else blocks.cr_blocks i

/-- The MCUs of the entropy loop of `encode_image`: `wg = nsbw * nsbh`, a product on
`cl_uint`, and one MCU for each `i < wg`. -/
def encode_image_mcus (width height : Nat) (blocks : host_blocks) : List (Nat → Nat → Int) :=
  let wg := to_uint ((encode_image_nsbw width * encode_image_nsbh height : Nat) : Int)
  (List.range wg).map (encode_image_mcu blocks)

/-- What a call of `encode_image` gives: the value returned and the bytes handed to
`fwrite` (none if `fwrite` is not reached). -/
structure encode_image_result where
  ret : Int
  written : List Nat

/-- `JPEGEncoder::encode_image(image, width, height, file)` on the host.  The
parameters stand for what the function reads: `image_null` for `image == NULL`,
`fp_null` for `fopen` returning `NULL`, the tables of the encoder, the blocks read
back from the device after the kernels (the kernels are not part of the source), and
`state_buffer` for the value of the member `state.buffer`, which is not initialised. -/
def encode_image (m_quant_tbls : quant_tbls) (jpeg_natural_order : Nat → Nat)
    (m_dc_huff_tbls m_ac_huff_tbls : Nat → huffman_table)
    (m_dc_derived_tbls m_ac_derived_tbls : Nat → derived_huffman_table)
    (image_null fp_null : Bool) (width height : Nat) (device_blocks : host_blocks)
    (state_buffer : Nat) : encode_image_result :=
  if image_null then { ret := 0x2, written := [] }
  else if fp_null then { ret := 0x1, written := [] }
  else
    let output_buffer := encode_image_headers m_quant_tbls jpeg_natural_order m_dc_huff_tbls
      m_ac_huff_tbls width height
    let blocks := encode_image_fixup width height device_blocks
    let os := encode_image_entropy m_dc_derived_tbls m_ac_derived_tbls
      (encode_image_mcus width height blocks) output_buffer state_buffer
    let output_buffer := encode_image_flush os.1 os.2
    let output_buffer := write_marker output_buffer 0xD9
    { ret := 0x0, written := output_buffer }

/-! ### Calls of `encode_entropy_single_block` -/

/-- The arguments of one call of `encode_entropy_single_block`: the block, the table
index and `last_dc_val`. -/
structure single_block_call where
  block : Nat → Int
  table_index : Nat
  last_dc_val : Int

/-- A sequence of calls of `encode_entropy_single_block` on the output vector and the
entropy state. -/
def encode_single_blocks (m_dc_derived_tbls m_ac_derived_tbls : Nat → derived_huffman_table)
    (calls : List single_block_call) (outputbuf : List Nat) (state : entropy_state) :
    List Nat × entropy_state :=
  calls.foldl
    (fun (os : List Nat × entropy_state) c =>
      encode_entropy_single_block m_dc_derived_tbls m_ac_derived_tbls c.block c.table_index
        c.last_dc_val os.1 os.2)
    (outputbuf, state)

/-- The block of a call with the DC difference that the call computes,
`block[0] - last_dc_val` on `int`. -/
def call_diff (c : single_block_call) : block_call :=
  { block := c.block, table_index := c.table_index, diff := to_int (c.block 0 - c.last_dc_val) }

/-- The emissions of a sequence of calls of `encode_entropy_single_block`. -/
def single_blocks_emissions (m_dc_derived_tbls m_ac_derived_tbls : Nat → derived_huffman_table)
    (calls : List single_block_call) : List (Int × Nat) :=
  calls_emissions m_dc_derived_tbls m_ac_derived_tbls (calls.map call_diff)

/-- Every call has a `last_dc_val` in the range of `short` and a block of 64 `short`
coefficients. -/
def calls_short (calls : List single_block_call) : Prop :=
  ∀ c, c ∈ calls → short_ok c.last_dc_val ∧ ∀ k, k < 0x40 → short_ok (c.block k)

/-- The bytes with the `0x00` after every `0xFF` taken out. -/
def unstuff_bytes : List Nat → List Nat
  | [] => []
  | [c] => [c]
  | c :: d :: rest =>
    if c = 0xFF ∧ d = 0 then c :: unstuff_bytes rest else c :: unstuff_bytes (d :: rest)

/-- Two emit states with the same bit count and output whose bit buffers have the same
low `put_bits` bits. -/
def low_agree (s t : emit_state) : Prop :=
  s.put_bits = t.put_bits ∧ s.outputbuf = t.outputbuf
  ∧ ∀ i, i < s.put_bits → s.put_buffer.testBit i = t.put_buffer.testBit i

/-- Two results of the entropy coder with the same output, bit count and last DC
values whose bit buffers have the same low `bits` bits. -/
def scan_agree (x y : List Nat × entropy_state) : Prop :=
  x.1 = y.1 ∧ x.2.bits = y.2.bits ∧ x.2.last_dc_val = y.2.last_dc_val
  ∧ ∀ i, i < x.2.bits → x.2.buffer.testBit i = y.2.buffer.testBit i

/-- A call for a block of zeros after the DC 0, with the table index 0. -/
def zero_call : single_block_call :=
  { block := fun _ => 0, table_index := 0, last_dc_val := 0 }

/-- A specification with 2 codes of 15 bits and 255 codes of 16 bits, 257 in all. -/
def overlong_table : huffman_table :=
  { bits := fun l => if l = 15 then 2 else if l = 16 then 255 else 0, value := fun p => p % 256 }

/-- Blocks read back from the device with the DC 5 in every block Y1 and zeros
elsewhere. -/
def blocks_y1 : host_blocks :=
  { y_blocks := fun _ b k => if b = 1 ∧ k = 0 then 5 else 0,
    cb_blocks := fun _ _ => 0,
    cr_blocks := fun _ _ => 0 }

/-! ### The symbols that a block looks up -/

/-- An emission that the specification lists: a DC category `n ≤ 11`, ZRL (`0xF0`),
EOB (`0x00`), an AC symbol `(r << 4) | n` with `r ≤ 15` and `1 ≤ n ≤ 10`, or
magnitude bits. -/
def listed_emission (e : emitted) : Prop :=
  (∃ n, e = emitted.dc_symbol n ∧ n ≤ 11)
  ∨ e = emitted.ac_symbol 0xF0
  ∨ e = emitted.ac_symbol 0x00
  ∨ (∃ r n, e = emitted.ac_symbol ((r <<< 4) ||| n) ∧ r ≤ 15 ∧ 1 ≤ n ∧ n ≤ 10)
  ∨ (∃ v n, e = emitted.magnitude v n)

/-- The check that a pair of derived DC and AC tables gives a length other than 0 to
every listed symbol, for the table indices 0 and 1. -/
def listed_lengths (t : (Nat → derived_huffman_table) × (Nat → derived_huffman_table)) : Bool :=
  decide (∀ ti ∈ [0, 1],
    (∀ n ∈ List.range 12, (t.1 ti).length n ≠ 0)
    ∧ (t.2 ti).length 0xF0 ≠ 0
    ∧ (t.2 ti).length 0x00 ≠ 0
    ∧ ∀ r ∈ List.range 16, ∀ n ∈ List.range' 1 10, (t.2 ti).length ((r <<< 4) ||| n) ≠ 0)

/-! ## The reciprocal before its conversion to `short` -/

/-- The value of `fq` in `compute_reciprocal(divisor, dtbl)` at the store
`dtbl[0x40 * 0] = (short) fq`, for a divisor other than 1. -/
def compute_reciprocal_fq (divisor : Nat) : Nat :=
  let b : Int := nbits_table divisor - 1
  let r : Int := to_int (2 * 8 + b)
  let fq : Nat := to_uint (shl 1 r.toNat) / divisor
  let fr : Nat := to_uint (shl 1 r.toNat) % divisor
  if fr = 0 then fq >>> 1 else if fr ≤ divisor / 2 then fq else to_uint (fq + 1)

/-- The check of the normalisation of the stored values of one divisor `8 * v`. -/
def reciprocal_quadruple_ok (v : Nat) : Bool :=
  let q := compute_reciprocal_values (8 * v)
  decide (2 ≤ q.shift ∧ q.shift ≤ 10
    ∧ q.scale = ((2 ^ (16 - q.shift.toNat) : Nat) : Int)
    ∧ q.scale * ((2 ^ q.shift.toNat : Nat) : Int) = 0x10000
    ∧ 0 < q.scale ∧ q.scale ≤ 0x7FFF
    ∧ (q.correction = ((8 * v / 2 : Nat) : Int) ∨ q.correction = ((8 * v / 2 : Nat) : Int) + 1)
    ∧ 0x8000 ≤ compute_reciprocal_fq (8 * v) ∧ compute_reciprocal_fq (8 * v) ≤ 0xFFFF
    ∧ q.reciprocal < 0
    ∧ to_ushort q.reciprocal = compute_reciprocal_fq (8 * v))

/-! ## Sample calls with the standard tables -/

/-- The four derived tables that `create_derived_huffman_tables` builds from the standard
specifications (tables of zeros if it had no result). -/
def standard_derived_tbls : (Nat → derived_huffman_table) × (Nat → derived_huffman_table) :=
  create_derived_huffman_tables.getD (fun _ => zero_derived_tbl, fun _ => zero_derived_tbl)

/-- A call for a luminance block with the DC 255 after the DC 0, the coefficient 1 at
index 8 and zeros elsewhere. -/
def dc_255_call : single_block_call :=
  { block := fun k => if k = 0 then 255 else if k = 8 then 1 else 0, table_index := 0,
    last_dc_val := 0 }

/-- A call for a chrominance block with the DC 260 after the DC 255, the coefficient 3
at index 1 and the coefficient 1 at index 24. -/
def ac_3_call : single_block_call :=
  { block := fun k => if k = 0 then 260 else if k = 1 then 3 else if k = 24 then 1 else 0,
    table_index := 1, last_dc_val := 255 }

/-! ### Lemmas on the quantisation tables -/

theorem to_long_of_small (x : Int) (h0 : 0 ≤ x) (h1 : x < 0x8000000000000000) :
    to_long x = x := by
  unfold to_long
  omega

theorem foldl_update_range (f : Nat → Nat) (n : Nat) (init : Nat → Nat) (i : Nat) :
    (List.range n).foldl (fun value k => Function.update value k (f k)) init i
      = if i < n then f i else init i := by
  induction n with
  | zero => simp
  | succ n ih =>
    rw [List.range_succ, List.foldl_append]
    simp only [List.foldl_cons, List.foldl_nil]
    by_cases h : i = n
    · subst h
      simp
    · rw [Function.update_noteq h, ih]
      have : (i < n + 1) ↔ (i < n) := by omega
      simp [this]

theorem create_quant_table_apply (m_quant_tbls : quant_tbls) (table_idx scale : Nat)
    (base_table : Nat → Nat) (i : Nat) (hi : i < 0x40) :
    create_quant_table m_quant_tbls table_idx scale base_table table_idx i
      = create_quant_table_value scale (base_table i) := by
  unfold create_quant_table
  rw [Function.update_same, foldl_update_range]
  simp [hi]

theorem create_quant_table_other (m_quant_tbls : quant_tbls) (table_idx scale : Nat)
    (base_table : Nat → Nat) (j : Nat) (hj : j ≠ table_idx) :
    create_quant_table m_quant_tbls table_idx scale base_table j = m_quant_tbls j := by
  unfold create_quant_table
  rw [Function.update_noteq hj]

theorem create_quant_table_value_range (scale b : Nat) :
    1 ≤ create_quant_table_value scale b ∧ create_quant_table_value scale b ≤ 255 := by
  unfold create_quant_table_value to_uchar
  simp only
  split_ifs <;> omega

theorem create_quant_table_value_eq (scale b : Nat) (hs : scale < 0x100)
    (hb : b < 0x100000000) :
    create_quant_table_value scale b = min (max ((b * scale + 50) / 100) 1) 255 := by
  have hprod : b * scale < 0x100000000 * 0x100 :=
    Nat.mul_lt_mul'' hb hs
  have hcast : ((b : Int) * scale) = ((b * scale : Nat) : Int) := by push_cast; rfl
  have h1 : to_long (b : Int) = b := to_long_of_small _ (by omega) (by omega)
  have h2 : to_long ((b : Int) * scale) = (b : Int) * scale := by
    rw [hcast]
    exact to_long_of_small _ (by omega) (by omega)
  have h3 : to_long ((b : Int) * scale + 50) = (b : Int) * scale + 50 := by
    rw [hcast]
    exact to_long_of_small _ (by omega) (by omega)
  unfold create_quant_table_value
  simp only [h1, h2, h3]
  have h4 : Int.tdiv ((b : Int) * scale + 50) 100 = (((b * scale + 50) / 100 : Nat) : Int) := by
    have : ((b : Int) * scale + 50) = ((b * scale + 50 : Nat) : Int) := by push_cast; ring
    rw [this]
    rfl
  rw [h4]
  unfold to_uchar
  generalize (b * scale + 50) / 100 = t
  split_ifs <;> omega

/-! ### Figure C.1: the list of code lengths -/

theorem derive_huffsize_fill_eq (l i : Nat) (huffsize : List Nat) :
    derive_huffsize_fill l i huffsize = huffsize ++ List.replicate i l := by
  induction i generalizing huffsize with
  | zero => simp [derive_huffsize_fill]
  | succ i ih =>
    rw [derive_huffsize_fill, ih, List.replicate_succ]
    simp

theorem foldl_fill_eq (bits : Nat → Nat) (ls init : List Nat) :
    ls.foldl (fun huffsize l => derive_huffsize_fill l (bits l) huffsize) init
      = init ++ ls.flatMap (fun l => List.replicate (bits l) l) := by
  induction ls generalizing init with
  | nil => simp
  | cons l ls ih =>
    rw [List.foldl_cons, ih, derive_huffsize_fill_eq]
    simp

theorem derive_huffsize_eq (htbl : huffman_table) :
    derive_huffsize htbl
      = (List.range' 1 0x10).flatMap (fun l => List.replicate (htbl.bits l) l) := by
  unfold derive_huffsize
  rw [foldl_fill_eq]
  simp

theorem flatMap_replicate_length (bits : Nat → Nat) (ls : List Nat) :
    (ls.flatMap (fun l => List.replicate (bits l) l)).length = (ls.map bits).sum := by
  induction ls with
  | nil => simp
  | cons l ls ih => simp [ih]

theorem derive_huffsize_length (htbl : huffman_table) :
    (derive_huffsize htbl).length = bits_sum htbl := by
  rw [derive_huffsize_eq, flatMap_replicate_length]
  rfl

theorem flatMap_replicate_sorted (bits : Nat → Nat) (ls : List Nat)
    (hls : ls.Pairwise (· < ·)) :
    (ls.flatMap (fun l => List.replicate (bits l) l)).Pairwise (· ≤ ·) := by
  induction ls with
  | nil => simp
  | cons l ls ih =>
    rw [List.pairwise_cons] at hls
    simp only [List.flatMap_cons]
    rw [List.pairwise_append]
    refine ⟨?_, ih hls.2, ?_⟩
    · rw [List.pairwise_replicate]
      right
      exact le_refl l
    · intro a ha b hb
      rw [List.mem_replicate] at ha
      rw [List.mem_flatMap] at hb
      obtain ⟨k, hk, hbk⟩ := hb
      rw [List.mem_replicate] at hbk
      have := hls.1 k hk
      omega

theorem derive_huffsize_sorted (htbl : huffman_table) :
    (derive_huffsize htbl).Pairwise (· ≤ ·) := by
  rw [derive_huffsize_eq]
  apply flatMap_replicate_sorted
  decide

theorem derive_huffsize_mem (htbl : huffman_table) (x : Nat) (hx : x ∈ derive_huffsize htbl) :
    1 ≤ x ∧ x ≤ 0x10 := by
  rw [derive_huffsize_eq, List.mem_flatMap] at hx
  obtain ⟨k, hk, hxk⟩ := hx
  rw [List.mem_replicate] at hxk
  rw [List.mem_range'] at hk
  omega

theorem getD_append_terminator (hs : List Nat) (p : Nat) :
    (hs ++ [0]).getD p 0 = hs.getD p 0 := by
  by_cases h : p < hs.length
  · rw [List.getD_append _ _ _ _ h]
  · have h1 : hs.length ≤ p := by omega
    rw [List.getD_eq_default hs 0 h1]
    rcases Nat.eq_or_lt_of_le h1 with h2 | h2
    · subst h2
      simp
    · rw [List.getD_eq_default]
      simp
      omega

theorem derive_huffsize_ok (htbl : huffman_table) :
    sizes_ok (derive_huffsize htbl ++ [0]) (bits_sum htbl) := by
  have hlen := derive_huffsize_length htbl
  refine ⟨?_, ?_, ?_⟩
  · intro p hp
    rw [getD_append_terminator, List.getD_eq_default]
    omega
  · intro p hp
    rw [getD_append_terminator, List.getD_eq_getElem _ _ (by omega)]
    exact derive_huffsize_mem htbl _ (List.getElem_mem _)
  · intro i j hij hj
    rw [getD_append_terminator, getD_append_terminator,
      List.getD_eq_getElem _ _ (by omega), List.getD_eq_getElem _ _ (by omega)]
    rcases Nat.eq_or_lt_of_le hij with h | h
    · subst h
      exact le_refl _
    · exact List.pairwise_iff_getElem.mp (derive_huffsize_sorted htbl) i j (by omega) (by omega) h

/-! ### Figure C.2: the codes -/

theorem derive_huffcode_inner_spec (L : List Nat) (n si : Nat)
    (hz : ∀ p, n ≤ p → L.getD p 0 = 0) (hsi : 1 ≤ si) :
    ∀ (fuel p code : Nat) (hc : Nat → Nat), p ≤ n → n - p < fuel → code < 0x100000000 →
      ∃ p1 code1 hc1,
        derive_huffcode_inner L si fuel (p, code, hc) = some (p1, code1, hc1)
        ∧ p ≤ p1 ∧ p1 ≤ n ∧ L.getD p1 0 ≠ si
        ∧ (∀ j, p ≤ j → j < p1 → L.getD j 0 = si ∧ hc1 j = (code + (j - p)) % 0x100000000)
        ∧ (∀ j, j < p → hc1 j = hc j)
        ∧ code1 = (code + (p1 - p)) % 0x100000000 := by
  intro fuel
  induction fuel with
  | zero => intro p code hc _ hf; omega
  | succ fuel ih =>
    intro p code hc hp hf hcode
    by_cases h : L.getD p 0 = si
    · have hpn : p < n := by
        by_contra hcon
        have := hz p (by omega)
        omega
      obtain ⟨p1, code1, hc1, hrun, h1, h2, h3, h4, h5, h6⟩ :=
        ih (p + 1) ((code + 1) % 0x100000000) (Function.update hc p code)
          (by omega) (by omega) (Nat.mod_lt _ (by decide))
      refine ⟨p1, code1, hc1, ?_, by omega, h2, h3, ?_, ?_, ?_⟩
      · rw [derive_huffcode_inner, if_pos h]
        exact hrun
      · intro j hj1 hj2
        rcases Nat.eq_or_lt_of_le hj1 with hjp | hjp
        · subst hjp
          refine ⟨h, ?_⟩
          rw [h5 p (by omega), Function.update_same]
          simp
          omega
        · obtain ⟨ha, hb⟩ := h4 j (by omega) hj2
          refine ⟨ha, ?_⟩
          rw [hb]
          omega
      · intro j hj
        rw [h5 j (by omega), Function.update_noteq (by omega)]
      · rw [h6]
        omega
    · refine ⟨p, code, hc, ?_, le_refl _, hp, h, ?_, fun j _ => rfl, ?_⟩
      · rw [derive_huffcode_inner, if_neg h]
      · intro j hj1 hj2
        omega
      · simp
        omega

theorem huffcode_inv_step (L : List Nat) (n : Nat) (hL : sizes_ok L n)
    (p code si : Nat) (hc : Nat → Nat) (inv : huffcode_inv L n p code si hc)
    (p1 code1 : Nat) (hc1 : Nat → Nat)
    (h1 : p ≤ p1) (h2 : p1 ≤ n) (h3 : L.getD p1 0 ≠ si)
    (h4 : ∀ j, p ≤ j → j < p1 → L.getD j 0 = si ∧ hc1 j = (code + (j - p)) % 0x100000000)
    (h5 : ∀ j, j < p → hc1 j = hc j)
    (h6 : code1 = (code + (p1 - p)) % 0x100000000) :
    huffcode_inv L n p1 ((code1 <<< 1) % 0x100000000) (si + 1) hc1 := by
  have hshift : (code1 <<< 1) % 0x100000000 = (code1 * 2) % 0x100000000 := by
    rw [Nat.shiftLeft_eq]
  have hcode := inv.code_lt
  refine ⟨h2, Nat.mod_lt _ (by decide), by omega, ?_, ?_, ?_, ?_⟩
  · intro hp1
    rcases Nat.eq_or_lt_of_le h1 with hpp | hpp
    · subst hpp
      have := inv.si_le hp1
      omega
    · have ha := (h4 (p1 - 1) (by omega) (by omega)).1
      have hb := hL.mono (p1 - 1) p1 (by omega) hp1
      omega
  · intro hp0
    exfalso
    have hp : p = 0 := by omega
    have := (inv.start hp).2
    subst hp0
    omega
  · intro hp1
    rcases Nat.eq_or_lt_of_le h1 with hpp | hpp
    · subst hpp
      obtain ⟨ha, hb, hc0⟩ := inv.last hp1
      refine ⟨by omega, ?_, ?_⟩
      · rw [hshift, h6, h5 (p - 1) (by omega)]
        have hexp : si + 1 - L.getD (p - 1) 0 = (si - L.getD (p - 1) 0) + 1 := by omega
        rw [hexp, pow_succ, ← Nat.mul_assoc]
        simp only [Nat.sub_self, Nat.add_zero]
        rw [Nat.mod_eq_of_lt hcode]
        rw [hb]
        simp [Nat.mul_mod]
      · rw [h5 0 hp1]
        exact hc0
    · obtain ⟨ha, hb⟩ := h4 (p1 - 1) (by omega) (by omega)
      refine ⟨by omega, ?_, ?_⟩
      · rw [hshift, h6, hb, ha]
        have hexp : si + 1 - si = 1 := by omega
        rw [hexp, pow_one]
        have : p1 - p = (p1 - 1 - p) + 1 := by omega
        rw [this]
        omega
      · by_cases hp0 : p = 0
        · obtain ⟨hx, hy⟩ := h4 0 (by omega) (by omega)
          rw [hy, (inv.start hp0).1]
          simp
        · rw [h5 0 (by omega)]
          exact (inv.last (by omega)).2.2
  · intro j hj
    by_cases hjp : j + 1 < p
    · rw [h5 (j + 1) hjp, h5 j (by omega)]
      exact inv.chain j hjp
    · by_cases hjq : j + 1 = p
      · obtain ⟨ha, hb, _⟩ := inv.last (by omega)
        obtain ⟨hx, hy⟩ := h4 (j + 1) (by omega) hj
        have hj' : p - 1 = j := by omega
        rw [hj'] at ha hb
        rw [hy, h5 j (by omega), hx, ← hb]
        have : j + 1 - p = 0 := by omega
        rw [this, Nat.add_zero, Nat.mod_eq_of_lt hcode]
      · obtain ⟨hx, hy⟩ := h4 (j + 1) (by omega) hj
        obtain ⟨hx', hy'⟩ := h4 j (by omega) (by omega)
        rw [hy, hy', hx, hx', Nat.sub_self, pow_zero, Nat.mul_one]
        omega

theorem derive_huffcode_outer_spec (L : List Nat) (n : Nat) (hL : sizes_ok L n) (hn : n ≤ 0x100) :
    ∀ (fuel p code si : Nat) (hc : Nat → Nat), huffcode_inv L n p code si hc → 0x11 - si < fuel →
      ∃ p1 code1 si1 hc1,
        derive_huffcode_outer L fuel (p, code, si, hc) = some (p1, code1, si1, hc1)
        ∧ (0 < n → hc1 0 = 0)
        ∧ ∀ j, j + 1 < n →
          hc1 (j + 1) = ((hc1 j + 1) * 2 ^ (L.getD (j + 1) 0 - L.getD j 0)) % 0x100000000 := by
  intro fuel
  induction fuel with
  | zero => intro p code si hc _ hf; omega
  | succ fuel ih =>
    intro p code si hc inv hf
    by_cases h : L.getD p 0 ≠ 0
    · have hpn : p < n := by
        by_contra hcon
        exact h (hL.zero p (by omega))
      have hsi16 : si ≤ 0x10 := le_trans (inv.si_le hpn) (hL.pos p hpn).2
      obtain ⟨p1, code1, hc1, hrun, h1, h2, h3, h4, h5, h6⟩ :=
        derive_huffcode_inner_spec L n si hL.zero inv.si_pos 0x102 p code hc inv.p_le
          (by omega) inv.code_lt
      have inv1 := huffcode_inv_step L n hL p code si hc inv p1 code1 hc1 h1 h2 h3 h4 h5 h6
      obtain ⟨p2, code2, si2, hc2, hrun2, hres⟩ :=
        ih p1 ((code1 <<< 1) % 0x100000000) (si + 1) hc1 inv1 (by omega)
      refine ⟨p2, code2, si2, hc2, ?_, hres⟩
      rw [derive_huffcode_outer, if_pos h, hrun]
      exact hrun2
    · have h0 : L.getD p 0 = 0 := by
        by_contra hcon
        exact h hcon
      have hpn : p = n := by
        by_contra hcon
        have := (hL.pos p (by have := inv.p_le; omega)).1
        omega
      subst hpn
      refine ⟨p, code, si, hc, ?_, ?_, inv.chain⟩
      · rw [derive_huffcode_outer, if_neg h]
      · intro hp
        exact (inv.last hp).2.2

/-- Figure C.2 returns, and its codes are canonical. -/
theorem derive_huffcode_canonical (htbl : huffman_table) (hn : bits_sum htbl ≤ 0x100) :
    ∃ huffcode, derive_huffcode htbl = some huffcode
      ∧ (0 < bits_sum htbl → huffcode 0 = 0)
      ∧ ∀ p, p + 1 < bits_sum htbl →
        huffcode (p + 1)
          = ((huffcode p + 1)
              * 2 ^ ((derive_huffsize htbl).getD (p + 1) 0 - (derive_huffsize htbl).getD p 0))
            % 0x100000000 := by
  have hL := derive_huffsize_ok htbl
  by_cases h0 : bits_sum htbl = 0
  · refine ⟨fun _ => 0, ?_, by omega, by omega⟩
    have hz := hL.zero 0 (by omega)
    unfold derive_huffcode
    simp only
    rw [derive_huffcode_outer, if_neg (by simpa using hz)]
  · have inv : huffcode_inv (derive_huffsize htbl ++ [0]) (bits_sum htbl) 0 0
        ((derive_huffsize htbl ++ [0]).getD 0 0) (fun _ => 0) := by
      refine ⟨by omega, by decide, (hL.pos 0 (by omega)).1, fun _ => le_refl _,
        fun _ => ⟨rfl, rfl⟩, fun h => absurd h (by omega), fun j hj => absurd hj (by omega)⟩
    obtain ⟨p1, code1, si1, hc1, hrun, hzero, hchain⟩ :=
      derive_huffcode_outer_spec _ _ hL hn 0x12 0 0 _ _ inv
        (by have := (hL.pos 0 (by omega)).1; omega)
    refine ⟨hc1, ?_, hzero, ?_⟩
    · unfold derive_huffcode
      simp only
      rw [hrun]
    · intro p hp
      have := hchain p hp
      rw [getD_append_terminator, getD_append_terminator] at this
      exact this

/-! ### Figure C.3: the table by symbol -/

theorem derive_fill_succ (htbl : huffman_table) (L : List Nat) (hc : Nat → Nat) (n : Nat)
    (d0 : derived_huffman_table) :
    derive_fill htbl L hc (n + 1) d0
      = { code := Function.update (derive_fill htbl L hc n d0).code (htbl.value n) (hc n),
          length := Function.update (derive_fill htbl L hc n d0).length (htbl.value n)
            (L.getD n 0) } := by
  unfold derive_fill
  rw [List.range_succ, List.foldl_append]
  rfl

/-- After Figure C.3 a symbol either does not occur among `value[0 .. n)`, and then
has length 0 and the code it had on entry, or holds the code and length of the last
position at which it occurs. -/
theorem derive_fill_cases (htbl : huffman_table) (L : List Nat) (hc : Nat → Nat)
    (d0 : derived_huffman_table) (s : Nat) (n : Nat) :
    ((∀ p, p < n → htbl.value p ≠ s)
        ∧ (derive_fill htbl L hc n d0).length s = 0
        ∧ (derive_fill htbl L hc n d0).code s = d0.code s)
    ∨ ∃ p, p < n ∧ htbl.value p = s ∧ (∀ q, p < q → q < n → htbl.value q ≠ s)
        ∧ (derive_fill htbl L hc n d0).code s = hc p
        ∧ (derive_fill htbl L hc n d0).length s = L.getD p 0 := by
  induction n with
  | zero =>
    left
    refine ⟨fun p hp => absurd hp (by omega), ?_, ?_⟩ <;> simp [derive_fill]
  | succ n ih =>
    rw [derive_fill_succ]
    by_cases hv : htbl.value n = s
    · right
      refine ⟨n, by omega, hv, fun q h1 h2 => absurd h2 (by omega), ?_, ?_⟩
      · simp only
        rw [hv, Function.update_same]
      · simp only
        rw [hv, Function.update_same]
    · have hv' : s ≠ htbl.value n := fun h => hv h.symm
      rcases ih with ⟨h1, h2, h3⟩ | ⟨p, h1, h2, h3, h4, h5⟩
      · left
        refine ⟨?_, ?_, ?_⟩
        · intro p hp
          rcases Nat.eq_or_lt_of_le (Nat.le_of_lt_succ hp) with h | h
          · subst h; exact hv
          · exact h1 p h
        · simp only
          rw [Function.update_noteq hv']
          exact h2
        · simp only
          rw [Function.update_noteq hv']
          exact h3
      · right
        refine ⟨p, by omega, h2, ?_, ?_, ?_⟩
        · intro q hq1 hq2
          rcases Nat.eq_or_lt_of_le (Nat.le_of_lt_succ hq2) with h | h
          · subst h; exact hv
          · exact h3 q hq1 h
        · simp only
          rw [Function.update_noteq hv']
          exact h4
        · simp only
          rw [Function.update_noteq hv']
          exact h5

/-- The function returns whenever the lengths fit `huffsize`, with the table of
Figure C.3. -/
theorem derive_huffman_table_eq (is_dc : Nat) (htbl : huffman_table)
    (dhtbl : derived_huffman_table) (hn : bits_sum htbl ≤ 0x100) :
    ∃ huffcode, derive_huffcode htbl = some huffcode
      ∧ (0 < bits_sum htbl → huffcode 0 = 0)
      ∧ (∀ p, p + 1 < bits_sum htbl →
        huffcode (p + 1)
          = ((huffcode p + 1)
              * 2 ^ ((derive_huffsize htbl).getD (p + 1) 0 - (derive_huffsize htbl).getD p 0))
            % 0x100000000)
      ∧ derive_huffman_table is_dc htbl dhtbl
          = some (derive_fill htbl (derive_huffsize htbl ++ [0]) huffcode (bits_sum htbl) dhtbl) := by
  obtain ⟨huffcode, h1, h2, h3⟩ := derive_huffcode_canonical htbl hn
  refine ⟨huffcode, h1, h2, h3, ?_⟩
  unfold derive_huffman_table
  simp only
  rw [derive_huffsize_length, if_pos (by omega), h1]

/-! ### Canonical codes under the Kraft inequality -/

theorem kraft_upto_eq_take (hs : List Nat) (j : Nat) (hj : j ≤ hs.length) :
    kraft_upto hs j = ((hs.take j).map (fun x => 2 ^ (0x10 - x))).sum := by
  induction j with
  | zero => simp [kraft_upto]
  | succ j ih =>
    have hj' : j < hs.length := by omega
    rw [kraft_upto, ih (by omega), List.take_succ, List.getElem?_eq_getElem hj',
      List.getD_eq_getElem _ _ hj', List.map_append, List.sum_append]
    rfl

theorem flatMap_replicate_map_sum (bits : Nat → Nat) (f : Nat → Nat) (ls : List Nat) :
    ((ls.flatMap (fun l => List.replicate (bits l) l)).map f).sum
      = (ls.map (fun l => bits l * f l)).sum := by
  induction ls with
  | nil => simp
  | cons l ls ih =>
    simp only [List.flatMap_cons, List.map_append, List.sum_append, List.map_cons, List.sum_cons,
      ih, List.map_replicate, List.sum_replicate, smul_eq_mul]

theorem kraft_upto_total (htbl : huffman_table) :
    kraft_upto (derive_huffsize htbl) (bits_sum htbl) = kraft_sum htbl := by
  rw [kraft_upto_eq_take _ _ (by rw [derive_huffsize_length]), ← derive_huffsize_length,
    List.take_length, derive_huffsize_eq, flatMap_replicate_map_sum]
  rfl

theorem kraft_upto_mono (hs : List Nat) (i j : Nat) (hij : i ≤ j) :
    kraft_upto hs i ≤ kraft_upto hs j := by
  induction j with
  | zero =>
    have : i = 0 := by omega
    subst this
    exact le_refl _
  | succ j ih =>
    rcases Nat.eq_or_lt_of_le hij with h | h
    · subst h
      exact le_refl _
    · have := ih (by omega)
      rw [kraft_upto]
      exact le_trans this (Nat.le_add_right _ _)

/-- Under the Kraft inequality the canonical codes do not wrap, and the code at
position `j`, brought to 16 bits, is the Kraft sum of the positions before it. -/
theorem canonical_code_eq_kraft (hs : List Nat) (n : Nat) (hc : Nat → Nat)
    (hpos : ∀ p, p < n → 1 ≤ hs.getD p 0 ∧ hs.getD p 0 ≤ 0x10)
    (hmono : ∀ i j, i ≤ j → j < n → hs.getD i 0 ≤ hs.getD j 0)
    (hkraft : kraft_upto hs n ≤ 2 ^ 0x10)
    (h0 : 0 < n → hc 0 = 0)
    (hchain : ∀ p, p + 1 < n →
      hc (p + 1) = ((hc p + 1) * 2 ^ (hs.getD (p + 1) 0 - hs.getD p 0)) % 0x100000000) :
    ∀ j, j < n → hc j * 2 ^ (0x10 - hs.getD j 0) = kraft_upto hs j := by
  intro j
  induction j with
  | zero =>
    intro hj
    rw [h0 hj]
    simp [kraft_upto]
  | succ j ih =>
    intro hj
    have ihj := ih (by omega)
    have hle := hmono j (j + 1) (by omega) hj
    have hb := (hpos (j + 1) hj).2
    have hsucc : (hc j + 1) * 2 ^ (0x10 - hs.getD j 0) = kraft_upto hs (j + 1) := by
      rw [kraft_upto, ← ihj]
      ring
    have hsplit : 2 ^ (0x10 - hs.getD j 0)
        = 2 ^ (hs.getD (j + 1) 0 - hs.getD j 0) * 2 ^ (0x10 - hs.getD (j + 1) 0) := by
      rw [← pow_add]
      congr 1
      omega
    have hbound : kraft_upto hs (j + 1) ≤ 2 ^ 0x10 :=
      le_trans (kraft_upto_mono hs (j + 1) n (by omega)) hkraft
    have hprod : (hc j + 1) * 2 ^ (hs.getD (j + 1) 0 - hs.getD j 0)
        * 2 ^ (0x10 - hs.getD (j + 1) 0) = kraft_upto hs (j + 1) := by
      rw [← hsucc, hsplit]
      ring
    have hsmall : (hc j + 1) * 2 ^ (hs.getD (j + 1) 0 - hs.getD j 0) < 0x100000000 := by
      have h1 : (hc j + 1) * 2 ^ (hs.getD (j + 1) 0 - hs.getD j 0)
          ≤ (hc j + 1) * 2 ^ (hs.getD (j + 1) 0 - hs.getD j 0)
            * 2 ^ (0x10 - hs.getD (j + 1) 0) :=
        Nat.le_mul_of_pos_right _ (by positivity)
      rw [hprod] at h1
      have : (2 : Nat) ^ 0x10 < 0x100000000 := by decide
      omega
    rw [hchain j hj, Nat.mod_eq_of_lt hsmall, hprod]

/-- Under the Kraft inequality every canonical code fits its length. -/
theorem canonical_code_fits (hs : List Nat) (n : Nat) (hc : Nat → Nat)
    (hpos : ∀ p, p < n → 1 ≤ hs.getD p 0 ∧ hs.getD p 0 ≤ 0x10)
    (hkraft : kraft_upto hs n ≤ 2 ^ 0x10)
    (heq : ∀ j, j < n → hc j * 2 ^ (0x10 - hs.getD j 0) = kraft_upto hs j)
    (j : Nat) (hj : j < n) : hc j < 2 ^ hs.getD j 0 := by
  have h1 : kraft_upto hs (j + 1) ≤ 2 ^ 0x10 :=
    le_trans (kraft_upto_mono hs (j + 1) n (by omega)) hkraft
  rw [kraft_upto, ← heq j hj] at h1
  have hb := (hpos j hj).2
  have hsplit : (2 : Nat) ^ 0x10 = 2 ^ hs.getD j 0 * 2 ^ (0x10 - hs.getD j 0) := by
    rw [← pow_add]
    congr 1
    omega
  rw [hsplit] at h1
  have h2 : (hc j + 1) * 2 ^ (0x10 - hs.getD j 0)
      ≤ 2 ^ hs.getD j 0 * 2 ^ (0x10 - hs.getD j 0) := by
    calc (hc j + 1) * 2 ^ (0x10 - hs.getD j 0)
        = hc j * 2 ^ (0x10 - hs.getD j 0) + 2 ^ (0x10 - hs.getD j 0) := by ring
      _ ≤ _ := h1
  have h3 := Nat.le_of_mul_le_mul_right h2 (by positivity)
  omega

/-! ### Words of bits -/

theorem code_word_length (c l : Nat) : (code_word c l).length = l := by
  simp [code_word]

/-- A word that begins another one is, as a number, the other one without its last
bits. -/
theorem code_word_begins (c l c1 l1 : Nat) (hc : c < 2 ^ l) (hc1 : c1 < 2 ^ l1)
    (h : code_word c l <+: code_word c1 l1) :
    l ≤ l1 ∧ c = c1 / 2 ^ (l1 - l) := by
  have hlen : l ≤ l1 := by
    have := h.length_le
    rwa [code_word_length, code_word_length] at this
  refine ⟨hlen, ?_⟩
  rw [← Nat.shiftRight_eq_div_pow]
  apply Nat.eq_of_testBit_eq
  intro i
  rw [Nat.testBit_shiftRight]
  by_cases hi : i < l
  · obtain ⟨t, ht⟩ := h
    have hk : l - 1 - i < (code_word c l).length := by rw [code_word_length]; omega
    have hk1 : l - 1 - i < (code_word c1 l1).length := by rw [code_word_length]; omega
    have e1 : (code_word c1 l1)[l - 1 - i]? = (code_word c l)[l - 1 - i]? := by
      rw [← ht, List.getElem?_append_left hk]
    rw [List.getElem?_eq_getElem hk, List.getElem?_eq_getElem hk1] at e1
    simp only [code_word, List.getElem_map, List.getElem_range, Option.some.injEq] at e1
    have a1 : l - 1 - (l - 1 - i) = i := by omega
    have a2 : l1 - 1 - (l - 1 - i) = l1 - l + i := by omega
    rw [a1, a2] at e1
    exact e1.symm
  · have hl : 2 ^ l ≤ 2 ^ i := Nat.pow_le_pow_right (by decide) (by omega)
    have hl1 : 2 ^ l1 ≤ 2 ^ (l1 - l + i) := Nat.pow_le_pow_right (by decide) (by omega)
    rw [Nat.testBit_lt_two_pow (lt_of_lt_of_le hc hl),
      Nat.testBit_lt_two_pow (lt_of_lt_of_le hc1 hl1)]

/-- Two different positions of a canonical code under the Kraft inequality: the
word of one does not begin the word of the other. -/
theorem canonical_words_apart (hs : List Nat) (n : Nat) (hc : Nat → Nat)
    (hpos : ∀ p, p < n → 1 ≤ hs.getD p 0 ∧ hs.getD p 0 ≤ 0x10)
    (hmono : ∀ i j, i ≤ j → j < n → hs.getD i 0 ≤ hs.getD j 0)
    (hkraft : kraft_upto hs n ≤ 2 ^ 0x10)
    (heq : ∀ j, j < n → hc j * 2 ^ (0x10 - hs.getD j 0) = kraft_upto hs j)
    (p q : Nat) (hp : p < n) (hq : q < n) (hpq : p ≠ q) :
    ¬ (code_word (hc p) (hs.getD p 0) <+: code_word (hc q) (hs.getD q 0)) := by
  intro hpre
  have fp := canonical_code_fits hs n hc hpos hkraft heq p hp
  have fq := canonical_code_fits hs n hc hpos hkraft heq q hq
  obtain ⟨hlen, hdiv⟩ := code_word_begins _ _ _ _ fp fq hpre
  have hbq := (hpos q hq).2
  have hsplit : (2 : Nat) ^ (0x10 - hs.getD p 0)
      = 2 ^ (hs.getD q 0 - hs.getD p 0) * 2 ^ (0x10 - hs.getD q 0) := by
    rw [← pow_add]
    congr 1
    omega
  have hwq : 0 < 2 ^ (0x10 - hs.getD q 0) := by positivity
  rcases Nat.lt_or_gt_of_ne hpq with hlt | hgt
  · have hm := kraft_upto_mono hs (p + 1) q (by omega)
    rw [kraft_upto, ← heq p hp, ← heq q hq] at hm
    have hd : hc q < (hc p + 1) * 2 ^ (hs.getD q 0 - hs.getD p 0) := by
      rw [hdiv, Nat.mul_comm]
      exact Nat.lt_mul_div_succ _ (by positivity)
    have hd2 : hc q * 2 ^ (0x10 - hs.getD q 0)
        < (hc p + 1) * 2 ^ (hs.getD q 0 - hs.getD p 0) * 2 ^ (0x10 - hs.getD q 0) :=
      Nat.mul_lt_mul_of_pos_right hd hwq
    rw [Nat.mul_assoc, ← hsplit] at hd2
    have : (hc p + 1) * 2 ^ (0x10 - hs.getD p 0)
        = hc p * 2 ^ (0x10 - hs.getD p 0) + 2 ^ (0x10 - hs.getD p 0) := by ring
    omega
  · have hle := hmono q p (by omega) hp
    have hsame : hs.getD q 0 = hs.getD p 0 := by omega
    rw [hsame, Nat.sub_self, pow_zero, Nat.div_one] at hdiv
    have hm := kraft_upto_mono hs (q + 1) p (by omega)
    rw [kraft_upto, ← heq p hp, ← heq q hq, hdiv, hsame] at hm
    have : 0 < 2 ^ (0x10 - hs.getD p 0) := by positivity
    omega

/-! ### The derived table under the Kraft inequality -/

theorem derive_huffman_table_length_le (htbl : huffman_table) (huffcode : Nat → Nat)
    (dhtbl : derived_huffman_table) (s : Nat) :
    (derive_fill htbl (derive_huffsize htbl ++ [0]) huffcode (bits_sum htbl) dhtbl).length s
      ≤ 0x10 := by
  have hL := derive_huffsize_ok htbl
  rcases derive_fill_cases htbl (derive_huffsize htbl ++ [0]) huffcode dhtbl s (bits_sum htbl)
    with ⟨_, h, _⟩ | ⟨p, hp, _, _, _, h⟩
  · rw [h]
    exact Nat.zero_le _
  · rw [h]
    exact (hL.pos p hp).2

/-- Under the Kraft inequality the table built by Figure C.3 from canonical codes
gives every symbol that has a code a code that fits its length, and no word of one
symbol begins the word of another. -/
theorem derive_fill_words (htbl : huffman_table) (huffcode : Nat → Nat)
    (dhtbl : derived_huffman_table)
    (hkraft : kraft_sum htbl ≤ 2 ^ 0x10)
    (h0 : 0 < bits_sum htbl → huffcode 0 = 0)
    (hchain : ∀ p, p + 1 < bits_sum htbl →
      huffcode (p + 1)
        = ((huffcode p + 1)
            * 2 ^ ((derive_huffsize htbl).getD (p + 1) 0 - (derive_huffsize htbl).getD p 0))
          % 0x100000000) :
    (∀ s, (derive_fill htbl (derive_huffsize htbl ++ [0]) huffcode (bits_sum htbl) dhtbl).length s
        ≠ 0 →
      (derive_fill htbl (derive_huffsize htbl ++ [0]) huffcode (bits_sum htbl) dhtbl).code s
        < 2 ^ (derive_fill htbl (derive_huffsize htbl ++ [0]) huffcode (bits_sum htbl)
            dhtbl).length s)
    ∧ words_unambiguous
        (derive_fill htbl (derive_huffsize htbl ++ [0]) huffcode (bits_sum htbl) dhtbl) := by
  have hL := derive_huffsize_ok htbl
  have hpos : ∀ p, p < bits_sum htbl →
      1 ≤ (derive_huffsize htbl).getD p 0 ∧ (derive_huffsize htbl).getD p 0 ≤ 0x10 := by
    intro p hp
    have := hL.pos p hp
    rwa [getD_append_terminator] at this
  have hmono : ∀ i j, i ≤ j → j < bits_sum htbl →
      (derive_huffsize htbl).getD i 0 ≤ (derive_huffsize htbl).getD j 0 := by
    intro i j hij hj
    have := hL.mono i j hij hj
    rwa [getD_append_terminator, getD_append_terminator] at this
  have hk : kraft_upto (derive_huffsize htbl) (bits_sum htbl) ≤ 2 ^ 0x10 := by
    rw [kraft_upto_total]
    exact hkraft
  have heq := canonical_code_eq_kraft (derive_huffsize htbl) (bits_sum htbl) huffcode
    hpos hmono hk h0 hchain
  refine ⟨?_, ?_⟩
  · intro s hs
    rcases derive_fill_cases htbl (derive_huffsize htbl ++ [0]) huffcode dhtbl s (bits_sum htbl)
      with ⟨_, h, _⟩ | ⟨p, hp, _, _, hcode, hlen⟩
    · exact absurd h hs
    · rw [hcode, hlen, getD_append_terminator]
      exact canonical_code_fits _ _ _ hpos hk heq p hp
  · intro s t _ _ hst hs ht
    rcases derive_fill_cases htbl (derive_huffsize htbl ++ [0]) huffcode dhtbl s (bits_sum htbl)
      with ⟨_, h, _⟩ | ⟨p, hp, hvp, _, hcode, hlen⟩
    · exact absurd h hs
    · rcases derive_fill_cases htbl (derive_huffsize htbl ++ [0]) huffcode dhtbl t
          (bits_sum htbl) with ⟨_, h, _⟩ | ⟨q, hq, hvq, _, hcode1, hlen1⟩
      · exact absurd h ht
      · have hpq : p ≠ q := by
          intro hcon
          rw [hcon, hvq] at hvp
          exact hst hvp.symm
        rw [hcode, hlen, hcode1, hlen1, getD_append_terminator, getD_append_terminator]
        exact canonical_words_apart _ _ _ hpos hmono hk heq p q hp hq hpq

/-- Under the Kraft inequality every code of the derived table fits its length. -/
theorem derive_huffman_table_fits (is_dc : Nat) (htbl : huffman_table)
    (dhtbl : derived_huffman_table) (hn : bits_sum htbl ≤ 0x100)
    (hkraft : kraft_sum htbl ≤ 2 ^ 0x10) :
    ∃ d, derive_huffman_table is_dc htbl dhtbl = some d
      ∧ ∀ s, d.length s ≠ 0 → d.code s < 2 ^ d.length s ∧ d.length s ≤ 0x10 := by
  obtain ⟨huffcode, _, h0, hchain, hres⟩ := derive_huffman_table_eq is_dc htbl dhtbl hn
  refine ⟨_, hres, fun s hs => ⟨?_, derive_huffman_table_length_le htbl huffcode dhtbl s⟩⟩
  exact (derive_fill_words htbl huffcode dhtbl hkraft h0 hchain).1 s hs

/-- A symbol without a code keeps the code it had before the table was built. -/
theorem derive_huffman_table_unassigned (is_dc : Nat) (htbl : huffman_table)
    (dhtbl : derived_huffman_table) (hn : bits_sum htbl ≤ 0x100) :
    ∃ d, derive_huffman_table is_dc htbl dhtbl = some d
      ∧ ∀ s, d.length s = 0 → d.code s = dhtbl.code s := by
  obtain ⟨huffcode, _, _, _, hres⟩ := derive_huffman_table_eq is_dc htbl dhtbl hn
  refine ⟨_, hres, fun s hs => ?_⟩
  have hL := derive_huffsize_ok htbl
  rcases derive_fill_cases htbl (derive_huffsize htbl ++ [0]) huffcode dhtbl s (bits_sum htbl)
    with ⟨_, _, h⟩ | ⟨p, hp, _, _, _, h⟩
  · exact h
  · rw [h] at hs
    have := (hL.pos p hp).1
    omega

/-- Every entry of a table built from zeros under the Kraft inequality has a code that
fits its length, and a length of at most 16. -/
theorem derive_huffman_table_all_fit (is_dc : Nat) (htbl : huffman_table)
    (hn : bits_sum htbl ≤ 0x100) (hkraft : kraft_sum htbl ≤ 2 ^ 0x10) :
    ∃ d, derive_huffman_table is_dc htbl zero_derived_tbl = some d
      ∧ ∀ s, d.code s < 2 ^ d.length s ∧ d.length s ≤ 0x10 := by
  obtain ⟨d, hd, hfit⟩ := derive_huffman_table_fits is_dc htbl zero_derived_tbl hn hkraft
  obtain ⟨d1, hd1, hun⟩ := derive_huffman_table_unassigned is_dc htbl zero_derived_tbl hn
  have hdd : d1 = d := by
    rw [hd] at hd1
    exact (Option.some.inj hd1).symm
  subst hdd
  refine ⟨d1, hd, fun s => ?_⟩
  by_cases hs : d1.length s = 0
  · rw [hun s hs, hs]
    exact ⟨Nat.zero_lt_one, Nat.zero_le _⟩
  · exact hfit s hs

/-- The four standard tables are built, and every entry of the four derived tables
has a code that fits its length, and a length of at most 16. -/
theorem create_derived_huffman_tables_fit :
    ∃ t, create_derived_huffman_tables = some t
      ∧ ∀ i s, ((t.1 i).code s < 2 ^ (t.1 i).length s ∧ (t.1 i).length s ≤ 0x10)
        ∧ ((t.2 i).code s < 2 ^ (t.2 i).length s ∧ (t.2 i).length s ≤ 0x10) := by
  obtain ⟨dc0, h1, f1⟩ := derive_huffman_table_all_fit 1 (m_dc_huff_tbls 0) (by decide) (by decide)
  obtain ⟨ac0, h2, f2⟩ := derive_huffman_table_all_fit 0 (m_ac_huff_tbls 0) (by decide) (by decide)
  obtain ⟨dc1, h3, f3⟩ := derive_huffman_table_all_fit 1 (m_dc_huff_tbls 1) (by decide) (by decide)
  obtain ⟨ac1, h4, f4⟩ := derive_huffman_table_all_fit 0 (m_ac_huff_tbls 1) (by decide) (by decide)
  refine ⟨(fun i => if i = 0 then dc0 else dc1, fun i => if i = 0 then ac0 else ac1), ?_, ?_⟩
  · unfold create_derived_huffman_tables
    rw [h1, h2, h3, h4]
  · intro i s
    by_cases hi : i = 0
    · simp only [hi, if_true]
      exact ⟨f1 s, f2 s⟩
    · simp only [hi, if_false]
      exact ⟨f3 s, f4 s⟩

/-! ### The DC prediction chain -/

theorem to_int_of_ok (x : Int) (h : int_ok x) : to_int x = x := by
  unfold int_ok at h
  unfold to_int
  omega

theorem int_ok_sub_of_short (x y : Int) (hx : short_ok x) (hy : short_ok y) : int_ok (x - y) := by
  unfold short_ok at hx hy
  unfold int_ok
  omega

theorem same_emit_refl (x : List Nat × entropy_state) : same_emit x x :=
  ⟨rfl, rfl, rfl⟩

theorem same_emit_trans {x y z : List Nat × entropy_state} (h1 : same_emit x y)
    (h2 : same_emit y z) : same_emit x z :=
  ⟨h1.1.trans h2.1, h1.2.1.trans h2.2.1, h1.2.2.trans h2.2.2⟩

theorem encode_block_from_diff_same (dc ac : Nat → derived_huffman_table) (blk : Nat → Int)
    (ti : Nat) (d : Int) (x y : List Nat × entropy_state) (h : same_emit x y) :
    same_emit (encode_block_from_diff dc ac blk ti d x.1 x.2)
      (encode_block_from_diff dc ac blk ti d y.1 y.2) := by
  obtain ⟨h1, h2, h3⟩ := h
  unfold encode_block_from_diff same_emit
  simp only [h1, h2, h3, and_self]

theorem encode_blocks_cons (dc ac : Nat → derived_huffman_table) (c : block_call)
    (calls : List block_call) (out : List Nat) (st : entropy_state) :
    encode_blocks dc ac (c :: calls) out st
      = encode_blocks dc ac calls
          (encode_block_from_diff dc ac c.block c.table_index c.diff out st).1
          (encode_block_from_diff dc ac c.block c.table_index c.diff out st).2 := by
  rfl

theorem encode_blocks_append (dc ac : Nat → derived_huffman_table) (c1 c2 : List block_call)
    (out : List Nat) (st : entropy_state) :
    encode_blocks dc ac (c1 ++ c2) out st
      = encode_blocks dc ac c2 (encode_blocks dc ac c1 out st).1
          (encode_blocks dc ac c1 out st).2 := by
  unfold encode_blocks
  rw [List.foldl_append]

theorem encode_blocks_same (dc ac : Nat → derived_huffman_table) (calls : List block_call) :
    ∀ x y : List Nat × entropy_state, same_emit x y →
      same_emit (encode_blocks dc ac calls x.1 x.2) (encode_blocks dc ac calls y.1 y.2) := by
  induction calls with
  | nil => intro x y h; exact h
  | cons c calls ih =>
    intro x y h
    rw [encode_blocks_cons, encode_blocks_cons]
    exact ih _ _ (encode_block_from_diff_same dc ac _ _ _ x y h)

/-- One turn of the loop of `encode_entropy`: the block is encoded with its DC minus
the last DC of its component, and that last DC becomes the DC of the block. -/
theorem encode_entropy_step_spec (dc ac : Nat → derived_huffman_table)
    (mcu : Nat → Nat → Int) (i : Nat) (os os1 : List Nat × entropy_state)
    (h : same_emit os os1)
    (hno : int_ok (mcu i 0 - os.2.last_dc_val (mcu_membership i))) :
    same_emit (encode_entropy_step dc ac mcu os i)
        (encode_block_from_diff dc ac (mcu i) (table_index i)
          (mcu i 0 - os.2.last_dc_val (mcu_membership i)) os1.1 os1.2)
    ∧ (encode_entropy_step dc ac mcu os i).2.last_dc_val
        = Function.update os.2.last_dc_val (mcu_membership i) (mcu i 0) := by
  have hs := encode_block_from_diff_same dc ac (mcu i) (table_index i)
    (mcu i 0 - os.2.last_dc_val (mcu_membership i)) os os1 h
  unfold encode_entropy_step encode_entropy_single_block
  dsimp only
  rw [to_int_of_ok _ hno]
  refine ⟨?_, ?_⟩
  · exact hs
  · rfl

/-- The six calls of one MCU from the last DC values `a`, `b`, `c`. -/
theorem calls_from_cons (a b c : Int) (mcu : Nat → Nat → Int) (rest : List (Nat → Nat → Int)) :
    calls_from a b c (mcu :: rest)
      = [ { block := mcu 0, table_index := 0, diff := mcu 0 0 - a },
          { block := mcu 1, table_index := 0, diff := mcu 1 0 - mcu 0 0 },
          { block := mcu 2, table_index := 0, diff := mcu 2 0 - mcu 1 0 },
          { block := mcu 3, table_index := 0, diff := mcu 3 0 - mcu 2 0 },
          { block := mcu 4, table_index := 1, diff := mcu 4 0 - b },
          { block := mcu 5, table_index := 1, diff := mcu 5 0 - c } ]
        ++ calls_from (mcu 3 0) (mcu 4 0) (mcu 5 0) rest := by
  rfl

theorem encode_entropy_chain (dc ac : Nat → derived_huffman_table) (mcu : Nat → Nat → Int)
    (os os1 : List Nat × entropy_state) (h : same_emit os os1)
    (hshort : ∀ i, i < 0x6 → short_ok (mcu i 0))
    (h0 : int_ok (mcu 0 0 - os.2.last_dc_val 0))
    (h1 : int_ok (mcu 4 0 - os.2.last_dc_val 1))
    (h2 : int_ok (mcu 5 0 - os.2.last_dc_val 2)) :
    same_emit (encode_entropy dc ac mcu os.1 os.2)
        (encode_blocks dc ac
          (calls_from (os.2.last_dc_val 0) (os.2.last_dc_val 1) (os.2.last_dc_val 2) [mcu])
          os1.1 os1.2)
    ∧ (encode_entropy dc ac mcu os.1 os.2).2.last_dc_val 0 = mcu 3 0
    ∧ (encode_entropy dc ac mcu os.1 os.2).2.last_dc_val 1 = mcu 4 0
    ∧ (encode_entropy dc ac mcu os.1 os.2).2.last_dc_val 2 = mcu 5 0 := by
  have hr : List.range 0x6 = [0, 1, 2, 3, 4, 5] := by decide
  have m0 : mcu_membership 0 = 0 := rfl
  have m1 : mcu_membership 1 = 0 := rfl
  have m2 : mcu_membership 2 = 0 := rfl
  have m3 : mcu_membership 3 = 0 := rfl
  have m4 : mcu_membership 4 = 1 := rfl
  have m5 : mcu_membership 5 = 2 := rfl
  have t0 : table_index 0 = 0 := rfl
  have t1 : table_index 1 = 0 := rfl
  have t2 : table_index 2 = 0 := rfl
  have t3 : table_index 3 = 0 := rfl
  have t4 : table_index 4 = 1 := rfl
  have t5 : table_index 5 = 1 := rfl
  have hfold : encode_entropy dc ac mcu os.1 os.2
      = encode_entropy_step dc ac mcu (encode_entropy_step dc ac mcu (encode_entropy_step dc ac mcu
          (encode_entropy_step dc ac mcu (encode_entropy_step dc ac mcu
            (encode_entropy_step dc ac mcu os 0) 1) 2) 3) 4) 5 := by
    unfold encode_entropy
    rw [hr]
    rfl
  rw [hfold]
  -- block 0
  obtain ⟨e0, l0⟩ := encode_entropy_step_spec dc ac mcu 0 os os1 h (by rw [m0]; exact h0)
  rw [m0, t0] at e0
  rw [m0] at l0
  generalize encode_entropy_step dc ac mcu os 0 = r0 at e0 l0 ⊢
  -- block 1
  have n1 : int_ok (mcu 1 0 - r0.2.last_dc_val (mcu_membership 1)) := by
    rw [m1, l0, Function.update_same]
    exact int_ok_sub_of_short _ _ (hshort 1 (by decide)) (hshort 0 (by decide))
  obtain ⟨e1, l1⟩ := encode_entropy_step_spec dc ac mcu 1 r0 _ e0 n1
  rw [m1, t1, l0, Function.update_same] at e1
  rw [m1, l0] at l1
  generalize encode_entropy_step dc ac mcu r0 1 = r1 at e1 l1 ⊢
  -- block 2
  have n2 : int_ok (mcu 2 0 - r1.2.last_dc_val (mcu_membership 2)) := by
    rw [m2, l1, Function.update_same]
    exact int_ok_sub_of_short _ _ (hshort 2 (by decide)) (hshort 1 (by decide))
  obtain ⟨e2, l2⟩ := encode_entropy_step_spec dc ac mcu 2 r1 _ e1 n2
  rw [m2, t2, l1, Function.update_same] at e2
  rw [m2, l1] at l2
  generalize encode_entropy_step dc ac mcu r1 2 = r2 at e2 l2 ⊢
  -- block 3
  have n3 : int_ok (mcu 3 0 - r2.2.last_dc_val (mcu_membership 3)) := by
    rw [m3, l2, Function.update_same]
    exact int_ok_sub_of_short _ _ (hshort 3 (by decide)) (hshort 2 (by decide))
  obtain ⟨e3, l3⟩ := encode_entropy_step_spec dc ac mcu 3 r2 _ e2 n3
  rw [m3, t3, l2, Function.update_same] at e3
  rw [m3, l2] at l3
  generalize encode_entropy_step dc ac mcu r2 3 = r3 at e3 l3 ⊢
  -- block 4 (Cb)
  have v1 : r3.2.last_dc_val 1 = os.2.last_dc_val 1 := by
    rw [l3]
    simp [Function.update]
  have v2 : r3.2.last_dc_val 2 = os.2.last_dc_val 2 := by
    rw [l3]
    simp [Function.update]
  have n4 : int_ok (mcu 4 0 - r3.2.last_dc_val (mcu_membership 4)) := by
    rw [m4, v1]
    exact h1
  obtain ⟨e4, l4⟩ := encode_entropy_step_spec dc ac mcu 4 r3 _ e3 n4
  rw [m4, t4, v1] at e4
  rw [m4] at l4
  generalize encode_entropy_step dc ac mcu r3 4 = r4 at e4 l4 ⊢
  -- block 5 (Cr)
  have w2 : r4.2.last_dc_val 2 = os.2.last_dc_val 2 := by
    rw [l4, Function.update_noteq (by decide), v2]
  have n5 : int_ok (mcu 5 0 - r4.2.last_dc_val (mcu_membership 5)) := by
    rw [m5, w2]
    exact h2
  obtain ⟨e5, l5⟩ := encode_entropy_step_spec dc ac mcu 5 r4 _ e4 n5
  rw [m5, t5, w2] at e5
  rw [m5] at l5
  generalize encode_entropy_step dc ac mcu r4 5 = r5 at e5 l5 ⊢
  refine ⟨e5, ?_, ?_, ?_⟩
  · rw [l5, Function.update_noteq (by decide), l4, Function.update_noteq (by decide), l3,
      Function.update_same]
  · rw [l5, Function.update_noteq (by decide), l4, Function.update_same]
  · rw [l5, Function.update_same]

theorem encode_image_entropy_chain (dc ac : Nat → derived_huffman_table) :
    ∀ (mcus : List (Nat → Nat → Int)) (os os1 : List Nat × entropy_state),
      same_emit os os1 →
      (∀ mcu, mcu ∈ mcus → ∀ i, i < 0x6 → short_ok (mcu i 0)) →
      short_ok (os.2.last_dc_val 0) → short_ok (os.2.last_dc_val 1) →
      short_ok (os.2.last_dc_val 2) →
      same_emit
        (mcus.foldl (fun (os : List Nat × entropy_state) mcu_buffer =>
          encode_entropy dc ac mcu_buffer os.1 os.2) os)
        (encode_blocks dc ac
          (calls_from (os.2.last_dc_val 0) (os.2.last_dc_val 1) (os.2.last_dc_val 2) mcus)
          os1.1 os1.2) := by
  intro mcus
  induction mcus with
  | nil => intro os os1 h _ _ _ _; exact h
  | cons mcu rest ih =>
    intro os os1 h hshort ha hb hc
    have hm : ∀ i, i < 0x6 → short_ok (mcu i 0) := hshort mcu (List.mem_cons_self _ _)
    obtain ⟨e, l0, l1, l2⟩ := encode_entropy_chain dc ac mcu os os1 h hm
      (int_ok_sub_of_short _ _ (hm 0 (by decide)) ha)
      (int_ok_sub_of_short _ _ (hm 4 (by decide)) hb)
      (int_ok_sub_of_short _ _ (hm 5 (by decide)) hc)
    have hrest := ih (encode_entropy dc ac mcu os.1 os.2) _ e
      (fun m hmem => hshort m (List.mem_cons_of_mem _ hmem))
      (by rw [l0]; exact hm 3 (by decide))
      (by rw [l1]; exact hm 4 (by decide))
      (by rw [l2]; exact hm 5 (by decide))
    rw [l0, l1, l2] at hrest
    rw [List.foldl_cons]
    have hsplit : calls_from (os.2.last_dc_val 0) (os.2.last_dc_val 1) (os.2.last_dc_val 2)
        (mcu :: rest)
        = calls_from (os.2.last_dc_val 0) (os.2.last_dc_val 1) (os.2.last_dc_val 2) [mcu]
          ++ calls_from (mcu 3 0) (mcu 4 0) (mcu 5 0) rest := by
      simp [calls_from]
    rw [hsplit, encode_blocks_append]
    exact hrest

theorem preceding_dc_from_succ (a b c : Int) (mcu : Nat → Nat → Int)
    (rest : List (Nat → Nat → Int)) (m i : Nat) (hi : i < 0x6) :
    preceding_dc_from a b c (mcu :: rest) (m + 1) i
      = preceding_dc_from (mcu 3 0) (mcu 4 0) (mcu 5 0) rest m i := by
  unfold preceding_dc_from
  by_cases h123 : i = 1 ∨ i = 2 ∨ i = 3
  · rw [if_pos h123, if_pos h123, List.getD_cons_succ]
  · rw [if_neg h123, if_neg h123, if_neg (Nat.succ_ne_zero m)]
    cases m with
    | zero =>
      have h045 : i = 0 ∨ i = 4 ∨ i = 5 := by omega
      rcases h045 with h | h | h <;> subst h <;> simp
    | succ m =>
      rw [if_neg (Nat.succ_ne_zero m)]
      simp

theorem calls_from_eq_scan_calls_from :
    ∀ (mcus : List (Nat → Nat → Int)) (a b c : Int),
      calls_from a b c mcus = scan_calls_from a b c mcus := by
  intro mcus
  induction mcus with
  | nil => intro a b c; rfl
  | cons mcu rest ih =>
    intro a b c
    rw [calls_from_cons, ih]
    unfold scan_calls_from
    have hlen : List.range (mcu :: rest).length
        = 0 :: (List.range rest.length).map Nat.succ := by
      rw [List.length_cons]
      exact List.range_succ_eq_map _
    rw [hlen, List.flatMap_cons, List.flatMap_map]
    congr 1
    apply List.flatMap_congr
    intro m _
    apply List.map_congr_left
    intro i hi
    rw [List.mem_range] at hi
    rw [List.getD_cons_succ, preceding_dc_from_succ a b c mcu rest m i hi]

theorem scan_calls_from_zero (mcus : List (Nat → Nat → Int)) :
    scan_calls_from 0 0 0 mcus = scan_calls mcus := by
  unfold scan_calls_from scan_calls preceding_dc_from preceding_dc
  simp

theorem mcu_sample_short (i : Nat) (hi : i < 0x6) : short_ok (mcu_sample i 0) := by
  have h : i = 0 ∨ i = 1 ∨ i = 2 ∨ i = 3 ∨ i = 4 ∨ i = 5 := by omega
  rcases h with h | h | h | h | h | h <;> subst h <;> unfold short_ok <;> decide

/-! ### Byte stuffing in the bytes written by `EMIT_BYTE` -/

theorem stuffing_holds_append :
    ∀ (a b : List Nat), stuffing_holds a → stuffing_holds b → stuffing_holds (a ++ b)
  | [], b, _, hb => by simpa using hb
  | [x], [], ha, _ => by simpa using ha
  | [x], y :: rest, ha, hb => by
    have hx : x ≠ 0xFF := ha
    show (x = 0xFF → y = 0) ∧ stuffing_holds (y :: rest)
    exact ⟨fun h => absurd h hx, hb⟩
  | x :: y :: rest, b, ha, hb => by
    have h1 : (x = 0xFF → y = 0) ∧ stuffing_holds (y :: rest) := ha
    show (x = 0xFF → y = 0) ∧ stuffing_holds (y :: (rest ++ b))
    exact ⟨h1.1, stuffing_holds_append (y :: rest) b h1.2 hb⟩

theorem appended_stuffed_refl (out0 : List Nat) : appended_stuffed out0 out0 :=
  ⟨[], by simp, trivial⟩

theorem appended_stuffed_trans (out0 out1 out2 : List Nat)
    (h1 : appended_stuffed out0 out1) (h2 : appended_stuffed out1 out2) :
    appended_stuffed out0 out2 := by
  obtain ⟨a, ha, hsa⟩ := h1
  obtain ⟨b, hb, hsb⟩ := h2
  exact ⟨a ++ b, by rw [hb, ha, List.append_assoc], stuffing_holds_append a b hsa hsb⟩

theorem EMIT_BYTE_stuffed (s : emit_state) :
    appended_stuffed s.outputbuf (EMIT_BYTE s).outputbuf := by
  unfold EMIT_BYTE
  dsimp only
  by_cases hc : to_uchar (↑(s.put_buffer >>> (s.put_bits - 8))) = 0xFF
  · rw [if_pos hc, hc]
    refine ⟨[0xFF, 0], by simp, ?_⟩
    show ((0xFF : Nat) = 0xFF → (0 : Nat) = 0) ∧ stuffing_holds [0]
    exact ⟨fun _ => rfl, by show (0 : Nat) ≠ 0xFF; decide⟩
  · rw [if_neg hc]
    exact ⟨[_], rfl, hc⟩

theorem CHECKBUF15_stuffed (s : emit_state) :
    appended_stuffed s.outputbuf (CHECKBUF15 s).outputbuf := by
  unfold CHECKBUF15
  split_ifs
  · exact appended_stuffed_trans _ _ _ (EMIT_BYTE_stuffed s) (EMIT_BYTE_stuffed _)
  · exact appended_stuffed_refl _

theorem EMIT_BITS_stuffed (code : Int) (size : Nat) (s : emit_state) :
    appended_stuffed s.outputbuf (EMIT_BITS code size s).outputbuf :=
  CHECKBUF15_stuffed (PUT_BITS code size s)

theorem EMIT_CODE_stuffed (code : Int) (size : Nat) (temp2 : Int) (nbits : Nat)
    (s : emit_state) :
    appended_stuffed s.outputbuf (EMIT_CODE code size temp2 nbits s).outputbuf := by
  unfold EMIT_CODE
  exact appended_stuffed_trans _ _ _ (CHECKBUF15_stuffed (PUT_BITS code size s))
    (CHECKBUF15_stuffed (PUT_BITS _ nbits _))

theorem kloop_zrl_stuffed (code_0xf0 : Int) (size_0xf0 : Nat) :
    ∀ (fuel r : Nat) (s : emit_state),
      appended_stuffed s.outputbuf (kloop_zrl code_0xf0 size_0xf0 fuel r s).2.outputbuf := by
  intro fuel
  induction fuel with
  | zero => intro r s; exact appended_stuffed_refl _
  | succ fuel ih =>
    intro r s
    unfold kloop_zrl
    split_ifs
    · exact appended_stuffed_trans _ _ _ (EMIT_BITS_stuffed code_0xf0 size_0xf0 s) (ih _ _)
    · exact appended_stuffed_refl _

theorem kloop_stuffed (acd : derived_huffman_table) (block : Nat → Int) (k : Nat)
    (rs : Nat × emit_state) :
    appended_stuffed rs.2.outputbuf (kloop acd block k rs).2.outputbuf := by
  unfold kloop
  dsimp only
  split_ifs
  · exact appended_stuffed_refl _
  · exact appended_stuffed_trans _ _ _ (kloop_zrl_stuffed _ _ _ _ _)
      (EMIT_CODE_stuffed _ _ _ _ _)

theorem kloop_foldl_stuffed (acd : derived_huffman_table) (block : Nat → Int) :
    ∀ (ks : List Nat) (rs : Nat × emit_state),
      appended_stuffed rs.2.outputbuf
        (ks.foldl (fun rs k => kloop acd block k rs) rs).2.outputbuf := by
  intro ks
  induction ks with
  | nil => intro rs; exact appended_stuffed_refl _
  | cons k ks ih =>
    intro rs
    rw [List.foldl_cons]
    exact appended_stuffed_trans _ _ _ (kloop_stuffed acd block k rs) (ih _)

theorem encode_block_tail_stuffed (acd : derived_huffman_table) (block : Nat → Int)
    (s : emit_state) :
    appended_stuffed s.outputbuf
      (if (kloop_order.foldl (fun rs k => kloop acd block k rs) (0, s)).1 > 0 then
          EMIT_BITS (to_int (acd.code 0)) (acd.length 0)
            (kloop_order.foldl (fun rs k => kloop acd block k rs) (0, s)).2
        else (kloop_order.foldl (fun rs k => kloop acd block k rs) (0, s)).2).outputbuf := by
  split_ifs
  · exact appended_stuffed_trans _ _ _ (kloop_foldl_stuffed acd block kloop_order (0, s))
      (EMIT_BITS_stuffed _ _ _)
  · exact kloop_foldl_stuffed acd block kloop_order (0, s)

theorem encode_block_emit_stuffed (dcd acd : derived_huffman_table) (block : Nat → Int)
    (diff : Int) (s : emit_state) :
    appended_stuffed s.outputbuf (encode_block_emit dcd acd block diff s).outputbuf := by
  unfold encode_block_emit
  dsimp only
  exact appended_stuffed_trans _ _ _ (EMIT_BITS_stuffed _ _ s)
    (appended_stuffed_trans _ _ _ (EMIT_BITS_stuffed _ _ _)
      (encode_block_tail_stuffed acd block _))

theorem encode_entropy_step_stuffed (dc ac : Nat → derived_huffman_table)
    (mcu : Nat → Nat → Int) (os : List Nat × entropy_state) (i : Nat) :
    appended_stuffed os.1 (encode_entropy_step dc ac mcu os i).1 := by
  unfold encode_entropy_step encode_entropy_single_block encode_block_from_diff
  exact encode_block_emit_stuffed _ _ _ _ _

theorem encode_entropy_stuffed (dc ac : Nat → derived_huffman_table)
    (mcu : Nat → Nat → Int) (outputbuf : List Nat) (state : entropy_state) :
    appended_stuffed outputbuf (encode_entropy dc ac mcu outputbuf state).1 := by
  have h : ∀ (is : List Nat) (os : List Nat × entropy_state),
      appended_stuffed os.1 (is.foldl (encode_entropy_step dc ac mcu) os).1 := by
    intro is
    induction is with
    | nil => intro os; exact appended_stuffed_refl _
    | cons i is ih =>
      intro os
      rw [List.foldl_cons]
      exact appended_stuffed_trans _ _ _ (encode_entropy_step_stuffed dc ac mcu os i) (ih _)
  exact h _ (outputbuf, state)

/-- Whatever the tables and the blocks, in the bytes appended by the `encode_entropy`
calls of the entropy loop every `0xFF` is followed at once by `0x00`. -/
theorem encode_image_entropy_stuffed (dc ac : Nat → derived_huffman_table)
    (mcus : List (Nat → Nat → Int)) (output_buffer : List Nat) (buffer : Nat) :
    appended_stuffed output_buffer
      (encode_image_entropy dc ac mcus output_buffer buffer).1 := by
  have h : ∀ (ms : List (Nat → Nat → Int)) (os : List Nat × entropy_state),
      appended_stuffed os.1
        (ms.foldl (fun (os : List Nat × entropy_state) mcu_buffer =>
          encode_entropy dc ac mcu_buffer os.1 os.2) os).1 := by
    intro ms
    induction ms with
    | nil => intro os; exact appended_stuffed_refl _
    | cons m ms ih =>
      intro os
      rw [List.foldl_cons]
      exact appended_stuffed_trans _ _ _ (encode_entropy_stuffed dc ac m os.1 os.2) (ih _)
  exact h mcus _

/-! ### The fuel of the two counting loops is enough -/

/-- The loop `while (r > 15)` ends with `r ≤ 15` within `r` turns. -/
theorem kloop_zrl_exit (code_0xf0 : Int) (size_0xf0 : Nat) :
    ∀ (fuel r : Nat) (s : emit_state), r ≤ 16 * fuel + 15 →
      (kloop_zrl code_0xf0 size_0xf0 fuel r s).1 ≤ 15
        ∧ (kloop_zrl code_0xf0 size_0xf0 fuel r s).1 % 16 = r % 16 := by
  intro fuel
  induction fuel with
  | zero =>
    intro r s h
    unfold kloop_zrl
    exact ⟨by omega, rfl⟩
  | succ fuel ih =>
    intro r s h
    unfold kloop_zrl
    split_ifs with hr
    · obtain ⟨h1, h2⟩ := ih (r - 16) (EMIT_BITS code_0xf0 size_0xf0 s) (by omega)
      exact ⟨h1, by omega⟩
    · exact ⟨by omega, rfl⟩

/-- The loop `while (bits > 0x7)` of the flush does not depend on fuel beyond the
`bits / 8` turns it takes. -/
theorem encode_image_flush_loop_fuel (buffer : Nat) :
    ∀ (fuel1 fuel2 bits : Nat) (out : List Nat), bits / 8 ≤ fuel1 → bits / 8 ≤ fuel2 →
      encode_image_flush_loop buffer fuel1 bits out
        = encode_image_flush_loop buffer fuel2 bits out := by
  intro fuel1
  induction fuel1 with
  | zero =>
    intro fuel2 bits out h1 _
    have hb : ¬ bits > 0x7 := by omega
    cases fuel2 with
    | zero => rfl
    | succ f => simp only [encode_image_flush_loop, if_neg hb]
  | succ fuel1 ih =>
    intro fuel2 bits out h1 h2
    by_cases hb : bits > 0x7
    · cases fuel2 with
      | zero => omega
      | succ f =>
        simp only [encode_image_flush_loop, if_pos hb]
        exact ih f _ _ (by omega) (by omega)
    · cases fuel2 with
      | zero => simp only [encode_image_flush_loop, if_neg hb]
      | succ f => simp only [encode_image_flush_loop, if_neg hb]

/-- For every quality from 20 to 100 the scale of `set_quality_setting` is
`5000 / quality` below 50 and `200 - 2 * quality` from 50 on. -/
theorem set_quality_setting_q_fits (quality : Nat) (h1 : 20 ≤ quality) (h2 : quality ≤ 100) :
    set_quality_setting_q quality
      = if quality < 50 then 5000 / quality else 200 - 2 * quality := by
  interval_cases quality <;> decide

/-! ### The header writers -/

theorem to_uchar_of_lt (n : Nat) (h : n < 0x100) : to_uchar (n : Int) = n := by
  unfold to_uchar
  omega

theorem write_byte_nat (out : List Nat) (n : Nat) (h : n < 0x100) :
    write_byte out (n : Int) = out ++ [n] := by
  unfold write_byte
  rw [to_uchar_of_lt n h]

theorem int_land_natCast (m n : Nat) : Int.land (m : Int) (n : Int) = ((m &&& n : Nat) : Int) :=
  rfl

theorem int_shiftRight_natCast (m n : Nat) :
    ((m : Int) >>> (n : Int)) = ((m >>> n : Nat) : Int) :=
  Int.shiftRight_coe_nat m n

theorem nat_land_255 (m : Nat) : m &&& 0xFF = m % 256 :=
  Nat.and_pow_two_sub_one_eq_mod m 8

/-- `write_2byte` on a value below `2^16` writes its high and its low byte. -/
theorem write_2byte_nat (out : List Nat) (n : Nat) (h : n < 0x10000) :
    write_2byte out (n : Int) = out ++ [n / 256, n % 256] := by
  unfold write_2byte
  have h1 : Int.land ((n : Int) >>> 0x8) 0xFF = ((n / 256 : Nat) : Int) := by
    have hs : ((n : Int) >>> (0x8 : Int)) = ((n >>> 8 : Nat) : Int) :=
      int_shiftRight_natCast n 8
    rw [hs]
    show Int.land ((n >>> 8 : Nat) : Int) ((0xFF : Nat) : Int) = _
    rw [int_land_natCast, nat_land_255, Nat.shiftRight_eq_div_pow]
    congr 1
    omega
  have h2 : Int.land (n : Int) 0xFF = ((n % 256 : Nat) : Int) := by
    show Int.land (n : Int) ((0xFF : Nat) : Int) = _
    rw [int_land_natCast, nat_land_255]
  rw [h1, h2, write_byte_nat _ _ (by omega), write_byte_nat _ _ (by omega)]
  simp

theorem write_marker_nat (out : List Nat) (n : Nat) (h : n < 0x100) :
    write_marker out (n : Int) = out ++ [0xFF, n] := by
  unfold write_marker
  have : write_byte out 0xFF = out ++ [0xFF] := write_byte_nat out 0xFF (by decide)
  rw [this, write_byte_nat _ _ h]
  simp

theorem foldl_push (f : Nat → Nat) (ls : List Nat) (out : List Nat) :
    ls.foldl (fun o i => o ++ [f i]) out = out ++ ls.map f := by
  induction ls generalizing out with
  | nil => simp
  | cons a ls ih => rw [List.foldl_cons, ih]; simp

theorem foldl_write_byte (f : Nat → Nat) (ls : List Nat) (out : List Nat)
    (h : ∀ i, i ∈ ls → f i < 0x100) :
    ls.foldl (fun o i => write_byte o (f i : Int)) out = out ++ ls.map f := by
  induction ls generalizing out with
  | nil => simp
  | cons a ls ih =>
    rw [List.foldl_cons, write_byte_nat _ _ (h a (List.mem_cons_self _ _)),
      ih _ (fun i hi => h i (List.mem_cons_of_mem _ hi))]
    simp

theorem write_file_header_eq (output : List Nat) :
    write_file_header output = output ++ soi_app0_bytes := by
  unfold write_file_header
  simp only [foldl_push]
  rw [List.append_assoc]
  rfl

theorem write_quant_table_eq (m_quant_tbls : quant_tbls) (order : Nat → Nat)
    (out : List Nat) (index : Nat) (hidx : index < 2)
    (hval : ∀ i, i < 0x40 → m_quant_tbls index (order i) < 0x100) :
    write_quant_table m_quant_tbls order out index
      = out ++ dqt_bytes m_quant_tbls order index := by
  unfold write_quant_table dqt_bytes
  dsimp only
  have hm : write_marker out 0xDB = out ++ [0xFF, 0xDB] := write_marker_nat out 0xDB (by decide)
  have h2 : ∀ o : List Nat, write_2byte o (0x40 + 1 + 2) = o ++ [0x00, 0x43] :=
    fun o => write_2byte_nat o 0x43 (by decide)
  rw [hm, h2, write_byte_nat _ index (by omega)]
  have hf := foldl_write_byte (fun i => m_quant_tbls index (order i) &&& 0xFF)
    (List.range 0x40) (out ++ [0xFF, 0xDB] ++ [0x00, 0x43] ++ [index])
    (fun i _ => by
      show m_quant_tbls index (order i) &&& 0xFF < 0x100
      rw [nat_land_255]
      omega)
  rw [hf]
  have hmap : (List.range 0x40).map (fun i => m_quant_tbls index (order i) &&& 0xFF)
      = (List.range 0x40).map (fun i => m_quant_tbls index (order i)) := by
    apply List.map_congr_left
    intro i hi
    rw [List.mem_range] at hi
    rw [nat_land_255]
    exact Nat.mod_eq_of_lt (hval i hi)
  rw [hmap]
  simp

theorem dqt_bytes_length (m_quant_tbls : quant_tbls) (order : Nat → Nat) (index : Nat) :
    (dqt_bytes m_quant_tbls order index).length = 69 := by
  simp [dqt_bytes]

theorem to_int_natCast (n : Nat) (h : n < 0x80000000) : to_int (n : Int) = n := by
  unfold to_int
  omega

theorem write_sof_eq (out : List Nat) (w h : Nat) (hw : w < 0x10000) (hh : h < 0x10000) :
    write_sof out w h = out ++ sof_bytes w h := by
  unfold write_sof sof_bytes
  dsimp only
  have hm : write_marker out 0xC0 = out ++ [0xFF, 0xC0] := write_marker_nat out 0xC0 (by decide)
  have h2 : ∀ o : List Nat, write_2byte o (3 * 0x3 + 2 + 5 + 1) = o ++ [0x00, 0x11] :=
    fun o => write_2byte_nat o 0x11 (by decide)
  have b0 : ∀ o : List Nat, write_byte o 0x8 = o ++ [0x8] := fun o => write_byte_nat o 8 (by decide)
  have b1 : ∀ o : List Nat, write_byte o 0x3 = o ++ [0x3] := fun o => write_byte_nat o 3 (by decide)
  have b2 : ∀ o : List Nat, write_byte o 0x1 = o ++ [0x1] := fun o => write_byte_nat o 1 (by decide)
  have b3 : ∀ o : List Nat, write_byte o (shl 0x2 4 + 0x2) = o ++ [0x22] :=
    fun o => write_byte_nat o 0x22 (by decide)
  have b4 : ∀ o : List Nat, write_byte o 0 = o ++ [0] := fun o => write_byte_nat o 0 (by decide)
  have b5 : ∀ o : List Nat, write_byte o 0x2 = o ++ [0x2] := fun o => write_byte_nat o 2 (by decide)
  have b6 : ∀ o : List Nat, write_byte o (shl 0x1 4 + 0x1) = o ++ [0x11] :=
    fun o => write_byte_nat o 0x11 (by decide)
  rw [hm, h2, b0, to_int_natCast h (by omega), to_int_natCast w (by omega),
    write_2byte_nat _ h hh, write_2byte_nat _ w hw]
  simp only [b1, b2, b3, b4, b5, b6]
  simp

theorem foldl_add_eq_sum (f : Nat → Nat) (ls : List Nat) (init : Nat) :
    ls.foldl (fun length i => length + f i) init = init + (ls.map f).sum := by
  induction ls generalizing init with
  | nil => simp
  | cons a ls ih => rw [List.foldl_cons, ih]; simp [Nat.add_assoc]

theorem write_huffman_table_eq (dc ac : Nat → huffman_table) (out : List Nat)
    (t is_ac : Nat) (ht : t < 2) (hac : is_ac < 2)
    (hn : bits_sum (if is_ac ≠ 0 then ac t else dc t) ≤ 0x100)
    (hbits : ∀ i, 1 ≤ i → i ≤ 0x10 → (if is_ac ≠ 0 then ac t else dc t).bits i < 0x100)
    (hvalue : ∀ p, p < bits_sum (if is_ac ≠ 0 then ac t else dc t) →
      (if is_ac ≠ 0 then ac t else dc t).value p < 0x100) :
    write_huffman_table dc ac out t is_ac
      = out ++ dht_bytes (if is_ac ≠ 0 then ac t else dc t) t is_ac := by
  unfold write_huffman_table dht_bytes
  dsimp only
  generalize (if is_ac ≠ 0 then ac t else dc t) = htbl at hn hbits hvalue ⊢
  have hlen : (List.range' 1 0x10).foldl (fun length i => length + htbl.bits i) 0
      = bits_sum htbl := by
    rw [foldl_add_eq_sum]
    unfold bits_sum
    simp
  rw [hlen]
  have hm : write_marker out 0xC4 = out ++ [0xFF, 0xC4] := write_marker_nat out 0xC4 (by decide)
  have hsum : bits_sum htbl + 2 + 1 + 0x10 = 19 + bits_sum htbl := by omega
  have hcast : ((bits_sum htbl + 2 + 1 + 0x10 : Nat) : Int) = ((19 + bits_sum htbl : Nat) : Int) := by
    rw [hsum]
  rw [hm, hcast, to_int_natCast _ (by omega), write_2byte_nat _ _ (by omega)]
  have hidx : (if is_ac ≠ 0 then t + 0x10 else t) = (is_ac <<< 4) ||| t := by
    have h1 : is_ac = 0 ∨ is_ac = 1 := by omega
    have h2 : t = 0 ∨ t = 1 := by omega
    rcases h1 with h1 | h1 <;> rcases h2 with h2 | h2 <;> subst h1 <;> subst h2 <;> decide
  rw [hidx]
  have hb : (is_ac <<< 4) ||| t < 0x100 := by
    have h1 : is_ac = 0 ∨ is_ac = 1 := by omega
    have h2 : t = 0 ∨ t = 1 := by omega
    rcases h1 with h1 | h1 <;> rcases h2 with h2 | h2 <;> subst h1 <;> subst h2 <;> decide
  rw [write_byte_nat _ _ hb]
  rw [foldl_write_byte htbl.bits (List.range' 1 0x10) _ (fun i hi => by
    rw [List.mem_range'] at hi
    obtain ⟨k, hk, rfl⟩ := hi
    exact hbits _ (by omega) (by omega))]
  rw [foldl_write_byte htbl.value (List.range (bits_sum htbl)) _ (fun i hi => by
    rw [List.mem_range] at hi
    exact hvalue i hi)]
  simp

theorem dht_bytes_length (htbl : huffman_table) (t is_ac : Nat) :
    (dht_bytes htbl t is_ac).length = 21 + bits_sum htbl := by
  simp [dht_bytes]
  omega

theorem write_sos_eq (out : List Nat) : write_sos out = out ++ sos_bytes := by
  unfold write_sos sos_bytes
  dsimp only
  have hm : write_marker out 0xDA = out ++ [0xFF, 0xDA] := write_marker_nat out 0xDA (by decide)
  have h2 : ∀ o : List Nat, write_2byte o (2 * 0x3 + 2 + 1 + 3) = o ++ [0x00, 0x0C] :=
    fun o => write_2byte_nat o 0x0C (by decide)
  have b0 : ∀ o : List Nat, write_byte o 0x3 = o ++ [0x3] := fun o => write_byte_nat o 3 (by decide)
  have b1 : ∀ o : List Nat, write_byte o 1 = o ++ [1] := fun o => write_byte_nat o 1 (by decide)
  have b2 : ∀ o : List Nat, write_byte o (shl 0 0x4 + 0) = o ++ [0] :=
    fun o => write_byte_nat o 0 (by decide)
  have b3 : ∀ o : List Nat, write_byte o 2 = o ++ [2] := fun o => write_byte_nat o 2 (by decide)
  have b4 : ∀ o : List Nat, write_byte o (shl 1 0x4 + 1) = o ++ [0x11] :=
    fun o => write_byte_nat o 0x11 (by decide)
  have b5 : ∀ o : List Nat, write_byte o 0 = o ++ [0] := fun o => write_byte_nat o 0 (by decide)
  have b6 : ∀ o : List Nat, write_byte o 0x3F = o ++ [0x3F] :=
    fun o => write_byte_nat o 0x3F (by decide)
  rw [hm, h2]
  simp only [b0, b1, b2, b3, b4, b5, b6]
  simp

theorem foldl_write_byte_map (g : Nat → Int) (ls : List Nat) (out : List Nat) :
    ls.foldl (fun o i => write_byte o (g i)) out = out ++ ls.map (fun i => to_uchar (g i)) := by
  induction ls generalizing out with
  | nil => simp
  | cons a ls ih =>
    rw [List.foldl_cons, ih]
    simp [write_byte]

theorem write_quant_table_append (m_quant_tbls : quant_tbls) (order : Nat → Nat)
    (out : List Nat) (index : Nat) :
    write_quant_table m_quant_tbls order out index
      = out ++ write_quant_table m_quant_tbls order [] index := by
  unfold write_quant_table write_marker write_2byte
  simp only [write_byte, foldl_push, List.append_assoc, List.nil_append]

theorem write_quant_table_length (m_quant_tbls : quant_tbls) (order : Nat → Nat) (index : Nat) :
    (write_quant_table m_quant_tbls order [] index).length = 69 := by
  unfold write_quant_table write_marker write_2byte
  simp [write_byte, foldl_push]

theorem write_sof_append (out : List Nat) (w h : Nat) :
    write_sof out w h = out ++ write_sof [] w h := by
  unfold write_sof write_marker write_2byte
  simp only [write_byte, List.append_assoc, List.nil_append]

theorem write_sof_length (w h : Nat) : (write_sof [] w h).length = 19 := by
  unfold write_sof write_marker write_2byte
  simp [write_byte]

theorem write_huffman_table_append (dc ac : Nat → huffman_table) (out : List Nat)
    (index is_ac : Nat) :
    write_huffman_table dc ac out index is_ac
      = out ++ write_huffman_table dc ac [] index is_ac := by
  unfold write_huffman_table write_marker write_2byte
  simp only [write_byte, foldl_push, List.append_assoc, List.nil_append]

theorem write_huffman_table_length (dc ac : Nat → huffman_table) (index is_ac : Nat) :
    (write_huffman_table dc ac [] index is_ac).length
      = 21 + bits_sum (if is_ac ≠ 0 then ac index else dc index) := by
  unfold write_huffman_table write_marker write_2byte
  dsimp only
  have hlen : ∀ htbl : huffman_table,
      (List.range' 1 0x10).foldl (fun length i => length + htbl.bits i) 0 = bits_sum htbl := by
    intro htbl
    rw [foldl_add_eq_sum]
    unfold bits_sum
    simp
  rw [hlen]
  simp only [write_byte, foldl_push, List.length_append, List.length_map,
    List.length_range, List.length_range', List.length_cons, List.length_nil]

theorem write_file_header_length : (write_file_header []).length = 20 := by
  rw [write_file_header_eq]
  rfl

theorem m_ac_huff_tbls_bytes :
    (∀ i, 1 ≤ i → i ≤ 0x10 → (m_ac_huff_tbls 1).bits i < 0x100)
    ∧ ∀ p, p < bits_sum (m_ac_huff_tbls 1) → (m_ac_huff_tbls 1).value p < 0x100 := by
  set_option maxRecDepth 100000 in
  decide

/-! ### Division by multiplication with the reciprocal -/

theorem div_eq_of_mul_bounds (m n k d : Nat) (hd : 0 < d)
    (h1 : k * n * d ≤ m * d) (h2 : m * d < (k + 1) * n * d) : m / n = k := by
  apply Nat.div_eq_of_lt_le
  · exact Nat.le_of_mul_le_mul_right h1 hd
  · exact Nat.lt_of_mul_lt_mul_right h2

/-- The multiplication by the reciprocal and the shift divide by `d` with rounding to
nearest, for every `x ≤ 32767`. -/
theorem reciprocal_divides (d r fq c : Nat) (h : reciprocal_ok d r fq c) (x : Nat)
    (hx : x ≤ 32767) :
    (x + c) * fq / 2 ^ r = (x + d / 2) / d := by
  obtain ⟨hd, hcase⟩ := h
  have hq1 : (x + d / 2) / d * d ≤ x + d / 2 := Nat.div_mul_le_self _ _
  have hq2 : x + d / 2 < ((x + d / 2) / d + 1) * d := by
    have h1 := Nat.div_add_mod (x + d / 2) d
    have h2 := Nat.mod_lt (x + d / 2) hd
    rw [Nat.add_mul, Nat.one_mul, Nat.mul_comm]
    omega
  generalize (x + d / 2) / d = q at hq1 hq2 ⊢
  generalize hP : 2 ^ r = P at hcase ⊢
  have hy : x + d / 2 ≤ 32767 + d / 2 := by omega
  rcases hcase with ⟨hc, hF⟩ | ⟨hc, hF, hE⟩ | ⟨hc, hF, hE⟩
  · subst hc
    have hfq : 0 < fq := by
      rcases Nat.eq_zero_or_pos fq with h0 | h0
      · rw [h0, Nat.zero_mul] at hF
        have : 0 < 2 ^ r := by positivity
        omega
      · exact h0
    rw [← hF, Nat.mul_comm fq d, Nat.mul_div_mul_right _ _ hfq]
    apply Nat.div_eq_of_lt_le
    · exact hq1
    · exact hq2
  · subst hc
    generalize hy0 : x + d / 2 = y at hq1 hq2 hy
    have hxe : x + (d / 2 + 1) = y + 1 := by omega
    rw [hxe]
    obtain ⟨e, he⟩ : ∃ e, P = fq * d + e := ⟨P - fq * d, by omega⟩
    have he0 : 0 < e := by omega
    have hE' : (y + 1) * e ≤ P := by
      have h1 : (y + 1) * (P - fq * d) ≤ (32767 + d / 2 + 1) * (P - fq * d) :=
        Nat.mul_le_mul_right _ (by omega)
      have h2 : P - fq * d = e := by omega
      rw [h2] at h1 hE
      omega
    apply div_eq_of_mul_bounds _ _ _ d hd
    · nlinarith [Nat.mul_le_mul_right P hq1, hE', he]
    · nlinarith [Nat.mul_le_mul_right P (Nat.succ_le_of_lt hq2), he0, he]
  · subst hc
    generalize hy0 : x + d / 2 = y at hq1 hq2 hy
    obtain ⟨e, he⟩ : ∃ e, fq * d = P + e := ⟨fq * d - P, by omega⟩
    have hE' : y * e < P := by
      have h1 : y * (fq * d - P) ≤ (32767 + d / 2) * (fq * d - P) :=
        Nat.mul_le_mul_right _ hy
      have h2 : fq * d - P = e := by omega
      rw [h2] at h1 hE
      omega
    apply div_eq_of_mul_bounds _ _ _ d hd
    · nlinarith [Nat.mul_le_mul_right P hq1, he]
    · nlinarith [Nat.mul_le_mul_right P (Nat.succ_le_of_lt hq2), hE', he]

set_option maxRecDepth 1000000 in
theorem reciprocal_values_ok_all : ∀ v ∈ List.range' 1 255, reciprocal_values_ok v = true := by
  decide

theorem compute_reciprocal_values_ok (v : Nat) (hv1 : 1 ≤ v) (hv2 : v ≤ 255) :
    0 ≤ (compute_reciprocal_values (8 * v)).correction
    ∧ 0 ≤ (compute_reciprocal_values (8 * v)).shift
    ∧ reciprocal_ok (8 * v) (16 + (compute_reciprocal_values (8 * v)).shift.toNat)
        (to_ushort (compute_reciprocal_values (8 * v)).reciprocal)
        (compute_reciprocal_values (8 * v)).correction.toNat := by
  have h := reciprocal_values_ok_all v (by
    rw [List.mem_range']
    exact ⟨v - 1, by omega, by omega⟩)
  unfold reciprocal_values_ok at h
  exact of_decide_eq_true h

theorem compute_reciprocal_stores (divisor : Nat) (dtbl : Nat → Int) :
    (compute_reciprocal divisor dtbl).1 (0x40 * 0) = (compute_reciprocal_values divisor).reciprocal
    ∧ (compute_reciprocal divisor dtbl).1 (0x40 * 1)
        = (compute_reciprocal_values divisor).correction
    ∧ (compute_reciprocal divisor dtbl).1 (0x40 * 2) = (compute_reciprocal_values divisor).scale
    ∧ (compute_reciprocal divisor dtbl).1 (0x40 * 3) = (compute_reciprocal_values divisor).shift
    ∧ (compute_reciprocal divisor dtbl).2 = (compute_reciprocal_values divisor).ret := by
  simp [compute_reciprocal, Function.update]

/-! ### Sign handling and magnitude bits -/

theorem int_shiftRight_31 (x : Int) (h : int_ok x) :
    x >>> 31 = if 0 ≤ x then 0 else -1 := by
  unfold int_ok at h
  cases x with
  | ofNat a =>
    have h0 : (0 : Int) ≤ Int.ofNat a := Int.ofNat_nonneg a
    rw [if_pos h0]
    show ((a : Int) >>> ((31 : Nat) : Int)) = 0
    rw [Int.shiftRight_coe_nat, Nat.shiftRight_eq_div_pow]
    have ha : a < 2 ^ 31 := by
      have : (Int.ofNat a) = (a : Int) := rfl
      omega
    rw [Nat.div_eq_of_lt ha]
    rfl
  | negSucc a =>
    have h0 : ¬ (0 : Int) ≤ Int.negSucc a := by
      have := Int.negSucc_lt_zero a
      omega
    rw [if_neg h0]
    show (Int.negSucc a >>> ((31 : Nat) : Int)) = -1
    rw [Int.shiftRight_negSucc, Nat.shiftRight_eq_div_pow]
    have ha : a < 2 ^ 31 := by
      have : Int.negSucc a = -((a : Int) + 1) := rfl
      omega
    rw [Nat.div_eq_of_lt ha]
    rfl

theorem int_xor_zero (x : Int) : Int.xor x 0 = x := by
  cases x with
  | ofNat a =>
    show Int.ofNat (a ^^^ 0) = Int.ofNat a
    rw [Nat.xor_zero]
  | negSucc a =>
    show Int.negSucc (a ^^^ 0) = Int.negSucc a
    rw [Nat.xor_zero]

theorem int_xor_neg_one (x : Int) : Int.xor x (-1) = -x - 1 := by
  cases x with
  | ofNat a =>
    show Int.negSucc (a ^^^ 0) = _
    rw [Nat.xor_zero]
    have : Int.negSucc a = -((a : Int) + 1) := rfl
    have h2 : Int.ofNat a = (a : Int) := rfl
    omega
  | negSucc a =>
    show Int.ofNat (a ^^^ 0) = _
    rw [Nat.xor_zero]
    have : Int.negSucc a = -((a : Int) + 1) := rfl
    have h2 : Int.ofNat a = (a : Int) := rfl
    omega

/-- The sign handling leaves `|temp|` in `temp`, so `nbits = nbits_table[|temp|]`. -/
theorem sign_nbits_eq (x : Int) (h1 : -0x80000000 < x) (h2 : x < 0x80000000) :
    sign_nbits x = nbits_table x.natAbs := by
  unfold sign_nbits
  have hok : int_ok x := by unfold int_ok; omega
  simp only [int_shiftRight_31 x hok]
  by_cases hx : 0 ≤ x
  · rw [if_pos hx, int_xor_zero]
    have : to_int (x - 0) = x := by unfold to_int; omega
    rw [this]
    congr 1
    omega
  · rw [if_neg hx, int_xor_neg_one]
    have : to_int (-x - 1 - -1) = -x := by unfold to_int; omega
    rw [this]
    congr 1
    omega

/-- The sign handling leaves `temp2 = temp` for `temp ≥ 0` and `temp2 = temp - 1` for
`temp < 0`. -/
theorem sign_temp2_eq (x : Int) (h1 : -0x80000000 < x) (h2 : x < 0x80000000) :
    sign_temp2 x = if 0 ≤ x then x else x - 1 := by
  unfold sign_temp2
  have hok : int_ok x := by unfold int_ok; omega
  rw [int_shiftRight_31 x hok]
  by_cases hx : 0 ≤ x
  · rw [if_pos hx, if_pos hx]
    unfold to_int; omega
  · rw [if_neg hx, if_neg hx]
    unfold to_int; omega

theorem filter_lt_range (m : Nat) : ∀ n : Nat,
    ((List.range n).filter (fun k => decide (k < m))).length = min n m := by
  intro n
  induction n with
  | zero => simp
  | succ n ih =>
    rw [List.range_succ, List.filter_append, List.length_append, ih]
    by_cases h : n < m
    · simp [h]
      omega
    · simp [h]
      omega

/-- The entry `i` of `nbits_table` is the bit length of `i`, for `i < 65536`. -/
theorem nbits_table_eq_size (i : Nat) (h : i < 65536) : nbits_table i = Nat.size i := by
  unfold nbits_table
  have hf : (fun k => decide (2 ^ k ≤ i)) = (fun k => decide (k < Nat.size i)) := by
    funext k
    exact decide_eq_decide.mpr Nat.lt_size.symm
  rw [hf, filter_lt_range]
  have : Nat.size i ≤ 16 := by
    rw [Nat.size_le]
    exact h
  omega

theorem ldiff_mask (n a : Nat) (h : a < 2 ^ n) : Nat.ldiff (2 ^ n - 1) a = 2 ^ n - (a + 1) := by
  apply Nat.eq_of_testBit_eq
  intro i
  rw [Nat.testBit_ldiff, Nat.testBit_two_pow_sub_one, Nat.testBit_two_pow_sub_succ h]

theorem int_land_mask_nonneg (x : Int) (n : Nat) (h1 : 0 ≤ x) (h2 : x < 2 ^ n) :
    Int.land x (2 ^ n - 1) = x := by
  obtain ⟨a, rfl⟩ := Int.eq_ofNat_of_zero_le h1
  have ha : a < 2 ^ n := by exact_mod_cast h2
  have hm : ((2 : Int) ^ n - 1) = ((2 ^ n - 1 : Nat) : Int) := by
    have : 1 ≤ 2 ^ n := Nat.one_le_two_pow
    push_cast [Nat.cast_sub this]
    rfl
  rw [hm]
  show ((a &&& (2 ^ n - 1) : Nat) : Int) = (a : Int)
  rw [Nat.and_pow_two_sub_one_eq_mod, Nat.mod_eq_of_lt ha]

theorem int_land_mask_neg (x : Int) (n : Nat) (h1 : -(2 ^ n) ≤ x) (h2 : x < 0) :
    Int.land x (2 ^ n - 1) = x + 2 ^ n := by
  cases x with
  | ofNat a =>
    have : Int.ofNat a = (a : Int) := rfl
    omega
  | negSucc a =>
    have hx : Int.negSucc a = -((a : Int) + 1) := rfl
    have ha : a < 2 ^ n := by
      have : (a : Int) < 2 ^ n := by omega
      exact_mod_cast this
    have hm : ((2 : Int) ^ n - 1) = Int.ofNat (2 ^ n - 1) := by
      have : 1 ≤ 2 ^ n := Nat.one_le_two_pow
      show _ = ((2 ^ n - 1 : Nat) : Int)
      push_cast [Nat.cast_sub this]
      rfl
    rw [hm]
    show Int.ofNat (Nat.ldiff (2 ^ n - 1) a) = _
    rw [ldiff_mask n a ha, hx]
    show ((2 ^ n - (a + 1) : Nat) : Int) = _
    have : a + 1 ≤ 2 ^ n := ha
    push_cast [Nat.cast_sub this]
    omega

/-- The power of two of the bit length of `|x|`, against `x`. -/
theorem size_pow_bounds (x : Int) (h1 : -65535 ≤ x) (h2 : x ≤ 65535) :
    (1 : Int) ≤ 2 ^ Nat.size x.natAbs ∧ (2 : Int) ^ Nat.size x.natAbs ≤ 65536
    ∧ x < 2 ^ Nat.size x.natAbs ∧ -(2 ^ Nat.size x.natAbs) < x
    ∧ (x ≠ 0 → (2 : Int) ^ Nat.size x.natAbs ≤ 2 * x ∨ (2 : Int) ^ Nat.size x.natAbs ≤ -(2 * x))
    ∧ (x ≠ 0 → 1 ≤ Nat.size x.natAbs)
    ∧ Nat.size x.natAbs ≤ 16 := by
  have hlt : x.natAbs < 2 ^ Nat.size x.natAbs := Nat.lt_size_self _
  have hle : Nat.size x.natAbs ≤ 16 := by
    rw [Nat.size_le]
    omega
  have hP : 2 ^ Nat.size x.natAbs ≤ 2 ^ 16 := Nat.pow_le_pow_right (by decide) hle
  have h1P : 1 ≤ 2 ^ Nat.size x.natAbs := Nat.one_le_two_pow
  have hpos : x ≠ 0 → 1 ≤ Nat.size x.natAbs := by
    intro hx
    have : 0 < Nat.size x.natAbs := by
      rw [Nat.size_pos]
      omega
    exact this
  have hhalf : x ≠ 0 → 2 ^ Nat.size x.natAbs ≤ 2 * x.natAbs := by
    intro hx
    have hp := hpos hx
    have h3 : 2 ^ (Nat.size x.natAbs - 1) ≤ x.natAbs := by
      rw [← Nat.lt_size]
      omega
    have h4 : 2 ^ Nat.size x.natAbs = 2 * 2 ^ (Nat.size x.natAbs - 1) := by
      rw [← Nat.pow_succ']
      congr 1
      omega
    omega
  have hcast : ((2 ^ Nat.size x.natAbs : Nat) : Int) = (2 : Int) ^ Nat.size x.natAbs := by
    push_cast
    rfl
  rw [← hcast]
  refine ⟨by omega, by omega, by omega, by omega, ?_, hpos, hle⟩
  intro hx
  have := hhalf hx
  omega

/-- The bits that the DC part masks out of `temp2` are the magnitude bits of the
specification. -/
theorem dc_magnitude_eq (diff : Int) (h1 : -65535 ≤ diff) (h2 : diff ≤ 65535) :
    to_int (to_long (Int.land (sign_temp2 diff)
        (to_long (to_long (shl 1 (Nat.size diff.natAbs)) - 1))))
      = magnitude_value diff (Nat.size diff.natAbs) := by
  obtain ⟨hP1, hP2, hlt, hgt, _, _, _⟩ := size_pow_bounds diff h1 h2
  rw [sign_temp2_eq diff (by omega) (by omega)]
  have hmask : to_long (to_long (shl 1 (Nat.size diff.natAbs)) - 1)
      = 2 ^ Nat.size diff.natAbs - 1 := by
    unfold shl to_long
    omega
  rw [hmask]
  unfold magnitude_value
  by_cases hx : 0 ≤ diff
  · rw [if_pos hx, int_land_mask_nonneg diff _ hx hlt]
    by_cases h0 : diff > 0
    · rw [if_pos h0]
      unfold to_int to_long
      omega
    · rw [if_neg h0]
      have hd : diff = 0 := by omega
      subst hd
      simp [to_int, to_long]
  · rw [if_neg hx, int_land_mask_neg (diff - 1) _ (by omega) (by omega)]
    have h0 : ¬ diff > 0 := by omega
    rw [if_neg h0]
    unfold to_int to_long
    omega

/-- The bits that `EMIT_CODE` masks out of `temp2` are the magnitude bits of the
specification. -/
theorem ac_magnitude_eq (v : Int) (h1 : -65535 ≤ v) (h2 : v ≤ 65535) :
    to_int (Int.land (sign_temp2 v) (to_int (to_int (shl 1 (Nat.size v.natAbs)) - 1)))
      = magnitude_value v (Nat.size v.natAbs) := by
  obtain ⟨hP1, hP2, hlt, hgt, _, _, _⟩ := size_pow_bounds v h1 h2
  rw [sign_temp2_eq v (by omega) (by omega)]
  have hmask : to_int (to_int (shl 1 (Nat.size v.natAbs)) - 1)
      = 2 ^ Nat.size v.natAbs - 1 := by
    unfold shl to_int
    omega
  rw [hmask]
  unfold magnitude_value
  by_cases hx : 0 ≤ v
  · rw [if_pos hx, int_land_mask_nonneg v _ hx hlt]
    by_cases h0 : v > 0
    · rw [if_pos h0]
      unfold to_int
      omega
    · rw [if_neg h0]
      have hd : v = 0 := by omega
      subst hd
      simp [to_int]
  · rw [if_neg hx, int_land_mask_neg (v - 1) _ (by omega) (by omega)]
    have h0 : ¬ v > 0 := by omega
    rw [if_neg h0]
    unfold to_int
    omega

/-- The value of `nbits` for a value of at most 16 bits is the bit length of its
absolute value. -/
theorem sign_nbits_size (x : Int) (h1 : -65535 ≤ x) (h2 : x ≤ 65535) :
    sign_nbits x = Nat.size x.natAbs := by
  rw [sign_nbits_eq x (by omega) (by omega), nbits_table_eq_size _ (by omega)]

theorem encode_block_emit_eq (dcd acd : derived_huffman_table) (block : Nat → Int)
    (diff : Int) (s : emit_state) :
    encode_block_emit dcd acd block diff s
      = encode_block_ac acd block
          (emit_sequence ((dc_trace diff).map (emitted_bits dcd acd)) s) :=
  rfl

theorem PUT_BITS_zero (s : emit_state) (h : s.put_buffer < 2 ^ 64) : PUT_BITS 0 0 s = s := by
  unfold PUT_BITS
  have h1 : to_size_t ((s.put_buffer <<< 0 : Nat) : Int) = s.put_buffer := by
    unfold to_size_t
    rw [Nat.shiftLeft_zero]
    omega
  have h2 : to_size_t 0 = 0 := by decide
  rw [Nat.add_zero, h1, h2, Nat.or_zero]

theorem to_size_t_lt (x : Int) : to_size_t x < 2 ^ 64 := by
  unfold to_size_t
  omega

theorem EMIT_BYTE_put_buffer (s : emit_state) : (EMIT_BYTE s).put_buffer = s.put_buffer := rfl

theorem CHECKBUF15_put_buffer (s : emit_state) : (CHECKBUF15 s).put_buffer = s.put_buffer := by
  unfold CHECKBUF15
  split
  · rfl
  · rfl

theorem EMIT_BITS_put_buffer_lt (code : Int) (size : Nat) (s : emit_state) :
    (EMIT_BITS code size s).put_buffer < 2 ^ 64 := by
  unfold EMIT_BITS
  rw [CHECKBUF15_put_buffer]
  unfold PUT_BITS
  exact Nat.or_lt_two_pow (to_size_t_lt _) (to_size_t_lt _)

/-! ### The block encoder and its emissions -/

theorem emit_sequence_append (a b : List (Int × Nat)) (s : emit_state) :
    emit_sequence (a ++ b) s = emit_sequence b (emit_sequence a s) := by
  unfold emit_sequence
  rw [List.foldl_append]

/-- The `while (r > 15)` loop of `kloop` emits the entry `0xf0` `r / 16` times and
leaves `r mod 16`; `r / 16` turns of fuel are enough. -/
theorem kloop_zrl_eq (code_0xf0 : Int) (size_0xf0 : Nat) :
    ∀ (fuel r : Nat) (s : emit_state), r / 16 ≤ fuel →
      kloop_zrl code_0xf0 size_0xf0 fuel r s
        = (r % 16, emit_sequence (List.replicate (r / 16) (code_0xf0, size_0xf0)) s) := by
  intro fuel
  induction fuel with
  | zero =>
    intro r s h
    have hr : r < 16 := by omega
    have h0 : r / 16 = 0 := by omega
    rw [h0, Nat.mod_eq_of_lt hr]
    rfl
  | succ fuel ih =>
    intro r s h
    unfold kloop_zrl
    by_cases hr : r > 15
    · rw [if_pos hr, ih (r - 16) _ (by omega)]
      have h1 : (r - 16) % 16 = r % 16 := by omega
      have h2 : r / 16 = (r - 16) / 16 + 1 := by omega
      rw [h1, h2, List.replicate_succ]
      rfl
    · rw [if_neg hr]
      have h0 : r / 16 = 0 := by omega
      rw [h0, Nat.mod_eq_of_lt (by omega)]
      rfl

/-- One `kloop(k)` emits what `kloop_trace` lists for it. -/
theorem kloop_eq_trace (dcd acd : derived_huffman_table) (block : Nat → Int) (k : Nat)
    (rt : Nat × List emitted) (s : emit_state) :
    kloop acd block k (rt.1, emit_sequence (rt.2.map (emitted_bits dcd acd)) s)
      = ((kloop_trace block k rt).1,
          emit_sequence ((kloop_trace block k rt).2.map (emitted_bits dcd acd)) s) := by
  unfold kloop kloop_trace
  by_cases h : block k = 0
  · simp only [h, if_true]
  · simp only [h, if_false]
    rw [kloop_zrl_eq _ _ rt.1 rt.1 _ (Nat.div_le_self _ _)]
    simp only [List.map_append, List.map_replicate, List.map_cons, List.map_nil,
      emit_sequence_append, emitted_bits]
    rfl

/-- The `kloop(k)` calls of a list of positions emit what the fold of `kloop_trace`
lists for them. -/
theorem kloop_foldl_eq_trace (dcd acd : derived_huffman_table) (block : Nat → Int)
    (s : emit_state) : ∀ (order : List Nat) (rt : Nat × List emitted),
    order.foldl (fun rs k => kloop acd block k rs)
        (rt.1, emit_sequence (rt.2.map (emitted_bits dcd acd)) s)
      = ((order.foldl (fun rt k => kloop_trace block k rt) rt).1,
          emit_sequence
            ((order.foldl (fun rt k => kloop_trace block k rt) rt).2.map
              (emitted_bits dcd acd)) s) := by
  intro order
  induction order with
  | nil => intro rt; rfl
  | cons k order ih =>
    intro rt
    rw [List.foldl_cons, List.foldl_cons, kloop_eq_trace, ih]

/-- The 63 `kloop(k)` calls from `r = 0` emit `walk_trace`. -/
theorem kloop_walk_eq_trace (dcd acd : derived_huffman_table) (block : Nat → Int)
    (s : emit_state) :
    kloop_order.foldl (fun rs k => kloop acd block k rs) (0, s)
      = ((walk_trace block kloop_order).1,
          emit_sequence ((walk_trace block kloop_order).2.map (emitted_bits dcd acd)) s) :=
  kloop_foldl_eq_trace dcd acd block s kloop_order (0, [])

/-- The run-length part emits `ac_trace`. -/
theorem encode_block_ac_eq_trace (dcd acd : derived_huffman_table) (block : Nat → Int)
    (s : emit_state) :
    encode_block_ac acd block s
      = emit_sequence ((ac_trace block).map (emitted_bits dcd acd)) s := by
  unfold encode_block_ac ac_trace
  rw [kloop_walk_eq_trace dcd acd block s]
  by_cases h : (walk_trace block kloop_order).1 > 0
  · simp only [h, if_true, List.map_append, emit_sequence_append]
    rfl
  · simp only [h, if_false]

/-- The block encoder emits `block_trace`. -/
theorem encode_block_emit_eq_trace (dcd acd : derived_huffman_table) (block : Nat → Int)
    (diff : Int) (s : emit_state) :
    encode_block_emit dcd acd block diff s
      = emit_sequence ((block_trace block diff).map (emitted_bits dcd acd)) s := by
  rw [encode_block_emit_eq, encode_block_ac_eq_trace dcd acd]
  unfold block_trace
  rw [List.map_append, emit_sequence_append]

/-- The entry that `kloop` looks up is `((r mod 16) << 4) | n` when `n < 16`. -/
theorem symbol_add_eq_or (r n : Nat) (hn : n < 16) :
    ((r % 16) <<< 4) + n = ((r % 16) <<< 4) ||| n := by
  rw [Nat.shiftLeft_eq, Nat.mul_comm]
  exact Nat.mul_add_lt_is_or hn (r % 16)

/-- For the coefficients of absolute value below `2^15` the emissions of `kloop(k)`
are the items of the specification. -/
theorem kloop_trace_items (block : Nat → Int) (k : Nat) (rt : Nat × List emitted)
    (h0 : block k ≠ 0) (h1 : -32767 ≤ block k) (h2 : block k ≤ 32767) :
    kloop_trace block k rt = (0, rt.2 ++ coefficient_items rt.1 (block k)) := by
  unfold kloop_trace coefficient_items
  rw [if_neg h0, sign_nbits_size _ (by omega) (by omega),
    ac_magnitude_eq _ (by omega) (by omega)]
  have hn : Nat.size (block k).natAbs < 16 := by
    have : Nat.size (block k).natAbs ≤ 15 := by
      rw [Nat.size_le]
      omega
    omega
  rw [symbol_add_eq_or _ _ hn, List.append_assoc]

theorem walk_items_cons_zero (block : Nat → Int) (k : Nat) (order : List Nat) (r : Nat)
    (h0 : block k = 0) :
    walk_items block (k :: order) r = walk_items block order (r + 1) := by
  rw [walk_items, if_pos h0]

theorem walk_items_cons_coefficient (block : Nat → Int) (k : Nat) (order : List Nat) (r : Nat)
    (h0 : block k ≠ 0) :
    walk_items block (k :: order) r
      = coefficient_items r (block k) ++ walk_items block order 0 := by
  rw [walk_items, if_neg h0]

/-- For the coefficients of absolute value below `2^15` the emissions of a list of
`kloop(k)` calls are the items of the walk of the specification. -/
theorem kloop_trace_foldl_items (block : Nat → Int) : ∀ (order : List Nat)
    (rt : Nat × List emitted),
    (∀ k, k ∈ order → -32767 ≤ block k ∧ block k ≤ 32767) →
    (order.foldl (fun rt k => kloop_trace block k rt) rt).2
      = rt.2 ++ walk_items block order rt.1 := by
  intro order
  induction order with
  | nil =>
    intro rt _
    simp [walk_items]
  | cons k order ih =>
    intro rt h
    have hk := h k (List.mem_cons_self _ _)
    have hrest : ∀ j, j ∈ order → -32767 ≤ block j ∧ block j ≤ 32767 :=
      fun j hj => h j (List.mem_cons_of_mem _ hj)
    rw [List.foldl_cons, ih _ hrest]
    by_cases h0 : block k = 0
    · rw [walk_items_cons_zero block k order rt.1 h0]
      unfold kloop_trace
      rw [if_pos h0]
    · rw [walk_items_cons_coefficient block k order rt.1 h0,
        kloop_trace_items block k rt h0 hk.1 hk.2, List.append_assoc]

/-- A run of zero coefficients only adds to the run length. -/
theorem kloop_trace_foldl_zero (block : Nat → Int) : ∀ (order : List Nat)
    (rt : Nat × List emitted), (∀ k, k ∈ order → block k = 0) →
    order.foldl (fun rt k => kloop_trace block k rt) rt = (rt.1 + order.length, rt.2) := by
  intro order
  induction order with
  | nil => intro rt _; rfl
  | cons k order ih =>
    intro rt h
    have hk := h k (List.mem_cons_self _ _)
    rw [List.foldl_cons, ih _ (fun j hj => h j (List.mem_cons_of_mem _ hj))]
    unfold kloop_trace
    rw [if_pos hk, List.length_cons]
    simp only
    rw [Nat.add_assoc, Nat.add_comm 1]

/-- The value of `nbits` for a non-zero `short` is at least 1. -/
theorem sign_nbits_pos (v : Int) (h : short_ok v) (h0 : v ≠ 0) : 1 ≤ sign_nbits v := by
  unfold short_ok at h
  rw [sign_nbits_size v (by omega) (by omega)]
  have : 0 < Nat.size v.natAbs := by
    rw [Nat.size_pos]
    omega
  exact this

/-- No `kloop(k)` looks up the entry 0 of the AC table. -/
theorem kloop_trace_no_eob (block : Nat → Int) (k : Nat) (rt : Nat × List emitted)
    (hk : short_ok (block k))
    (h : ∀ e, e ∈ rt.2 → e ≠ emitted.ac_symbol 0) :
    ∀ e, e ∈ (kloop_trace block k rt).2 → e ≠ emitted.ac_symbol 0 := by
  unfold kloop_trace
  by_cases h0 : block k = 0
  · rw [if_pos h0]
    exact h
  · rw [if_neg h0]
    intro e he
    simp only [List.mem_append, List.mem_cons, List.mem_singleton, List.not_mem_nil,
      or_false] at he
    rcases he with (he | he) | he | he
    · exact h e he
    · rw [List.eq_of_mem_replicate he]
      intro hc
      injection hc with hc
      omega
    · rw [he]
      intro hc
      injection hc with hc
      have := sign_nbits_pos (block k) hk h0
      omega
    · rw [he]
      intro hc
      injection hc

theorem kloop_trace_foldl_no_eob (block : Nat → Int) : ∀ (order : List Nat)
    (rt : Nat × List emitted), (∀ k, k ∈ order → short_ok (block k)) →
    (∀ e, e ∈ rt.2 → e ≠ emitted.ac_symbol 0) →
    ∀ e, e ∈ (order.foldl (fun rt k => kloop_trace block k rt) rt).2 →
      e ≠ emitted.ac_symbol 0 := by
  intro order
  induction order with
  | nil => intro rt _ h; exact h
  | cons k order ih =>
    intro rt hs h
    rw [List.foldl_cons]
    exact ih _ (fun j hj => hs j (List.mem_cons_of_mem _ hj))
      (kloop_trace_no_eob block k rt (hs k (List.mem_cons_self _ _)) h)

/-- The run length after the last `kloop` is positive iff the coefficient at 63 is 0. -/
theorem walk_trace_run (block : Nat → Int) :
    (walk_trace block kloop_order).1 > 0 ↔ block 63 = 0 := by
  have hsplit : kloop_order = kloop_order.dropLast ++ [63] := by decide
  unfold walk_trace
  rw [hsplit, List.foldl_append, List.foldl_cons, List.foldl_nil]
  unfold kloop_trace
  by_cases h0 : block 63 = 0
  · rw [if_pos h0]
    simp [h0]
  · rw [if_neg h0]
    simp [h0]

/-- The coefficients after the last non-zero one add nothing to the emissions of the
walk. -/
theorem walk_trace_trailing (block : Nat → Int) (pre post : List Nat)
    (h : ∀ k, k ∈ post → block k = 0) :
    (walk_trace block (pre ++ post)).2 = (walk_trace block pre).2 := by
  unfold walk_trace
  rw [List.foldl_append, kloop_trace_foldl_zero block post _ h]

/-- The value of `nbits` and the masked `temp2` for the coefficient -32768. -/
theorem kloop_trace_min_short (block : Nat → Int) (k : Nat) (rt : Nat × List emitted)
    (hv : block k = -32768) :
    kloop_trace block k rt
      = (0, rt.2 ++ List.replicate (rt.1 / 16) (emitted.ac_symbol 0xf0)
          ++ [emitted.ac_symbol (((rt.1 % 16) <<< 4) + 16), emitted.magnitude 32767 16]) := by
  have hsize : Nat.size (-32768 : Int).natAbs = 16 := by
    have h : (-32768 : Int).natAbs = 2 ^ 15 := by decide
    rw [h, Nat.size_pow]
  unfold kloop_trace
  rw [hv, if_neg (by decide), sign_nbits_size _ (by decide) (by decide),
    ac_magnitude_eq _ (by decide) (by decide), hsize]
  rfl

/-! ### Words of bits -/

/-- The word of `m + q` bits of `b` is the word of `m` bits of `b >> q` followed by
the word of the low `q` bits. -/
theorem code_word_split (b m q : Nat) :
    code_word b (m + q) = code_word (b >>> q) m ++ code_word b q := by
  unfold code_word
  rw [List.range_add, List.map_append, List.map_map]
  congr 1
  · apply List.map_congr_left
    intro k hk
    rw [List.mem_range] at hk
    rw [Nat.testBit_shiftRight]
    congr 1
    omega
  · apply List.map_congr_left
    intro k hk
    rw [List.mem_range] at hk
    show b.testBit (m + q - 1 - (m + k)) = b.testBit (q - 1 - k)
    congr 1
    omega

/-- The word of `p` bits depends on the low `p` bits only. -/
theorem code_word_congr (a b p : Nat) (h : ∀ i, i < p → a.testBit i = b.testBit i) :
    code_word a p = code_word b p := by
  unfold code_word
  apply List.map_congr_left
  intro k hk
  rw [List.mem_range] at hk
  exact h _ (by omega)

theorem code_word_mod (b p q : Nat) (h : p ≤ q) : code_word (b % 2 ^ q) p = code_word b p := by
  apply code_word_congr
  intro i hi
  rw [Nat.testBit_mod_two_pow]
  have : i < q := by omega
  simp [this]

theorem code_word_zero (b : Nat) : code_word b 0 = [] := rfl

theorem bits_value_append_bit (w : List Bool) (x : Bool) :
    bits_value (w ++ [x]) = 2 * bits_value w + (if x then 1 else 0) := by
  unfold bits_value
  rw [List.foldl_append]
  rfl

/-- The word of `n` bits of `c` stands for `c mod 2^n`. -/
theorem bits_value_code_word : ∀ (n c : Nat), bits_value (code_word c n) = c % 2 ^ n := by
  intro n
  induction n with
  | zero =>
    intro c
    rw [code_word_zero, Nat.pow_zero, Nat.mod_one]
    rfl
  | succ n ih =>
    intro c
    rw [code_word_split c n 1]
    have h1 : code_word c 1 = [c.testBit 0] := rfl
    rw [h1, bits_value_append_bit, ih, Nat.shiftRight_eq_div_pow, Nat.pow_one,
      Nat.pow_succ, Nat.mul_comm (2 ^ n) 2, Nat.mod_mul]
    have h2 : (if c.testBit 0 = true then 1 else 0) = c % 2 := by
      rw [Nat.testBit_zero]
      rcases Nat.mod_two_eq_zero_or_one c with h | h <;> simp [h]
    rw [h2]
    omega

theorem bits_of_bytes_append (a b : List Nat) :
    bits_of_bytes (a ++ b) = bits_of_bytes a ++ bits_of_bytes b := by
  unfold bits_of_bytes
  rw [List.flatMap_append]

theorem bits_of_bytes_length (a : List Nat) : (bits_of_bytes a).length = 8 * a.length := by
  induction a with
  | nil => rfl
  | cons c a ih =>
    show (code_word c 8 ++ bits_of_bytes a).length = _
    rw [List.length_append, code_word_length, ih, List.length_cons]
    omega

/-- A word of 8 bits in front of a bit string is its first byte. -/
theorem bytes_of_bits_cons (w rest : List Bool) (hw : w.length = 8) :
    bytes_of_bits (w ++ rest) = bits_value w :: bytes_of_bits rest := by
  unfold bytes_of_bits
  have hlen : (w ++ rest).length / 8 = rest.length / 8 + 1 := by
    rw [List.length_append, hw]
    omega
  rw [hlen, List.range_succ_eq_map, List.map_cons, List.map_map]
  congr 1
  · rw [Nat.mul_zero, List.drop_zero, List.take_append_of_le_length (by omega)]
    rw [List.take_of_length_le (by omega)]
  · apply List.map_congr_left
    intro k _
    show bits_value (List.take 8 (List.drop (8 * (k + 1)) (w ++ rest))) = _
    have : 8 * (k + 1) = w.length + 8 * k := by omega
    rw [this, List.drop_append]

theorem bytes_of_bits_short (w : List Bool) (hw : w.length < 8) : bytes_of_bits w = [] := by
  unfold bytes_of_bits
  rw [Nat.div_eq_of_lt hw]
  rfl

/-- The bytes of a bit string that begins with the bits of whole bytes. -/
theorem bytes_of_bits_bytes (data : List Nat) (rest : List Bool)
    (h : ∀ c, c ∈ data → c < 0x100) :
    bytes_of_bits (bits_of_bytes data ++ rest) = data ++ bytes_of_bits rest := by
  induction data with
  | nil => rfl
  | cons c data ih =>
    show bytes_of_bits ((code_word c 8 ++ bits_of_bytes data) ++ rest) = _
    rw [List.append_assoc, bytes_of_bits_cons _ _ (code_word_length c 8),
      ih (fun d hd => h d (List.mem_cons_of_mem _ hd)), bits_value_code_word]
    have := h c (List.mem_cons_self _ _)
    rw [Nat.mod_eq_of_lt (by omega)]
    rfl

theorem bytes_of_bits_length (w : List Bool) : (bytes_of_bits w).length = w.length / 8 := by
  unfold bytes_of_bits
  rw [List.length_map, List.length_range]

/-- Bits after the last whole byte are dropped. -/
theorem bytes_of_bits_drop_tail (w tail : List Bool) (hw : w.length % 8 = 0)
    (ht : tail.length < 8) : bytes_of_bits (w ++ tail) = bytes_of_bits w := by
  unfold bytes_of_bits
  have hlen : (w ++ tail).length / 8 = w.length / 8 := by
    rw [List.length_append]
    omega
  rw [hlen]
  apply List.map_congr_left
  intro k hk
  rw [List.mem_range] at hk
  congr 1
  have h1 : 8 * k + 8 ≤ w.length := by omega
  rw [List.drop_append_of_le_length (by omega), List.take_append_of_le_length]
  rw [List.length_drop]
  omega

theorem bytes_of_bits_lt (w : List Bool) : ∀ c, c ∈ bytes_of_bits w → c < 0x100 := by
  intro c hc
  unfold bytes_of_bits at hc
  rw [List.mem_map] at hc
  obtain ⟨k, _, rfl⟩ := hc
  have hb : ∀ (v : List Bool), bits_value v < 2 ^ v.length := by
    intro v
    induction v using List.reverseRecOn with
    | nil => decide
    | append_singleton v x ih =>
      rw [bits_value_append_bit, List.length_append, List.length_singleton, Nat.pow_succ]
      split <;> omega
  have h1 := hb (List.take 8 (List.drop (8 * k) w))
  have h2 : (List.take 8 (List.drop (8 * k) w)).length ≤ 8 := by
    rw [List.length_take]
    omega
  have h3 : 2 ^ (List.take 8 (List.drop (8 * k) w)).length ≤ 2 ^ 8 :=
    Nat.pow_le_pow_right (by decide) h2
  omega

theorem stuff_bytes_append (a b : List Nat) :
    stuff_bytes (a ++ b) = stuff_bytes a ++ stuff_bytes b := by
  induction a with
  | nil => rfl
  | cons c a ih =>
    have e1 : ∀ l, stuff_bytes (c :: l)
        = if c = 0xFF then c :: 0 :: stuff_bytes l else c :: stuff_bytes l := fun l => rfl
    show stuff_bytes (c :: (a ++ b)) = stuff_bytes (c :: a) ++ stuff_bytes b
    rw [e1, e1, ih]
    split <;> rfl

theorem flush_bytes_append (a b : List Nat) :
    flush_bytes (a ++ b) = flush_bytes a ++ flush_bytes b := by
  unfold flush_bytes
  rw [List.flatMap_append]

/-- The word of the length of a bit string that stands for its value is the string. -/
theorem code_word_bits_value (v : List Bool) : code_word (bits_value v) v.length = v := by
  induction v using List.reverseRecOn with
  | nil => rfl
  | append_singleton v x ih =>
    rw [bits_value_append_bit, List.length_append, List.length_singleton, code_word_split]
    congr 1
    · have hh : (2 * bits_value v + if x = true then 1 else 0) >>> 1 = bits_value v := by
        rw [Nat.shiftRight_eq_div_pow, Nat.pow_one]
        split <;> omega
      rw [hh, ih]
    · show [(2 * bits_value v + if x = true then 1 else 0).testBit 0] = [x]
      rw [Nat.testBit_zero]
      cases x
      · simp
      · simp
        omega

/-- The bits of the bytes of a bit string of whole bytes are the string. -/
theorem bits_of_bytes_of_bits : ∀ (n : Nat) (w : List Bool), w.length = 8 * n →
    bits_of_bytes (bytes_of_bits w) = w := by
  intro n
  induction n with
  | zero =>
    intro w hw
    have : w = [] := List.eq_nil_of_length_eq_zero (by omega)
    subst this
    rfl
  | succ n ih =>
    intro w hw
    have hsplit : w = w.take 8 ++ w.drop 8 := (List.take_append_drop 8 w).symm
    have h8 : (w.take 8).length = 8 := by
      rw [List.length_take]
      omega
    have hrest : (w.drop 8).length = 8 * n := by
      rw [List.length_drop]
      omega
    rw [hsplit, bytes_of_bits_cons _ _ h8]
    show code_word (bits_value (w.take 8)) 8 ++ bits_of_bytes (bytes_of_bits (w.drop 8)) = _
    rw [ih _ hrest]
    congr 1
    have := code_word_bits_value (w.take 8)
    rw [h8] at this
    exact this

/-! ### The bit writer against the bits written -/

theorem to_size_t_natCast (n : Nat) : to_size_t (n : Int) = n % 2 ^ 64 := by
  unfold to_size_t
  omega

theorem to_size_t_nonneg (x : Int) (h : 0 ≤ x) : to_size_t x = x.toNat % 2 ^ 64 := by
  obtain ⟨n, rfl⟩ := Int.eq_ofNat_of_zero_le h
  rw [to_size_t_natCast]
  rfl

theorem testBit_of_lt_two_pow (c size i : Nat) (h : c < 2 ^ size) (hi : size ≤ i) :
    c.testBit i = false := by
  apply Nat.testBit_lt_two_pow
  exact Nat.lt_of_lt_of_le h (Nat.pow_le_pow_right (by decide) hi)

/-- After `put_buffer = (put_buffer << size) | code` the low `bits + size` bits are the
low `bits` bits from before followed by the `size` bits of `code`. -/
theorem put_buffer_word (b c p size : Nat) (hc : c < 2 ^ size) (hp : p + size ≤ 64) :
    code_word ((b <<< size) % 2 ^ 64 ||| c % 2 ^ 64) (p + size)
      = code_word b p ++ code_word c size := by
  rw [code_word_split]
  congr 1
  · apply code_word_congr
    intro i hi
    rw [Nat.testBit_shiftRight, Nat.testBit_or, Nat.testBit_mod_two_pow,
      Nat.testBit_mod_two_pow, Nat.testBit_shiftLeft,
      testBit_of_lt_two_pow c size (size + i) hc (by omega)]
    have h1 : size + i < 64 := by omega
    have h2 : size + i ≥ size := by omega
    have h3 : size + i - size = i := by omega
    simp [h1, h2, h3]
  · apply code_word_congr
    intro i hi
    rw [Nat.testBit_or, Nat.testBit_mod_two_pow, Nat.testBit_mod_two_pow,
      Nat.testBit_shiftLeft]
    have h1 : i < 64 := by omega
    have h2 : ¬ i ≥ size := by omega
    simp [h1, h2]

/-- `PUT_BITS(code, size)` with a code that fits its size puts the word of the code
behind the pending bits. -/
theorem PUT_BITS_word (code : Int) (size : Nat) (s : emit_state) (h0 : 0 ≤ code)
    (h1 : code < 2 ^ size) (hp : s.put_bits + size ≤ 64) :
    code_word (PUT_BITS code size s).put_buffer (PUT_BITS code size s).put_bits
      = code_word s.put_buffer s.put_bits ++ code_word code.toNat size := by
  unfold PUT_BITS
  simp only
  rw [to_size_t_natCast, to_size_t_nonneg code h0]
  apply put_buffer_word _ _ _ _ _ hp
  obtain ⟨n, rfl⟩ := Int.eq_ofNat_of_zero_le h0
  have : n < 2 ^ size := by exact_mod_cast h1
  exact this

theorem code_word_mod_256 (b : Nat) : code_word (b % 256) 8 = code_word b 8 :=
  code_word_mod b 8 8 (Nat.le_refl 8)

/-- `EMIT_BYTE()` with at least 8 pending bits writes the first 8 of them as one byte,
stuffed, and keeps the others. -/
theorem EMIT_BYTE_word (s : emit_state) (h : 8 ≤ s.put_bits) :
    ∃ c, c < 0x100
      ∧ (EMIT_BYTE s).outputbuf = s.outputbuf ++ stuff_bytes [c]
      ∧ code_word s.put_buffer s.put_bits
          = code_word c 8 ++ code_word (EMIT_BYTE s).put_buffer (EMIT_BYTE s).put_bits
      ∧ (EMIT_BYTE s).put_bits = s.put_bits - 8 := by
  refine ⟨(s.put_buffer >>> (s.put_bits - 8)) % 256, Nat.mod_lt _ (by decide), ?_, ?_, rfl⟩
  · unfold EMIT_BYTE
    simp only
    have hc : to_uchar ((s.put_buffer >>> (s.put_bits - 8) : Nat) : Int)
        = (s.put_buffer >>> (s.put_bits - 8)) % 256 := by
      unfold to_uchar
      omega
    rw [hc]
    by_cases hf : (s.put_buffer >>> (s.put_bits - 8)) % 256 = 0xFF
    · simp [hf, stuff_bytes]
    · simp [hf, stuff_bytes]
  · have hsplit : s.put_bits = 8 + (s.put_bits - 8) := by omega
    have e1 : (EMIT_BYTE s).put_buffer = s.put_buffer := rfl
    have e2 : (EMIT_BYTE s).put_bits = s.put_bits - 8 := rfl
    rw [e1, e2, code_word_mod_256]
    nth_rewrite 1 [hsplit]
    exact code_word_split _ _ _

/-- One `EMIT_BITS(code, size)` keeps the writer invariant and adds the word of the
code to the bits written. -/
theorem EMIT_BITS_inv (out0 : List Nat) (bits : List Bool) (data : List Nat) (s : emit_state)
    (code : Int) (size : Nat) (h : writer_inv out0 bits data s) (h0 : 0 ≤ code)
    (h1 : code < 2 ^ size) (h2 : size ≤ 16) :
    ∃ data1, writer_inv out0 (bits ++ code_word code.toNat size) (data ++ data1)
        (EMIT_BITS code size s)
      ∧ 8 * data1.length + (EMIT_BITS code size s).put_bits = s.put_bits + size := by
  obtain ⟨hp, hout, hlt, hbits⟩ := h
  have hw := PUT_BITS_word code size s h0 h1 (by omega)
  have hpb : (PUT_BITS code size s).put_bits = s.put_bits + size := rfl
  have hpo : (PUT_BITS code size s).outputbuf = s.outputbuf := rfl
  unfold EMIT_BITS CHECKBUF15
  by_cases hbig : (PUT_BITS code size s).put_bits > 0xF
  · rw [if_pos hbig]
    obtain ⟨c1, hc1, ho1, hw1, hb1⟩ := EMIT_BYTE_word (PUT_BITS code size s) (by omega)
    obtain ⟨c2, hc2, ho2, hw2, hb2⟩ := EMIT_BYTE_word (EMIT_BYTE (PUT_BITS code size s))
      (by omega)
    refine ⟨[c1, c2], ⟨by omega, ?_, ?_, ?_⟩, ?_⟩
    · rw [ho2, ho1, hpo, hout, stuff_bytes_append, List.append_assoc, List.append_assoc]
      congr 2
      rw [← stuff_bytes_append]
      rfl
    · intro c hc
      rw [List.mem_append] at hc
      rcases hc with hc | hc
      · exact hlt c hc
      · simp only [List.mem_cons, List.mem_singleton, List.not_mem_nil, or_false] at hc
        rcases hc with rfl | rfl
        · exact hc1
        · exact hc2
    · rw [hbits, List.append_assoc, ← hw, hw1, hw2, bits_of_bytes_append]
      simp only [bits_of_bytes, List.flatMap_cons, List.flatMap_nil, List.append_nil,
        List.append_assoc]
    · simp only [List.length_cons, List.length_nil]
      omega
  · rw [if_neg hbig]
    refine ⟨[], ⟨by omega, ?_, ?_, ?_⟩, ?_⟩
    · rw [hpo, List.append_nil]
      exact hout
    · rw [List.append_nil]
      exact hlt
    · rw [hbits, List.append_assoc, ← hw, List.append_nil]
    · simp only [List.length_nil]
      omega

/-- A run of `EMIT_BITS` with codes that fit keeps the writer invariant and adds the
bits of the emissions. -/
theorem emit_sequence_inv (out0 : List Nat) : ∀ (emissions : List (Int × Nat))
    (bits : List Bool) (data : List Nat) (s : emit_state),
    writer_inv out0 bits data s → emissions_fit emissions →
    ∃ data1, writer_inv out0 (bits ++ emission_bits emissions) (data ++ data1)
        (emit_sequence emissions s)
      ∧ 8 * data1.length + (emit_sequence emissions s).put_bits
          = s.put_bits + (emission_bits emissions).length := by
  intro emissions
  induction emissions with
  | nil =>
    intro bits data s h _
    refine ⟨[], ?_, ?_⟩
    · simp only [emission_bits, List.flatMap_nil, List.append_nil]
      exact h
    · show 8 * 0 + s.put_bits = s.put_bits + 0
      omega
  | cons e emissions ih =>
    intro bits data s h hfit
    have he := hfit e (List.mem_cons_self _ _)
    obtain ⟨d1, hinv1, hlen1⟩ := EMIT_BITS_inv out0 bits data s e.1 e.2 h he.1 he.2.1 he.2.2
    obtain ⟨d2, hinv2, hlen2⟩ := ih _ _ _ hinv1
      (fun x hx => hfit x (List.mem_cons_of_mem _ hx))
    refine ⟨d1 ++ d2, ?_, ?_⟩
    · have e1 : emission_bits (e :: emissions)
          = code_word e.1.toNat e.2 ++ emission_bits emissions := rfl
      rw [e1, ← List.append_assoc, ← List.append_assoc]
      exact hinv2
    · have e1 : emission_bits (e :: emissions)
          = code_word e.1.toNat e.2 ++ emission_bits emissions := rfl
      have e2 : emit_sequence (e :: emissions) s
          = emit_sequence emissions (EMIT_BITS e.1 e.2 s) := rfl
      rw [e1, e2, List.length_append, List.length_append, code_word_length]
      omega

/-! ### The flush of `encode_image` -/

/-- The loop of the flush writes the whole bytes of the low `bits` bits of the buffer,
each `0xFF` followed by the byte that the flush puts behind it; `bits / 8` turns of
fuel are enough. -/
theorem encode_image_flush_loop_eq (buffer : Nat) : ∀ (fuel bits : Nat) (out : List Nat),
    bits / 8 ≤ fuel →
    encode_image_flush_loop buffer fuel bits out
      = out ++ flush_bytes (bytes_of_bits (code_word buffer bits)) := by
  intro fuel
  induction fuel with
  | zero =>
    intro bits out h
    rw [bytes_of_bits_short _ (by rw [code_word_length]; omega)]
    unfold encode_image_flush_loop flush_bytes
    simp
  | succ fuel ih =>
    intro bits out h
    unfold encode_image_flush_loop
    by_cases hb : bits > 0x7
    · rw [if_pos hb]
      simp only
      rw [ih _ _ (by omega)]
      have hsplit : bits = 8 + (bits - 8) := by omega
      have hw : code_word buffer bits
          = code_word (buffer >>> (bits - 8)) 8 ++ code_word buffer (bits - 8) := by
        nth_rewrite 1 [hsplit]
        exact code_word_split _ _ _
      have hc : to_uchar ((buffer >>> (bits - 0x8) : Nat) : Int)
          = (buffer >>> (bits - 8)) % 2 ^ 8 := by
        unfold to_uchar
        omega
      rw [hw, bytes_of_bits_cons _ _ (code_word_length _ _), bits_value_code_word, hc]
      have hf : ∀ (c : Nat) (rest : List Nat),
          flush_bytes (c :: rest) = (if c = 0xFF then [c, c] else [c]) ++ flush_bytes rest :=
        fun _ _ => rfl
      rw [hf]
      by_cases hff : (buffer >>> (bits - 8)) % 2 ^ 8 = 0xFF
      · simp only [hff, if_true, List.append_assoc, List.cons_append, List.nil_append]
      · simp only [hff, if_false, List.append_assoc, List.cons_append, List.nil_append]
    · rw [if_neg hb, bytes_of_bits_short _ (by rw [code_word_length]; omega)]
      unfold flush_bytes
      simp

theorem pad_bits_lt (k : Nat) : pad_bits k < 8 ∧ (k + pad_bits k) % 8 = 0
    ∧ (k + pad_bits k) / 8 = (k + 7) / 8 := by
  unfold pad_bits
  omega

/-- The flush of `encode_image` with at most 15 pending bits writes the bytes of the
pending bits followed by 1-bits up to the byte boundary. -/
theorem encode_image_flush_eq (output_buffer : List Nat) (state : entropy_state)
    (hk : state.bits ≤ 15) :
    encode_image_flush output_buffer state
      = output_buffer ++ flush_bytes (bytes_of_bits
          (code_word state.buffer state.bits ++ List.replicate (pad_bits state.bits) true)) := by
  unfold encode_image_flush
  simp only
  rw [encode_image_flush_loop_eq _ _ _ _ (Nat.div_le_self _ _), to_size_t_natCast]
  have h7f : (0x7F : Nat) = 0x7F % 2 ^ 64 := by decide
  have hones : code_word 0x7F 7 = List.replicate 7 true := by decide
  obtain ⟨hp1, hp2, _⟩ := pad_bits_lt state.bits
  have hrep : List.replicate 7 true
      = List.replicate (pad_bits state.bits) true
        ++ List.replicate (7 - pad_bits state.bits) true := by
    rw [← List.replicate_add]
    congr 1
    omega
  rw [h7f, put_buffer_word _ _ _ _ (by decide) (by omega), hones, hrep, ← List.append_assoc,
    bytes_of_bits_drop_tail]
  · rw [List.length_append, code_word_length, List.length_replicate]
    exact hp2
  · rw [List.length_replicate]
    omega

/-- The bit writer from an empty bit buffer and the flush write the bytes of the bits
of the emissions followed by 1-bits up to the byte boundary: the bytes `data1` by
`EMIT_BITS`, stuffed, and the bytes `data2` by the flush. -/
theorem chunked_writer_bytes (emissions : List (Int × Nat)) (buffer : Nat)
    (hfit : emissions_fit emissions) :
    ∃ data1 data2,
      (emit_sequence emissions { put_buffer := buffer, put_bits := 0, outputbuf := [] }).outputbuf
        = stuff_bytes data1
      ∧ chunked_writer emissions buffer = stuff_bytes data1 ++ flush_bytes data2
      ∧ data1 ++ data2 = bytes_of_bits (emission_bits emissions
          ++ List.replicate (pad_bits (emission_bits emissions).length) true)
      ∧ bits_of_bytes (data1 ++ data2) = emission_bits emissions
          ++ List.replicate (pad_bits (emission_bits emissions).length) true
      ∧ (data1 ++ data2).length = ((emission_bits emissions).length + 7) / 8 := by
  have h0 : writer_inv [] [] [] { put_buffer := buffer, put_bits := 0, outputbuf := [] } :=
    ⟨Nat.zero_le _, rfl, by simp, rfl⟩
  obtain ⟨data1, ⟨hp, hout, hlt, hbits⟩, hlen⟩ := emit_sequence_inv [] emissions [] [] _ h0 hfit
  simp only [List.nil_append] at hout hbits hlt
  simp only [Nat.zero_add] at hlen
  generalize hs : emit_sequence emissions { put_buffer := buffer, put_bits := 0, outputbuf := [] }
    = s at hp hout hbits hlen
  have hpad : pad_bits (emission_bits emissions).length = pad_bits s.put_bits := by
    rw [← hlen]
    unfold pad_bits
    omega
  obtain ⟨hp1, hp2, hp3⟩ := pad_bits_lt s.put_bits
  have hd : data1 ++ bytes_of_bits (code_word s.put_buffer s.put_bits
        ++ List.replicate (pad_bits s.put_bits) true)
      = bytes_of_bits (emission_bits emissions
          ++ List.replicate (pad_bits (emission_bits emissions).length) true) := by
    rw [hpad, hbits, List.append_assoc, bytes_of_bits_bytes _ _ hlt]
  refine ⟨data1, bytes_of_bits (code_word s.put_buffer s.put_bits
      ++ List.replicate (pad_bits s.put_bits) true), hout, ?_, hd, ?_, ?_⟩
  · unfold chunked_writer
    simp only
    rw [hs, encode_image_flush_eq _ _ hp, hout]
  · rw [hd]
    apply bits_of_bytes_of_bits ((emission_bits emissions).length / 8 + (if (emission_bits emissions).length % 8 = 0 then 0 else 1))
    rw [List.length_append, List.length_replicate]
    unfold pad_bits
    split <;> omega
  · rw [hd, bytes_of_bits_length, List.length_append, List.length_replicate]
    unfold pad_bits
    omega

/-! ### The emissions of a scan -/

theorem emissions_fit_append (a b : List (Int × Nat)) :
    emissions_fit (a ++ b) ↔ emissions_fit a ∧ emissions_fit b := by
  unfold emissions_fit
  constructor
  · intro h
    exact ⟨fun e he => h e (List.mem_append_left _ he),
      fun e he => h e (List.mem_append_right _ he)⟩
  · intro h e he
    rw [List.mem_append] at he
    rcases he with he | he
    · exact h.1 e he
    · exact h.2 e he

theorem emissions_fit_singleton (e : Int × Nat) (h : 0 ≤ e.1 ∧ e.1 < 2 ^ e.2 ∧ e.2 ≤ 16) :
    emissions_fit [e] := by
  intro x hx
  rw [List.mem_singleton] at hx
  rw [hx]
  exact h

theorem emissions_fit_replicate (n : Nat) (e : Int × Nat)
    (h : 0 ≤ e.1 ∧ e.1 < 2 ^ e.2 ∧ e.2 ≤ 16) : emissions_fit (List.replicate n e) := by
  intro x hx
  rw [List.eq_of_mem_replicate hx]
  exact h

/-- The magnitude bits of a value of at most 16 bits fit the bit length of the value. -/
theorem magnitude_value_range (x : Int) (h1 : -65535 ≤ x) (h2 : x ≤ 65535) :
    0 ≤ magnitude_value x (Nat.size x.natAbs)
    ∧ magnitude_value x (Nat.size x.natAbs) < 2 ^ Nat.size x.natAbs
    ∧ Nat.size x.natAbs ≤ 16 := by
  obtain ⟨hP1, hP2, hlt, hgt, _, _, hle⟩ := size_pow_bounds x h1 h2
  unfold magnitude_value
  by_cases hx : x > 0
  · rw [if_pos hx]
    exact ⟨by omega, hlt, hle⟩
  · rw [if_neg hx]
    exact ⟨by omega, by omega, hle⟩

/-- The code of an entry of a table that fits, as the `int` that is emitted. -/
theorem symbol_fit (t : derived_huffman_table)
    (h : ∀ s, t.code s < 2 ^ t.length s ∧ t.length s ≤ 0x10) (i : Nat) :
    0 ≤ to_int (t.code i) ∧ to_int (t.code i) < 2 ^ t.length i ∧ t.length i ≤ 16 := by
  obtain ⟨hc, hl⟩ := h i
  have hP : 2 ^ t.length i ≤ 2 ^ 16 := Nat.pow_le_pow_right (by decide) hl
  have e : to_int (t.code i) = (t.code i : Int) := by
    unfold to_int
    omega
  rw [e]
  refine ⟨by omega, ?_, hl⟩
  exact_mod_cast hc

theorem dc_trace_fit (dcd acd : derived_huffman_table)
    (hd : ∀ s, dcd.code s < 2 ^ dcd.length s ∧ dcd.length s ≤ 0x10) (diff : Int)
    (h1 : -65535 ≤ diff) (h2 : diff ≤ 65535) :
    emissions_fit ((dc_trace diff).map (emitted_bits dcd acd)) := by
  unfold dc_trace
  rw [sign_nbits_size diff h1 h2, dc_magnitude_eq diff h1 h2]
  intro e he
  simp only [List.map_cons, List.map_nil, emitted_bits, List.mem_cons, List.mem_singleton,
    List.not_mem_nil, or_false] at he
  rcases he with rfl | rfl
  · exact symbol_fit dcd hd _
  · exact magnitude_value_range diff h1 h2

theorem kloop_trace_fit (dcd acd : derived_huffman_table)
    (ha : ∀ s, acd.code s < 2 ^ acd.length s ∧ acd.length s ≤ 0x10) (block : Nat → Int)
    (k : Nat) (rt : Nat × List emitted) (hk : short_ok (block k))
    (h : emissions_fit (rt.2.map (emitted_bits dcd acd))) :
    emissions_fit ((kloop_trace block k rt).2.map (emitted_bits dcd acd)) := by
  unfold kloop_trace
  by_cases h0 : block k = 0
  · rw [if_pos h0]
    exact h
  · rw [if_neg h0]
    unfold short_ok at hk
    rw [sign_nbits_size _ (by omega) (by omega), ac_magnitude_eq _ (by omega) (by omega)]
    simp only [List.map_append, List.map_replicate, List.map_cons, List.map_nil, emitted_bits]
    rw [emissions_fit_append, emissions_fit_append]
    refine ⟨⟨h, emissions_fit_replicate _ _ (symbol_fit acd ha _)⟩, ?_⟩
    intro e he
    simp only [List.mem_cons, List.mem_singleton, List.not_mem_nil, or_false] at he
    rcases he with rfl | rfl
    · exact symbol_fit acd ha _
    · exact magnitude_value_range _ (by omega) (by omega)

theorem kloop_trace_foldl_fit (dcd acd : derived_huffman_table)
    (ha : ∀ s, acd.code s < 2 ^ acd.length s ∧ acd.length s ≤ 0x10) (block : Nat → Int) :
    ∀ (order : List Nat) (rt : Nat × List emitted), (∀ k, k ∈ order → short_ok (block k)) →
    emissions_fit (rt.2.map (emitted_bits dcd acd)) →
    emissions_fit
      ((order.foldl (fun rt k => kloop_trace block k rt) rt).2.map (emitted_bits dcd acd)) := by
  intro order
  induction order with
  | nil => intro rt _ h; exact h
  | cons k order ih =>
    intro rt hs h
    rw [List.foldl_cons]
    exact ih _ (fun j hj => hs j (List.mem_cons_of_mem _ hj))
      (kloop_trace_fit dcd acd ha block k rt (hs k (List.mem_cons_self _ _)) h)

/-- The emissions of a block of `short` coefficients with a DC difference of at most
16 bits and tables that fit: every code fits its size of at most 16 bits. -/
theorem block_trace_fit (dcd acd : derived_huffman_table)
    (hd : ∀ s, dcd.code s < 2 ^ dcd.length s ∧ dcd.length s ≤ 0x10)
    (ha : ∀ s, acd.code s < 2 ^ acd.length s ∧ acd.length s ≤ 0x10)
    (block : Nat → Int) (diff : Int) (h1 : -65535 ≤ diff) (h2 : diff ≤ 65535)
    (hs : ∀ k, k ∈ kloop_order → short_ok (block k)) :
    emissions_fit ((block_trace block diff).map (emitted_bits dcd acd)) := by
  unfold block_trace
  rw [List.map_append, emissions_fit_append]
  refine ⟨dc_trace_fit dcd acd hd diff h1 h2, ?_⟩
  have hw := kloop_trace_foldl_fit dcd acd ha block kloop_order (0, []) hs
    (by intro e he; simp at he)
  unfold ac_trace
  simp only
  split
  · rw [List.map_append, emissions_fit_append]
    exact ⟨hw, emissions_fit_singleton _ (symbol_fit acd ha _)⟩
  · exact hw

/-- A list of blocks is encoded by the bit writer run on the emissions of the blocks. -/
theorem encode_blocks_eq_emit (dc ac : Nat → derived_huffman_table) :
    ∀ (calls : List block_call) (out : List Nat) (st : entropy_state),
    encode_blocks dc ac calls out st
      = ((emit_sequence (calls_emissions dc ac calls)
            { put_buffer := st.buffer, put_bits := st.bits, outputbuf := out }).outputbuf,
          { buffer := (emit_sequence (calls_emissions dc ac calls)
              { put_buffer := st.buffer, put_bits := st.bits, outputbuf := out }).put_buffer,
            bits := (emit_sequence (calls_emissions dc ac calls)
              { put_buffer := st.buffer, put_bits := st.bits, outputbuf := out }).put_bits,
            last_dc_val := st.last_dc_val }) := by
  intro calls
  induction calls with
  | nil => intro out st; rfl
  | cons c calls ih =>
    intro out st
    rw [encode_blocks_cons, ih]
    have e1 : calls_emissions dc ac (c :: calls)
        = (block_trace c.block c.diff).map
            (emitted_bits (dc c.table_index) (ac c.table_index))
          ++ calls_emissions dc ac calls := rfl
    rw [e1, emit_sequence_append]
    unfold encode_block_from_diff
    simp only
    rw [encode_block_emit_eq_trace]

theorem calls_emissions_fit (dc ac : Nat → derived_huffman_table) (htab : tables_fit dc ac) :
    ∀ (calls : List block_call),
    (∀ c, c ∈ calls → (-65535 ≤ c.diff ∧ c.diff ≤ 65535)
      ∧ ∀ k, k ∈ kloop_order → short_ok (c.block k)) →
    emissions_fit (calls_emissions dc ac calls) := by
  intro calls
  induction calls with
  | nil => intro _ e he; simp [calls_emissions] at he
  | cons c calls ih =>
    intro h
    have e1 : calls_emissions dc ac (c :: calls)
        = (block_trace c.block c.diff).map
            (emitted_bits (dc c.table_index) (ac c.table_index))
          ++ calls_emissions dc ac calls := rfl
    rw [e1, emissions_fit_append]
    obtain ⟨⟨h1, h2⟩, hs⟩ := h c (List.mem_cons_self _ _)
    exact ⟨block_trace_fit _ _ (fun s => (htab c.table_index s).1)
      (fun s => (htab c.table_index s).2) _ _ h1 h2 hs,
      ih (fun x hx => h x (List.mem_cons_of_mem _ hx))⟩

theorem getD_short (mcus : List (Nat → Nat → Int)) (hs : mcus_short mcus) (m i k : Nat)
    (hi : i < 0x6) (hk : k < 0x40) :
    short_ok (mcus.getD m (fun _ _ => 0) i k) := by
  by_cases hm : m < mcus.length
  · rw [List.getD_eq_getElem _ _ hm]
    exact hs _ (List.getElem_mem _) i hi k hk
  · rw [List.getD_eq_default _ _ (by omega)]
    unfold short_ok
    omega

theorem kloop_order_lt : ∀ k, k ∈ kloop_order → k < 0x40 := by decide

/-- The blocks of a scan of `short` coefficients have DC differences of at most 16
bits. -/
theorem scan_calls_short (mcus : List (Nat → Nat → Int)) (hs : mcus_short mcus) :
    ∀ c, c ∈ scan_calls mcus → (-65535 ≤ c.diff ∧ c.diff ≤ 65535)
      ∧ ∀ k, k ∈ kloop_order → short_ok (c.block k) := by
  intro c hc
  unfold scan_calls at hc
  rw [List.mem_flatMap] at hc
  obtain ⟨m, _, hc⟩ := hc
  rw [List.mem_map] at hc
  obtain ⟨i, hi, rfl⟩ := hc
  rw [List.mem_range] at hi
  simp only
  refine ⟨?_, fun k hk => getD_short mcus hs m i k hi (kloop_order_lt k hk)⟩
  have h1 := getD_short mcus hs m i 0 hi (by decide)
  have h2 : short_ok (preceding_dc mcus m i) := by
    unfold preceding_dc
    split
    · exact getD_short mcus hs _ _ _ (by omega) (by decide)
    · split
      · unfold short_ok; omega
      · exact getD_short mcus hs _ _ _ (by split <;> omega) (by decide)
  unfold short_ok at h1 h2
  omega

theorem encode_image_flush_same (x y : List Nat × entropy_state) (h : same_emit x y) :
    encode_image_flush x.1 x.2 = encode_image_flush y.1 y.2 := by
  obtain ⟨h1, h2, h3⟩ := h
  unfold encode_image_flush
  rw [h1, h2, h3]

/-- The entropy loop of `encode_image` on MCUs of `short` coefficients is the bit
writer run on the emissions of the blocks of the scan. -/
theorem encode_image_entropy_eq_emit (dc ac : Nat → derived_huffman_table)
    (mcus : List (Nat → Nat → Int)) (output_buffer : List Nat) (buffer : Nat)
    (hs : mcus_short mcus) :
    same_emit (encode_image_entropy dc ac mcus output_buffer buffer)
      ((emit_sequence (calls_emissions dc ac (scan_calls mcus))
          { put_buffer := buffer, put_bits := 0, outputbuf := output_buffer }).outputbuf,
        { buffer := (emit_sequence (calls_emissions dc ac (scan_calls mcus))
            { put_buffer := buffer, put_bits := 0, outputbuf := output_buffer }).put_buffer,
          bits := (emit_sequence (calls_emissions dc ac (scan_calls mcus))
            { put_buffer := buffer, put_bits := 0, outputbuf := output_buffer }).put_bits,
          last_dc_val := fun _ => 0 }) := by
  have hz : short_ok (0 : Int) := by unfold short_ok; omega
  have h := encode_image_entropy_chain dc ac mcus
    (output_buffer, { buffer := buffer, bits := 0, last_dc_val := fun _ => 0 })
    (output_buffer, { buffer := buffer, bits := 0, last_dc_val := fun _ => 0 })
    (same_emit_refl _) (fun m hm i hi => hs m hm i hi 0 (by decide)) hz hz hz
  rw [calls_from_eq_scan_calls_from, scan_calls_from_zero, encode_blocks_eq_emit] at h
  exact h

/-- The entropy-coded segment of MCUs of `short` coefficients with tables that fit:
the bytes of the bits of all emissions followed by 1-bits up to the byte boundary, the
bytes `data1` written by the entropy loop, stuffed, and the bytes `data2` by the flush. -/
theorem encode_image_scan_bytes (dc ac : Nat → derived_huffman_table)
    (mcus : List (Nat → Nat → Int)) (buffer : Nat) (htab : tables_fit dc ac)
    (hs : mcus_short mcus) :
    ∃ data1 data2,
      (encode_image_entropy dc ac mcus [] buffer).1 = stuff_bytes data1
      ∧ encode_image_scan dc ac mcus buffer = stuff_bytes data1 ++ flush_bytes data2
      ∧ bits_of_bytes (data1 ++ data2)
          = emission_bits (calls_emissions dc ac (scan_calls mcus))
            ++ List.replicate
              (pad_bits (emission_bits (calls_emissions dc ac (scan_calls mcus))).length) true
      ∧ (data1 ++ data2).length
          = ((emission_bits (calls_emissions dc ac (scan_calls mcus))).length + 7) / 8 := by
  have hfit := calls_emissions_fit dc ac htab (scan_calls mcus) (scan_calls_short mcus hs)
  obtain ⟨data1, data2, h1, h2, _, h4, h5⟩ :=
    chunked_writer_bytes (calls_emissions dc ac (scan_calls mcus)) buffer hfit
  have hsame := encode_image_entropy_eq_emit dc ac mcus [] buffer hs
  refine ⟨data1, data2, ?_, ?_, h4, h5⟩
  · rw [hsame.1]
    exact h1
  · unfold encode_image_scan
    simp only
    rw [encode_image_flush_same _ _ hsame]
    exact h2

theorem tables_fit_zero : tables_fit (fun _ => zero_derived_tbl) (fun _ => zero_derived_tbl) := by
  intro i s
  exact ⟨⟨Nat.zero_lt_one, Nat.zero_le _⟩, ⟨Nat.zero_lt_one, Nat.zero_le _⟩⟩

theorem mcus_short_cb_255 : mcus_short [mcu_cb_255] := by
  intro mcu hm i _ k _
  rw [List.mem_singleton] at hm
  subst hm
  unfold mcu_cb_255 short_ok
  split <;> omega

/-! ### The value returned by `compute_reciprocal` -/

set_option maxRecDepth 1000000 in
theorem reciprocal_returns_one_all :
    ∀ v ∈ List.range' 1 255, reciprocal_returns_one v = true := by
  decide

theorem compute_reciprocal_values_ret (v : Nat) (hv1 : 1 ≤ v) (hv2 : v ≤ 255) :
    (compute_reciprocal_values (8 * v)).ret = 1 := by
  have h := reciprocal_returns_one_all v (by
    rw [List.mem_range']
    exact ⟨v - 1, by omega, by omega⟩)
  unfold reciprocal_returns_one at h
  exact of_decide_eq_true h

/-! ### The bit writer reads the low `put_bits` bits of the bit buffer only -/

theorem to_uchar_natCast (n : Nat) : to_uchar (n : Int) = n % 2 ^ 8 := by
  unfold to_uchar
  omega

theorem low_agree_refl_zero (b1 b2 : Nat) (out : List Nat) :
    low_agree { put_buffer := b1, put_bits := 0, outputbuf := out }
      { put_buffer := b2, put_bits := 0, outputbuf := out } :=
  ⟨rfl, rfl, fun i hi => absurd hi (Nat.not_lt_zero i)⟩

theorem PUT_BITS_low_agree (code : Int) (size : Nat) (s t : emit_state) (h : low_agree s t) :
    low_agree (PUT_BITS code size s) (PUT_BITS code size t) := by
  obtain ⟨hp, ho, hb⟩ := h
  refine ⟨?_, ho, ?_⟩
  · show s.put_bits + size = t.put_bits + size
    rw [hp]
  · intro i hi
    have hi1 : i < s.put_bits + size := hi
    show (to_size_t ((s.put_buffer <<< size : Nat) : Int) ||| to_size_t code).testBit i
      = (to_size_t ((t.put_buffer <<< size : Nat) : Int) ||| to_size_t code).testBit i
    rw [to_size_t_natCast, to_size_t_natCast, Nat.testBit_or, Nat.testBit_or,
      Nat.testBit_mod_two_pow, Nat.testBit_mod_two_pow, Nat.testBit_shiftLeft,
      Nat.testBit_shiftLeft]
    by_cases hs : i ≥ size
    · rw [hb (i - size) (by omega)]
    · simp [hs]

theorem shift_byte_agree (a b p : Nat) (hp : 8 ≤ p)
    (h : ∀ i, i < p → a.testBit i = b.testBit i) :
    (a >>> (p - 8)) % 2 ^ 8 = (b >>> (p - 8)) % 2 ^ 8 := by
  apply Nat.eq_of_testBit_eq
  intro i
  rw [Nat.testBit_mod_two_pow, Nat.testBit_mod_two_pow, Nat.testBit_shiftRight,
    Nat.testBit_shiftRight]
  by_cases hi : i < 8
  · rw [h (p - 8 + i) (by omega)]
  · simp [hi]

theorem EMIT_BYTE_low_agree (s t : emit_state) (h : low_agree s t) (h8 : 8 ≤ s.put_bits) :
    low_agree (EMIT_BYTE s) (EMIT_BYTE t) := by
  obtain ⟨hp, ho, hb⟩ := h
  have hc : to_uchar ((s.put_buffer >>> (s.put_bits - 8) : Nat) : Int)
      = to_uchar ((t.put_buffer >>> (t.put_bits - 8) : Nat) : Int) := by
    rw [to_uchar_natCast, to_uchar_natCast, ← hp]
    exact shift_byte_agree _ _ _ h8 hb
  refine ⟨?_, ?_, ?_⟩
  · show s.put_bits - 8 = t.put_bits - 8
    rw [hp]
  · unfold EMIT_BYTE
    simp only
    rw [hc, ho]
  · intro i hi
    have hi1 : i < s.put_bits - 8 := hi
    exact hb i (by omega)

theorem CHECKBUF15_low_agree (s t : emit_state) (h : low_agree s t) :
    low_agree (CHECKBUF15 s) (CHECKBUF15 t) := by
  unfold CHECKBUF15
  have hp := h.1
  by_cases hbig : s.put_bits > 0xF
  · rw [if_pos hbig, if_pos (by omega)]
    have h1 := EMIT_BYTE_low_agree s t h (by omega)
    have hb1 : (EMIT_BYTE s).put_bits = s.put_bits - 8 := rfl
    exact EMIT_BYTE_low_agree _ _ h1 (by omega)
  · rw [if_neg hbig, if_neg (by omega)]
    exact h

theorem EMIT_BITS_low_agree (code : Int) (size : Nat) (s t : emit_state) (h : low_agree s t) :
    low_agree (EMIT_BITS code size s) (EMIT_BITS code size t) :=
  CHECKBUF15_low_agree _ _ (PUT_BITS_low_agree code size s t h)

theorem emit_sequence_low_agree : ∀ (emissions : List (Int × Nat)) (s t : emit_state),
    low_agree s t → low_agree (emit_sequence emissions s) (emit_sequence emissions t) := by
  intro emissions
  induction emissions with
  | nil => intro s t h; exact h
  | cons e emissions ih =>
    intro s t h
    exact ih _ _ (EMIT_BITS_low_agree e.1 e.2 s t h)

/-- One call of `encode_entropy_single_block` on two states that agree on the pending
bits gives two states that agree on the pending bits. -/
theorem encode_entropy_single_block_agree (dc ac : Nat → derived_huffman_table)
    (block : Nat → Int) (ti : Nat) (last_dc_val : Int) (x y : List Nat × entropy_state)
    (h : scan_agree x y) :
    scan_agree (encode_entropy_single_block dc ac block ti last_dc_val x.1 x.2)
      (encode_entropy_single_block dc ac block ti last_dc_val y.1 y.2) := by
  obtain ⟨h1, h2, h3, h4⟩ := h
  unfold encode_entropy_single_block encode_block_from_diff
  simp only
  rw [encode_block_emit_eq_trace, encode_block_emit_eq_trace]
  have hl := emit_sequence_low_agree
    ((block_trace block (to_int (block 0 - last_dc_val))).map (emitted_bits (dc ti) (ac ti)))
    { put_buffer := x.2.buffer, put_bits := x.2.bits, outputbuf := x.1 }
    { put_buffer := y.2.buffer, put_bits := y.2.bits, outputbuf := y.1 }
    ⟨h2, h1, h4⟩
  exact ⟨hl.2.1, hl.1, h3, hl.2.2⟩

theorem encode_entropy_step_agree (dc ac : Nat → derived_huffman_table)
    (mcu : Nat → Nat → Int) (i : Nat) (x y : List Nat × entropy_state) (h : scan_agree x y) :
    scan_agree (encode_entropy_step dc ac mcu x i) (encode_entropy_step dc ac mcu y i) := by
  unfold encode_entropy_step
  simp only
  have h3 := h.2.2.1
  rw [h3]
  obtain ⟨a1, a2, a3, a4⟩ := encode_entropy_single_block_agree dc ac (mcu i) (table_index i)
    (y.2.last_dc_val (mcu_membership i)) x y h
  exact ⟨a1, a2, by simp only [a3], a4⟩

theorem encode_entropy_agree (dc ac : Nat → derived_huffman_table) (mcu : Nat → Nat → Int)
    (x y : List Nat × entropy_state) (h : scan_agree x y) :
    scan_agree (encode_entropy dc ac mcu x.1 x.2) (encode_entropy dc ac mcu y.1 y.2) := by
  unfold encode_entropy
  have hgen : ∀ (l : List Nat) (x y : List Nat × entropy_state), scan_agree x y →
      scan_agree (l.foldl (encode_entropy_step dc ac mcu) x)
        (l.foldl (encode_entropy_step dc ac mcu) y) := by
    intro l
    induction l with
    | nil => intro x y h; exact h
    | cons i l ih =>
      intro x y h
      exact ih _ _ (encode_entropy_step_agree dc ac mcu i x y h)
  exact hgen _ x y h

theorem encode_image_entropy_agree (dc ac : Nat → derived_huffman_table)
    (mcus : List (Nat → Nat → Int)) (output_buffer : List Nat) (b1 b2 : Nat) :
    scan_agree (encode_image_entropy dc ac mcus output_buffer b1)
      (encode_image_entropy dc ac mcus output_buffer b2) := by
  unfold encode_image_entropy
  have hgen : ∀ (l : List (Nat → Nat → Int)) (x y : List Nat × entropy_state), scan_agree x y →
      scan_agree
        (l.foldl (fun (os : List Nat × entropy_state) mcu_buffer =>
          encode_entropy dc ac mcu_buffer os.1 os.2) x)
        (l.foldl (fun (os : List Nat × entropy_state) mcu_buffer =>
          encode_entropy dc ac mcu_buffer os.1 os.2) y) := by
    intro l
    induction l with
    | nil => intro x y h; exact h
    | cons m l ih =>
      intro x y h
      exact ih _ _ (encode_entropy_agree dc ac m x y h)
  exact hgen mcus _ _ ⟨rfl, rfl, rfl, fun i hi => absurd hi (Nat.not_lt_zero i)⟩

/-- The flush of `encode_image` reads the low `bits` bits of the bit buffer only. -/
theorem encode_image_flush_agree (x y : List Nat × entropy_state) (h : scan_agree x y) :
    encode_image_flush x.1 x.2 = encode_image_flush y.1 y.2 := by
  obtain ⟨h1, h2, _, h4⟩ := h
  unfold encode_image_flush
  simp only
  rw [encode_image_flush_loop_eq _ _ _ _ (Nat.div_le_self _ _),
    encode_image_flush_loop_eq _ _ _ _ (Nat.div_le_self _ _), h1, ← h2]
  congr 3
  apply code_word_congr
  intro i hi
  rw [to_size_t_natCast, to_size_t_natCast, Nat.testBit_or, Nat.testBit_or,
    Nat.testBit_mod_two_pow, Nat.testBit_mod_two_pow, Nat.testBit_shiftLeft,
    Nat.testBit_shiftLeft]
  by_cases hs : i ≥ 7
  · rw [h4 (i - 7) (by omega)]
  · simp [hs]

/-! ### The edge fix-up and the zero dimensions of `encode_image` -/

theorem to_uint_natCast (n : Nat) : to_uint (n : Int) = n % 2 ^ 32 := by
  unfold to_uint
  omega

theorem encode_image_nbh_eq (height : Nat) (h : height < 2 ^ 32) :
    encode_image_nbh height = (height + 7) / 8 := by
  unfold encode_image_nbh
  rw [to_size_t_natCast, to_uint_natCast, Nat.shiftRight_eq_div_pow]
  omega

theorem encode_image_nsbh_eq (height : Nat) (h : height < 2 ^ 32) :
    encode_image_nsbh height = (height + 15) / 16 := by
  unfold encode_image_nsbh
  rw [to_size_t_natCast, to_uint_natCast, Nat.shiftRight_eq_div_pow]
  omega

theorem encode_image_nsbw_eq (width : Nat) (h : width < 2 ^ 32) :
    encode_image_nsbw width = (width + 15) / 16 := by
  unfold encode_image_nsbw
  rw [to_size_t_natCast, to_uint_natCast, Nat.shiftRight_eq_div_pow]
  omega

/-- The loop of the fix-up when its condition holds: after `n` turns the DCs of the
blocks 2 and 3 of the super blocks `base .. base + n - 1` hold the DC of their block
1, and nothing else has changed. -/
theorem encode_image_fixup_fold (sy base nbh : Nat) (y0 : Nat → Nat → Nat → Int)
    (hc : to_size_t (to_size_t ((sy <<< 0x1 : Nat) : Int) + 1) ≥ nbh) :
    ∀ n, base + n ≤ 2 ^ 64 →
    (List.range n).foldl (encode_image_fixup_step sy base nbh) y0
      = fun id b k =>
          if base ≤ id ∧ id < base + n ∧ (b = 2 ∨ b = 3) ∧ k = 0 then y0 id 1 0
          else y0 id b k := by
  intro n
  induction n with
  | zero =>
    intro _
    funext id b k
    have : ¬ (base ≤ id ∧ id < base + 0 ∧ (b = 2 ∨ b = 3) ∧ k = 0) := by omega
    rw [if_neg this]
    rfl
  | succ n ih =>
    intro hn
    rw [List.range_succ, List.foldl_append, ih (by omega), List.foldl_cons, List.foldl_nil]
    unfold encode_image_fixup_step
    rw [if_pos hc]
    have hid : to_size_t ((base + n : Nat) : Int) = base + n := by
      rw [to_size_t_natCast]
      exact Nat.mod_eq_of_lt (by omega)
    funext id b k
    simp only [hid]
    by_cases h3 : id = base + n ∧ b = 3 ∧ k = 0
    · obtain ⟨e1, e2, e3⟩ := h3
      subst e1 e2 e3
      simp
    · rw [if_neg h3]
      by_cases h2 : id = base + n ∧ b = 2 ∧ k = 0
      · obtain ⟨e1, e2, e3⟩ := h2
        subst e1 e2 e3
        simp
      · rw [if_neg h2]
        by_cases hin : base ≤ id ∧ id < base + n ∧ (b = 2 ∨ b = 3) ∧ k = 0
        · rw [if_pos hin, if_pos (by omega)]
        · rw [if_neg hin, if_neg (by omega)]

/-- The loop of the fix-up when its condition fails changes nothing. -/
theorem encode_image_fixup_fold_skip (sy base nbh : Nat) (y0 : Nat → Nat → Nat → Int)
    (hc : ¬ to_size_t (to_size_t ((sy <<< 0x1 : Nat) : Int) + 1) ≥ nbh) :
    ∀ n, (List.range n).foldl (encode_image_fixup_step sy base nbh) y0 = y0 := by
  intro n
  induction n with
  | zero => rfl
  | succ n ih =>
    rw [List.range_succ, List.foldl_append, ih, List.foldl_cons, List.foldl_nil]
    unfold encode_image_fixup_step
    rw [if_neg hc]

/-- The locals of the fix-up for a height below `2^32`: `super_block_y = nsbh - 1` and
the left side of its condition is `2 * (nsbh - 1) + 1`. -/
theorem encode_image_fixup_locals (height : Nat) (hh1 : 1 ≤ height) (hh2 : height < 2 ^ 32) :
    to_uint ((encode_image_nsbh height : Int) - 1) = (height + 15) / 16 - 1
    ∧ to_size_t (to_size_t ((((height + 15) / 16 - 1) <<< 0x1 : Nat) : Int) + 1)
        = 2 * ((height + 15) / 16 - 1) + 1 := by
  rw [encode_image_nsbh_eq height hh2]
  refine ⟨?_, ?_⟩
  · unfold to_uint
    omega
  · rw [to_size_t_natCast, Nat.shiftLeft_eq]
    unfold to_size_t
    omega

theorem encode_image_mcus_zero_width (height : Nat) (blocks : host_blocks) :
    encode_image_mcus 0 height blocks = [] := by
  unfold encode_image_mcus
  have h0 : encode_image_nsbw 0 = 0 := by decide
  simp only [h0, Nat.zero_mul]
  rfl

theorem encode_image_mcus_zero_height (width : Nat) (blocks : host_blocks) :
    encode_image_mcus width 0 blocks = [] := by
  unfold encode_image_mcus
  have h0 : encode_image_nsbh 0 = 0 := by decide
  simp only [h0, Nat.mul_zero]
  rfl

/-- Without MCUs the entropy loop and the flush write nothing, and `encode_image`
writes the header and the marker `FF D9`. -/
theorem encode_image_no_mcus (out : List Nat) (dc ac : Nat → derived_huffman_table)
    (b : Nat) :
    write_marker (encode_image_flush (encode_image_entropy dc ac [] out b).1
        (encode_image_entropy dc ac [] out b).2) 0xD9
      = out ++ [0xFF, 0xD9] := by
  have h1 : encode_image_entropy dc ac [] out b
      = (out, { buffer := b, bits := 0, last_dc_val := fun _ => 0 }) := rfl
  rw [h1]
  have h2 : encode_image_flush out { buffer := b, bits := 0, last_dc_val := fun _ => 0 } = out := by
    unfold encode_image_flush
    simp only
    unfold encode_image_flush_loop
    simp
  rw [h2]
  exact write_marker_nat out 0xD9 (by decide)

/-- The length of the header that `encode_image` writes before the scan. -/
theorem encode_image_headers_length (m_quant_tbls : quant_tbls) (order : Nat → Nat)
    (dc_huff_tbls ac_huff_tbls : Nat → huffman_table) (width height : Nat) :
    (encode_image_headers m_quant_tbls order dc_huff_tbls ac_huff_tbls width height).length
      = 20 + 69 + 69 + 19
        + (4 * 21 + (bits_sum (dc_huff_tbls 0) + bits_sum (ac_huff_tbls 0)
            + bits_sum (dc_huff_tbls 1) + bits_sum (ac_huff_tbls 1)))
        + 14 := by
  have hlayout : encode_image_headers m_quant_tbls order dc_huff_tbls ac_huff_tbls
      width height
      = write_file_header []
        ++ write_quant_table m_quant_tbls order [] 0
        ++ write_quant_table m_quant_tbls order [] 1
        ++ write_sof [] width height
        ++ write_huffman_table dc_huff_tbls ac_huff_tbls [] 0 0
        ++ write_huffman_table dc_huff_tbls ac_huff_tbls [] 0 1
        ++ write_huffman_table dc_huff_tbls ac_huff_tbls [] 1 0
        ++ write_huffman_table dc_huff_tbls ac_huff_tbls [] 1 1
        ++ [0xFF, 0xDA, 0x00, 0x0C, 0x03, 0x01, 0x00, 0x02, 0x11, 0x03, 0x11, 0x00, 0x3F,
            0x00] := by
    unfold encode_image_headers write_frame_header write_scan_header
    dsimp only
    rw [write_sos_eq, write_huffman_table_append dc_huff_tbls ac_huff_tbls _ 1 1,
      write_huffman_table_append dc_huff_tbls ac_huff_tbls _ 1 0,
      write_huffman_table_append dc_huff_tbls ac_huff_tbls _ 0 1,
      write_huffman_table_append dc_huff_tbls ac_huff_tbls _ 0 0,
      write_sof_append, write_quant_table_append m_quant_tbls order _ 1,
      write_quant_table_append m_quant_tbls order _ 0]
    rfl
  rw [hlayout]
  simp only [List.length_append, write_file_header_length, write_quant_table_length,
    write_sof_length, write_huffman_table_length, List.length_cons, List.length_nil]
  simp
  omega

/-! ### Sequences of calls of `encode_entropy_single_block` -/

theorem encode_single_blocks_eq (dc ac : Nat → derived_huffman_table) :
    ∀ (calls : List single_block_call) (out : List Nat) (st : entropy_state),
    encode_single_blocks dc ac calls out st = encode_blocks dc ac (calls.map call_diff) out st := by
  intro calls
  induction calls with
  | nil => intro out st; rfl
  | cons c calls ih =>
    intro out st
    show encode_single_blocks dc ac calls
        (encode_entropy_single_block dc ac c.block c.table_index c.last_dc_val out st).1
        (encode_entropy_single_block dc ac c.block c.table_index c.last_dc_val out st).2 = _
    rw [ih]
    rfl

/-- A sequence of calls is the bit writer run on the emissions of the calls. -/
theorem encode_single_blocks_eq_emit (dc ac : Nat → derived_huffman_table)
    (calls : List single_block_call) (out : List Nat) (st : entropy_state) :
    encode_single_blocks dc ac calls out st
      = ((emit_sequence (single_blocks_emissions dc ac calls)
            { put_buffer := st.buffer, put_bits := st.bits, outputbuf := out }).outputbuf,
          { buffer := (emit_sequence (single_blocks_emissions dc ac calls)
              { put_buffer := st.buffer, put_bits := st.bits, outputbuf := out }).put_buffer,
            bits := (emit_sequence (single_blocks_emissions dc ac calls)
              { put_buffer := st.buffer, put_bits := st.bits, outputbuf := out }).put_bits,
            last_dc_val := st.last_dc_val }) := by
  rw [encode_single_blocks_eq, encode_blocks_eq_emit]
  rfl

theorem calls_short_diff (calls : List single_block_call) (hs : calls_short calls) :
    ∀ c, c ∈ calls.map call_diff → (-65535 ≤ c.diff ∧ c.diff ≤ 65535)
      ∧ ∀ k, k ∈ kloop_order → short_ok (c.block k) := by
  intro c hc
  rw [List.mem_map] at hc
  obtain ⟨c0, hc0, rfl⟩ := hc
  obtain ⟨hl, hb⟩ := hs c0 hc0
  have h0 := hb 0 (by decide)
  refine ⟨?_, fun k hk => hb k (kloop_order_lt k hk)⟩
  unfold short_ok at hl h0
  show -65535 ≤ to_int (c0.block 0 - c0.last_dc_val) ∧ to_int (c0.block 0 - c0.last_dc_val) ≤ 65535
  unfold to_int
  omega

/-- The emissions of calls with `short` arguments and tables that fit: every code fits
its size of at most 16 bits. -/
theorem single_blocks_emissions_fit (dc ac : Nat → derived_huffman_table)
    (calls : List single_block_call) (htab : tables_fit dc ac) (hs : calls_short calls) :
    emissions_fit (single_blocks_emissions dc ac calls) :=
  calls_emissions_fit dc ac htab _ (calls_short_diff calls hs)

/-! ### Stuffing and its inverse -/

theorem unstuff_stuff_bytes : ∀ (data : List Nat), unstuff_bytes (stuff_bytes data) = data := by
  intro data
  induction data with
  | nil => rfl
  | cons c data ih =>
    have e1 : stuff_bytes (c :: data)
        = if c = 0xFF then c :: 0 :: stuff_bytes data else c :: stuff_bytes data := rfl
    rw [e1]
    by_cases hc : c = 0xFF
    · rw [if_pos hc]
      have e2 : unstuff_bytes (c :: 0 :: stuff_bytes data)
          = if c = 0xFF ∧ (0 : Nat) = 0 then c :: unstuff_bytes (stuff_bytes data)
            else c :: unstuff_bytes (0 :: stuff_bytes data) := rfl
      rw [e2, if_pos ⟨hc, rfl⟩, ih]
    · rw [if_neg hc]
      generalize hL : stuff_bytes data = L at ih
      cases L with
      | nil =>
        have : unstuff_bytes [c] = [c] := rfl
        rw [this, ← ih]
        rfl
      | cons d rest =>
        have e2 : unstuff_bytes (c :: d :: rest)
            = if c = 0xFF ∧ d = 0 then c :: unstuff_bytes rest
              else c :: unstuff_bytes (d :: rest) := rfl
        rw [e2, if_neg (fun h => hc h.1), ih]

theorem stuffing_holds_cons (x : Nat) (l : List Nat) (hx : x ≠ 0xFF) (hl : stuffing_holds l) :
    stuffing_holds (x :: l) := by
  cases l with
  | nil => exact hx
  | cons y rest => exact ⟨fun h => absurd h hx, hl⟩

theorem stuffing_holds_stuff_bytes : ∀ (data : List Nat), stuffing_holds (stuff_bytes data) := by
  intro data
  induction data with
  | nil => exact True.intro
  | cons c data ih =>
    have e1 : stuff_bytes (c :: data)
        = if c = 0xFF then c :: 0 :: stuff_bytes data else c :: stuff_bytes data := rfl
    rw [e1]
    by_cases hc : c = 0xFF
    · rw [if_pos hc]
      exact ⟨fun _ => rfl, stuffing_holds_cons 0 _ (by decide) ih⟩
    · rw [if_neg hc]
      exact stuffing_holds_cons c _ hc ih

/-! ### The bit buffer as a number -/

theorem bits_value_append (a : List Bool) : ∀ (b : List Bool),
    bits_value (a ++ b) = bits_value a * 2 ^ b.length + bits_value b := by
  intro b
  induction b using List.reverseRecOn with
  | nil => simp [bits_value]
  | append_singleton b x ih =>
    rw [← List.append_assoc, bits_value_append_bit, bits_value_append_bit, ih,
      List.length_append, List.length_singleton, Nat.pow_succ]
    ring

/-- The value of `(put_buffer << size) | code` on 64 bits for a code that fits its
size. -/
theorem put_buffer_value (b c size : Nat) (hc : c < 2 ^ size) (hs : size ≤ 64) :
    (b <<< size) % 2 ^ 64 ||| c % 2 ^ 64 = (b * 2 ^ size + c) % 2 ^ 64 := by
  have h64 : (2 : Nat) ^ 64 = 2 ^ size * 2 ^ (64 - size) := by
    rw [← Nat.pow_add]
    congr 1
    omega
  have hc64 : c < 2 ^ 64 :=
    Nat.lt_of_lt_of_le hc (Nat.pow_le_pow_right (by decide) hs)
  have hpos : 0 < 2 ^ size := Nat.two_pow_pos size
  rw [Nat.shiftLeft_eq, Nat.mod_eq_of_lt hc64, Nat.mul_comm b (2 ^ size)]
  have e1 : (2 ^ size * b) % 2 ^ 64 = 2 ^ size * (b % 2 ^ (64 - size)) := by
    rw [h64, Nat.mul_mod_mul_left]
  have e2 : (2 ^ size * b + c) % 2 ^ 64 = 2 ^ size * (b % 2 ^ (64 - size)) + c := by
    rw [h64, Nat.mod_mul, Nat.mul_add_mod, Nat.mod_eq_of_lt hc]
    have : (2 ^ size * b + c) / 2 ^ size = b := by
      rw [Nat.mul_add_div hpos, Nat.div_eq_of_lt hc, Nat.add_zero]
    rw [this, Nat.add_comm]
  rw [e1, e2]
  exact (Nat.mul_add_lt_is_or hc _).symm

/-- `PUT_BITS` on a bit buffer that holds the value of the bits written, modulo
`2^64`. -/
theorem PUT_BITS_value (code : Int) (size : Nat) (s : emit_state) (bits : List Bool)
    (h : s.put_buffer = bits_value bits % 2 ^ 64) (h0 : 0 ≤ code) (h1 : code < 2 ^ size)
    (h2 : size ≤ 16) :
    (PUT_BITS code size s).put_buffer
      = bits_value (bits ++ code_word code.toNat size) % 2 ^ 64 := by
  obtain ⟨n, rfl⟩ := Int.eq_ofNat_of_zero_le h0
  have hn : n < 2 ^ size := by exact_mod_cast h1
  show to_size_t ((s.put_buffer <<< size : Nat) : Int) ||| to_size_t (n : Int) = _
  rw [to_size_t_natCast, to_size_t_natCast, put_buffer_value _ _ _ hn (by omega), h,
    bits_value_append, code_word_length, bits_value_code_word]
  have : ((n : Int)).toNat = n := rfl
  rw [this, Nat.mod_eq_of_lt hn, Nat.add_mod, Nat.mul_mod, Nat.mod_mod, ← Nat.mul_mod,
    ← Nat.add_mod]

theorem EMIT_BITS_value (code : Int) (size : Nat) (s : emit_state) (bits : List Bool)
    (h : s.put_buffer = bits_value bits % 2 ^ 64) (h0 : 0 ≤ code) (h1 : code < 2 ^ size)
    (h2 : size ≤ 16) :
    (EMIT_BITS code size s).put_buffer
      = bits_value (bits ++ code_word code.toNat size) % 2 ^ 64 := by
  unfold EMIT_BITS
  rw [CHECKBUF15_put_buffer]
  exact PUT_BITS_value code size s bits h h0 h1 h2

/-- A run of `EMIT_BITS` with codes that fit leaves in the bit buffer the value of all
bits written, modulo `2^64`. -/
theorem emit_sequence_value : ∀ (emissions : List (Int × Nat)) (s : emit_state)
    (bits : List Bool), s.put_buffer = bits_value bits % 2 ^ 64 →
    emissions_fit emissions →
    (emit_sequence emissions s).put_buffer
      = bits_value (bits ++ emission_bits emissions) % 2 ^ 64 := by
  intro emissions
  induction emissions with
  | nil =>
    intro s bits h _
    simp only [emission_bits, List.flatMap_nil, List.append_nil]
    exact h
  | cons e emissions ih =>
    intro s bits h hfit
    have he := hfit e (List.mem_cons_self _ _)
    have e1 : emission_bits (e :: emissions)
        = code_word e.1.toNat e.2 ++ emission_bits emissions := rfl
    rw [e1, ← List.append_assoc]
    exact ih _ _ (EMIT_BITS_value e.1 e.2 s bits h he.1 he.2.1 he.2.2)
      (fun x hx => hfit x (List.mem_cons_of_mem _ hx))

/-! ### The number of pending bits -/

theorem nbits_table_le (i : Nat) : nbits_table i ≤ 16 := by
  unfold nbits_table
  have := List.length_filter_le (fun k => decide (2 ^ k ≤ i)) (List.range 0x10)
  rw [List.length_range] at this
  exact this

theorem sign_nbits_le (x : Int) : sign_nbits x ≤ 16 := nbits_table_le _

theorem EMIT_BITS_put_bits (code : Int) (size : Nat) (s : emit_state) (h : s.put_bits ≤ 15)
    (hs : size ≤ 16) :
    (PUT_BITS code size s).put_bits ≤ 31 ∧ (EMIT_BITS code size s).put_bits ≤ 15 := by
  have hp : (PUT_BITS code size s).put_bits = s.put_bits + size := rfl
  refine ⟨by omega, ?_⟩
  unfold EMIT_BITS CHECKBUF15
  by_cases hbig : (PUT_BITS code size s).put_bits > 0xF
  · rw [if_pos hbig]
    show (PUT_BITS code size s).put_bits - 8 - 8 ≤ 15
    omega
  · rw [if_neg hbig]
    omega

theorem emit_sequence_put_bits : ∀ (emissions : List (Int × Nat)) (s : emit_state),
    s.put_bits ≤ 15 → (∀ e, e ∈ emissions → e.2 ≤ 16) →
    (emit_sequence emissions s).put_bits ≤ 15 := by
  intro emissions
  induction emissions with
  | nil => intro s h _; exact h
  | cons e emissions ih =>
    intro s h hs
    exact ih _ (EMIT_BITS_put_bits e.1 e.2 s h (hs e (List.mem_cons_self _ _))).2
      (fun x hx => hs x (List.mem_cons_of_mem _ hx))

/-- Every element that a list of `kloop` calls adds to the emissions has a property
that the three kinds of elements of one call have. -/
theorem kloop_trace_foldl_all (block : Nat → Int) (P : emitted → Prop) :
    ∀ (order : List Nat) (rt : Nat × List emitted),
    (∀ k, k ∈ order → block k ≠ 0 → ∀ r : Nat,
      P (emitted.ac_symbol 0xf0)
      ∧ P (emitted.ac_symbol (((r % 16) <<< 4) + sign_nbits (block k)))
      ∧ P (emitted.magnitude
          (to_int (Int.land (sign_temp2 (block k))
            (to_int (to_int (shl 1 (sign_nbits (block k))) - 1))))
          (sign_nbits (block k)))) →
    (∀ e, e ∈ rt.2 → P e) →
    ∀ e, e ∈ (order.foldl (fun rt k => kloop_trace block k rt) rt).2 → P e := by
  intro order
  induction order with
  | nil => intro rt _ h; exact h
  | cons k order ih =>
    intro rt hstep h
    rw [List.foldl_cons]
    apply ih _ (fun j hj => hstep j (List.mem_cons_of_mem _ hj))
    unfold kloop_trace
    by_cases h0 : block k = 0
    · rw [if_pos h0]
      exact h
    · rw [if_neg h0]
      obtain ⟨p1, p2, p3⟩ := hstep k (List.mem_cons_self _ _) h0 rt.1
      intro e he
      simp only [List.mem_append, List.mem_cons, List.mem_singleton, List.not_mem_nil,
        or_false] at he
      rcases he with (he | he) | he | he
      · exact h e he
      · rw [List.eq_of_mem_replicate he]
        exact p1
      · rw [he]
        exact p2
      · rw [he]
        exact p3

/-- Every element of the emissions of a block has a property that the elements of the
DC part, of every `kloop` call and the end-of-block entry have. -/
theorem block_trace_all (block : Nat → Int) (diff : Int) (P : emitted → Prop)
    (hdc : ∀ e, e ∈ dc_trace diff → P e)
    (hstep : ∀ k, k ∈ kloop_order → block k ≠ 0 → ∀ r : Nat,
      P (emitted.ac_symbol 0xf0)
      ∧ P (emitted.ac_symbol (((r % 16) <<< 4) + sign_nbits (block k)))
      ∧ P (emitted.magnitude
          (to_int (Int.land (sign_temp2 (block k))
            (to_int (to_int (shl 1 (sign_nbits (block k))) - 1))))
          (sign_nbits (block k))))
    (heob : P (emitted.ac_symbol 0)) :
    ∀ e, e ∈ block_trace block diff → P e := by
  intro e he
  unfold block_trace at he
  rw [List.mem_append] at he
  rcases he with he | he
  · exact hdc e he
  · have hw := kloop_trace_foldl_all block P kloop_order (0, []) hstep
      (by intro x hx; simp at hx)
    unfold ac_trace at he
    simp only at he
    split at he
    · rw [List.mem_append, List.mem_singleton] at he
      rcases he with he | he
      · exact hw e he
      · rw [he]
        exact heob
    · exact hw e he

/-- The sizes of the emissions of a block with tables of lengths of at most 16. -/
theorem block_trace_sizes (dcd acd : derived_huffman_table)
    (hd : ∀ s, dcd.length s ≤ 16) (ha : ∀ s, acd.length s ≤ 16)
    (block : Nat → Int) (diff : Int) :
    ∀ e, e ∈ (block_trace block diff).map (emitted_bits dcd acd) → e.2 ≤ 16 := by
  intro e he
  rw [List.mem_map] at he
  obtain ⟨x, hx, rfl⟩ := he
  revert x
  apply block_trace_all block diff (fun x => (emitted_bits dcd acd x).2 ≤ 16)
  · intro x hx
    unfold dc_trace at hx
    simp only [List.mem_cons, List.mem_singleton, List.not_mem_nil, or_false] at hx
    rcases hx with rfl | rfl
    · exact hd _
    · exact sign_nbits_le _
  · intro k _ _ r
    exact ⟨ha _, ha _, sign_nbits_le _⟩
  · exact ha _

theorem calls_short_zero : calls_short [zero_call, zero_call] := by
  intro c hc
  simp only [List.mem_cons, List.mem_singleton, List.not_mem_nil, or_false, or_self] at hc
  subst hc
  unfold zero_call short_ok
  refine ⟨by decide, fun k _ => ?_⟩
  show (-0x8000 : Int) ≤ 0 ∧ (0 : Int) ≤ 0x7FFF
  omega

/-! ### The pending bits over a block and over a scan -/

/-- One call of `encode_entropy_single_block` is the bit writer run on the emissions
of the block. -/
theorem encode_entropy_single_block_eq_emit (dc ac : Nat → derived_huffman_table)
    (block : Nat → Int) (ti : Nat) (last_dc_val : Int) (out : List Nat) (st : entropy_state) :
    encode_entropy_single_block dc ac block ti last_dc_val out st
      = ((emit_sequence
            ((block_trace block (to_int (block 0 - last_dc_val))).map
              (emitted_bits (dc ti) (ac ti)))
            { put_buffer := st.buffer, put_bits := st.bits, outputbuf := out }).outputbuf,
          { buffer := (emit_sequence
              ((block_trace block (to_int (block 0 - last_dc_val))).map
                (emitted_bits (dc ti) (ac ti)))
              { put_buffer := st.buffer, put_bits := st.bits, outputbuf := out }).put_buffer,
            bits := (emit_sequence
              ((block_trace block (to_int (block 0 - last_dc_val))).map
                (emitted_bits (dc ti) (ac ti)))
              { put_buffer := st.buffer, put_bits := st.bits, outputbuf := out }).put_bits,
            last_dc_val := st.last_dc_val }) := by
  unfold encode_entropy_single_block encode_block_from_diff
  simp only
  rw [encode_block_emit_eq_trace]

theorem emit_sequence_split (pre : List (Int × Nat)) (e : Int × Nat) (post : List (Int × Nat))
    (s : emit_state) :
    emit_sequence (pre ++ e :: post) s
      = emit_sequence post (EMIT_BITS e.1 e.2 (emit_sequence pre s)) := by
  rw [emit_sequence_append]
  rfl

/-- At every `PUT_BITS` of a run of emissions of sizes of at most 16 from at most 15
pending bits, at most 15 bits are pending before it and at most 31 after it. -/
theorem emit_sequence_peak (emissions : List (Int × Nat)) (s : emit_state)
    (h : s.put_bits ≤ 15) (hs : ∀ e, e ∈ emissions → e.2 ≤ 16) :
    ∀ pre e post, emissions = pre ++ e :: post →
      (emit_sequence pre s).put_bits ≤ 15
      ∧ (PUT_BITS e.1 e.2 (emit_sequence pre s)).put_bits ≤ 31
      ∧ (EMIT_BITS e.1 e.2 (emit_sequence pre s)).put_bits ≤ 15 := by
  intro pre e post hsplit
  have hpre : ∀ x, x ∈ pre → x.2 ≤ 16 := by
    intro x hx
    apply hs
    rw [hsplit]
    exact List.mem_append_left _ hx
  have he : e.2 ≤ 16 := by
    apply hs
    rw [hsplit]
    exact List.mem_append_right _ (List.mem_cons_self _ _)
  have h1 := emit_sequence_put_bits pre s h hpre
  have h2 := EMIT_BITS_put_bits e.1 e.2 _ h1 he
  exact ⟨h1, h2.1, h2.2⟩

theorem encode_entropy_single_block_bits_le (dc ac : Nat → derived_huffman_table)
    (hlen : ∀ i s, (dc i).length s ≤ 16 ∧ (ac i).length s ≤ 16)
    (block : Nat → Int) (ti : Nat) (last_dc_val : Int) (out : List Nat) (st : entropy_state)
    (h : st.bits ≤ 15) :
    (encode_entropy_single_block dc ac block ti last_dc_val out st).2.bits ≤ 15 := by
  rw [encode_entropy_single_block_eq_emit]
  exact emit_sequence_put_bits _ _ h
    (block_trace_sizes (dc ti) (ac ti) (fun s => (hlen ti s).1) (fun s => (hlen ti s).2) _ _)

theorem encode_entropy_bits_le (dc ac : Nat → derived_huffman_table)
    (hlen : ∀ i s, (dc i).length s ≤ 16 ∧ (ac i).length s ≤ 16)
    (mcu : Nat → Nat → Int) (out : List Nat) (st : entropy_state) (h : st.bits ≤ 15) :
    (encode_entropy dc ac mcu out st).2.bits ≤ 15 := by
  unfold encode_entropy
  have hgen : ∀ (l : List Nat) (os : List Nat × entropy_state), os.2.bits ≤ 15 →
      (l.foldl (encode_entropy_step dc ac mcu) os).2.bits ≤ 15 := by
    intro l
    induction l with
    | nil => intro os h; exact h
    | cons i l ih =>
      intro os h
      rw [List.foldl_cons]
      apply ih
      unfold encode_entropy_step
      exact encode_entropy_single_block_bits_le dc ac hlen _ _ _ _ _ h
  exact hgen _ (out, st) h

/-- Over the entropy loop of `encode_image`, which starts with `bits = 0`, at most 15
bits are pending after every MCU. -/
theorem encode_image_entropy_bits_le (dc ac : Nat → derived_huffman_table)
    (hlen : ∀ i s, (dc i).length s ≤ 16 ∧ (ac i).length s ≤ 16)
    (mcus : List (Nat → Nat → Int)) (output_buffer : List Nat) (buffer : Nat) :
    (encode_image_entropy dc ac mcus output_buffer buffer).2.bits ≤ 15 := by
  unfold encode_image_entropy
  have hgen : ∀ (l : List (Nat → Nat → Int)) (os : List Nat × entropy_state),
      os.2.bits ≤ 15 →
      (l.foldl (fun (os : List Nat × entropy_state) mcu_buffer =>
        encode_entropy dc ac mcu_buffer os.1 os.2) os).2.bits ≤ 15 := by
    intro l
    induction l with
    | nil => intro os h; exact h
    | cons m l ih =>
      intro os h
      rw [List.foldl_cons]
      exact ih _ (encode_entropy_bits_le dc ac hlen m os.1 os.2 h)
  exact hgen mcus _ (Nat.zero_le _)

theorem lengths_zero :
    ∀ i s, ((fun _ => zero_derived_tbl : Nat → derived_huffman_table) i).length s ≤ 16
      ∧ ((fun _ => zero_derived_tbl : Nat → derived_huffman_table) i).length s ≤ 16 :=
  fun _ _ => ⟨Nat.zero_le _, Nat.zero_le _⟩

/-! ### The symbols of a block of baseline coefficients -/

set_option maxRecDepth 1000000 in
theorem standard_listed_lengths :
    create_derived_huffman_tables.map listed_lengths = some true := by
  decide

/-- The four standard derived tables give a length other than 0 to every listed
symbol. -/
theorem standard_tables_listed :
    ∃ t, create_derived_huffman_tables = some t
      ∧ ∀ ti, ti < 2 →
        (∀ n, n ≤ 11 → (t.1 ti).length n ≠ 0)
        ∧ (t.2 ti).length 0xF0 ≠ 0
        ∧ (t.2 ti).length 0x00 ≠ 0
        ∧ ∀ r n, r ≤ 15 → 1 ≤ n → n ≤ 10 → (t.2 ti).length ((r <<< 4) ||| n) ≠ 0 := by
  have h := standard_listed_lengths
  cases ht : create_derived_huffman_tables with
  | none =>
    rw [ht] at h
    exact absurd h (by decide)
  | some t =>
    rw [ht] at h
    have h1 : listed_lengths t = true := by
      simpa using h
    unfold listed_lengths at h1
    have h2 := of_decide_eq_true h1
    refine ⟨t, rfl, ?_⟩
    intro ti hti
    have hmem : ti ∈ [0, 1] := by
      simp only [List.mem_cons, List.mem_singleton, List.not_mem_nil, or_false]
      omega
    obtain ⟨a1, a2, a3, a4⟩ := h2 ti hmem
    refine ⟨fun n hn => a1 n (List.mem_range.mpr (by omega)), a2, a3, ?_⟩
    intro r n hr hn1 hn2
    exact a4 r (List.mem_range.mpr (by omega)) n
      (by rw [List.mem_range']; exact ⟨n - 1, by omega, by omega⟩)

theorem listed_index_lt (e : emitted) (h : listed_emission e) (i : Nat)
    (hi : e = emitted.dc_symbol i ∨ e = emitted.ac_symbol i) : i < 256 := by
  rcases h with ⟨n, hn, hle⟩ | h | h | ⟨r, n, hrn, hr, _, hn⟩ | ⟨v, n, hv⟩
  · rcases hi with hi | hi
    · rw [hn] at hi
      injection hi with hi
      omega
    · rw [hn] at hi
      injection hi
  · rcases hi with hi | hi
    · rw [h] at hi
      injection hi
    · rw [h] at hi
      injection hi with hi
      omega
  · rcases hi with hi | hi
    · rw [h] at hi
      injection hi
    · rw [h] at hi
      injection hi with hi
      omega
  · have hor : (r <<< 4) ||| n = r <<< 4 + n := by
      have := symbol_add_eq_or r n (by omega)
      rw [Nat.mod_eq_of_lt (by omega)] at this
      exact this.symm
    rcases hi with hi | hi
    · rw [hrn] at hi
      injection hi
    · rw [hrn] at hi
      injection hi with hi
      rw [hor, Nat.shiftLeft_eq] at hi
      omega
  · rcases hi with hi | hi
    · rw [hv] at hi
      injection hi
    · rw [hv] at hi
      injection hi

/-- The bit length of a value of absolute value at most `2^m - 1` is at most `m`. -/
theorem sign_nbits_bound (x : Int) (m : Nat) (hm : m ≤ 16) (h1 : -(2 ^ m - 1) ≤ x)
    (h2 : x ≤ 2 ^ m - 1) : sign_nbits x ≤ m := by
  have hP : (2 : Int) ^ m ≤ 2 ^ 16 := by
    have : (2 : Nat) ^ m ≤ 2 ^ 16 := Nat.pow_le_pow_right (by decide) hm
    exact_mod_cast this
  rw [sign_nbits_size x (by omega) (by omega), Nat.size_le]
  have : (x.natAbs : Int) < 2 ^ m := by omega
  exact_mod_cast this

/-- Every emission of a block with AC coefficients in [-1023, 1023] and a DC
difference in [-2047, 2047] is listed. -/
theorem block_trace_listed_all (block : Nat → Int) (diff : Int)
    (hac : ∀ k, k ∈ kloop_order → -1023 ≤ block k ∧ block k ≤ 1023)
    (hdc : -2047 ≤ diff ∧ diff ≤ 2047) :
    ∀ e, e ∈ block_trace block diff → listed_emission e := by
  apply block_trace_all block diff listed_emission
  · intro e he
    unfold dc_trace at he
    simp only [List.mem_cons, List.mem_singleton, List.not_mem_nil, or_false] at he
    rcases he with rfl | rfl
    · exact Or.inl ⟨_, rfl, sign_nbits_bound diff 11 (by decide) (by omega) (by omega)⟩
    · exact Or.inr (Or.inr (Or.inr (Or.inr ⟨_, _, rfl⟩)))
  · intro k hk h0 r
    obtain ⟨h1, h2⟩ := hac k hk
    have hn10 := sign_nbits_bound (block k) 10 (by decide) (by omega) (by omega)
    have hn1 := sign_nbits_pos (block k) (by unfold short_ok; omega) h0
    refine ⟨Or.inr (Or.inl rfl), ?_, Or.inr (Or.inr (Or.inr (Or.inr ⟨_, _, rfl⟩)))⟩
    refine Or.inr (Or.inr (Or.inr (Or.inl ⟨r % 16, sign_nbits (block k), ?_, ?_, hn1, hn10⟩)))
    · have := symbol_add_eq_or r (sign_nbits (block k)) (by omega)
      rw [this]
    · omega
  · exact Or.inr (Or.inr (Or.inl rfl))

/-! ### Positions of a canonical code -/

/-- The lengths of `huffsize[0 .. n)` lie between 1 and 16, do not decrease, and take
the Kraft sum of the specification. -/
theorem derive_huffsize_kraft (htbl : huffman_table) (hkraft : kraft_sum htbl ≤ 2 ^ 0x10) :
    (∀ p, p < bits_sum htbl →
      1 ≤ (derive_huffsize htbl).getD p 0 ∧ (derive_huffsize htbl).getD p 0 ≤ 0x10)
    ∧ (∀ i j, i ≤ j → j < bits_sum htbl →
      (derive_huffsize htbl).getD i 0 ≤ (derive_huffsize htbl).getD j 0)
    ∧ kraft_upto (derive_huffsize htbl) (bits_sum htbl) ≤ 2 ^ 0x10 := by
  have hL := derive_huffsize_ok htbl
  refine ⟨?_, ?_, ?_⟩
  · intro p hp
    have := hL.pos p hp
    rwa [getD_append_terminator] at this
  · intro i j hij hj
    have := hL.mono i j hij hj
    rwa [getD_append_terminator, getD_append_terminator] at this
  · rw [kraft_upto_total]
    exact hkraft

/-- Canonical codes of the same length increase with the position. -/
theorem canonical_codes_increase (hs : List Nat) (n : Nat) (hc : Nat → Nat)
    (heq : ∀ j, j < n → hc j * 2 ^ (0x10 - hs.getD j 0) = kraft_upto hs j)
    (p q : Nat) (hpq : p < q) (hq : q < n) (hsame : hs.getD p 0 = hs.getD q 0) :
    hc p < hc q := by
  have hm := kraft_upto_mono hs (p + 1) q (by omega)
  rw [kraft_upto, ← heq p (by omega), ← heq q hq, hsame] at hm
  have hw : 0 < 2 ^ (0x10 - hs.getD q 0) := by positivity
  have h2 : (hc p + 1) * 2 ^ (0x10 - hs.getD q 0) ≤ hc q * 2 ^ (0x10 - hs.getD q 0) := by
    calc (hc p + 1) * 2 ^ (0x10 - hs.getD q 0)
        = hc p * 2 ^ (0x10 - hs.getD q 0) + 2 ^ (0x10 - hs.getD q 0) := by ring
      _ ≤ _ := hm
  have h3 := Nat.le_of_mul_le_mul_right h2 hw
  omega

/-- With pairwise distinct `VALUES[0 .. n)` the entry of the symbol at position `p` is
the code and length of position `p`. -/
theorem derive_fill_distinct (htbl : huffman_table) (L : List Nat) (hc : Nat → Nat)
    (d0 : derived_huffman_table) (n : Nat)
    (hd : ∀ p q, p < n → q < n → htbl.value p = htbl.value q → p = q)
    (p : Nat) (hp : p < n) :
    (derive_fill htbl L hc n d0).code (htbl.value p) = hc p
    ∧ (derive_fill htbl L hc n d0).length (htbl.value p) = L.getD p 0 := by
  rcases derive_fill_cases htbl L hc d0 (htbl.value p) n with ⟨h, _, _⟩ | ⟨q, hq, hv, _, h1, h2⟩
  · exact absurd rfl (h p hp)
  · have := hd q p hq hp hv
    subst this
    exact ⟨h1, h2⟩

/-! ### The order of the `kloop` calls -/

set_option maxRecDepth 1000000 in
theorem reciprocal_quadruple_ok_all :
    ∀ v ∈ List.range' 1 255, reciprocal_quadruple_ok v = true := by
  decide

theorem compute_reciprocal_fq_eq (divisor : Nat) (h : divisor ≠ 1) :
    (compute_reciprocal_values divisor).reciprocal = to_short (compute_reciprocal_fq divisor) := by
  unfold compute_reciprocal_values compute_reciprocal_fq
  rw [if_neg h]

/-! ### The sample calls with the standard tables -/

theorem standard_derived_tbls_eq : create_derived_huffman_tables = some standard_derived_tbls := by
  obtain ⟨t, ht, _⟩ := create_derived_huffman_tables_fit
  unfold standard_derived_tbls
  rw [ht]
  rfl

theorem tables_fit_standard : tables_fit standard_derived_tbls.1 standard_derived_tbls.2 := by
  obtain ⟨t, ht, hfit⟩ := create_derived_huffman_tables_fit
  have e : standard_derived_tbls = t := by
    unfold standard_derived_tbls
    rw [ht]
    rfl
  rw [e]
  exact hfit

theorem calls_short_sample : calls_short [dc_255_call, ac_3_call] := by
  intro c hc
  simp only [List.mem_cons, List.mem_singleton, List.not_mem_nil, or_false] at hc
  rcases hc with hc | hc
  · subst hc
    refine ⟨show (-0x8000 : Int) ≤ 0 ∧ (0 : Int) ≤ 0x7FFF by omega, fun k _ => ?_⟩
    show (-0x8000 : Int) ≤ (if k = 0 then 255 else if k = 8 then 1 else 0)
      ∧ (if k = 0 then 255 else if k = 8 then 1 else 0 : Int) ≤ 0x7FFF
    split
    · omega
    · split <;> omega
  · subst hc
    refine ⟨show (-0x8000 : Int) ≤ 255 ∧ (255 : Int) ≤ 0x7FFF by omega, fun k _ => ?_⟩
    show (-0x8000 : Int) ≤ (if k = 0 then 260 else if k = 1 then 3 else if k = 24 then 1 else 0)
      ∧ (if k = 0 then 260 else if k = 1 then 3 else if k = 24 then 1 else 0 : Int) ≤ 0x7FFF
    split
    · omega
    · split
      · omega
      · split <;> omega

set_option maxRecDepth 1000000 in
/-- The sample calls with the standard tables emit 44 bits: the words `111110`,
`11111111`, `1100`, `1`, `1010` of the first block and `110`, `101`, `100`, `11`,
`1111010`, `1`, `00` of the second. -/
theorem sample_calls_emissions :
    single_blocks_emissions standard_derived_tbls.1 standard_derived_tbls.2
        [dc_255_call, ac_3_call]
      = [(62, 6), (255, 8), (12, 4), (1, 1), (10, 4), (6, 3), (5, 3), (4, 3), (3, 2), (122, 7),
         (1, 1), (0, 2)] := by
  decide

set_option maxRecDepth 1000000 in
/-- From `buffer = 0` and `bits = 0` the sample calls write `FB FF 00 35 AC` and leave
12 bits pending below the 32 bits written. -/
theorem sample_calls_state :
    ((encode_single_blocks standard_derived_tbls.1 standard_derived_tbls.2
        [dc_255_call, ac_3_call] [] { buffer := 0, bits := 0, last_dc_val := fun _ => 0 }).1,
      (encode_single_blocks standard_derived_tbls.1 standard_derived_tbls.2
        [dc_255_call, ac_3_call] [] { buffer := 0, bits := 0, last_dc_val := fun _ => 0 }).2.buffer,
      (encode_single_blocks standard_derived_tbls.1 standard_derived_tbls.2
        [dc_255_call, ac_3_call] [] { buffer := 0, bits := 0, last_dc_val := fun _ => 0 }).2.bits)
      = ([0xFB, 0xFF, 0x00, 0x35, 0xAC], 0xFBFF35ACFD4, 12) := by
  decide

set_option maxRecDepth 1000000 in
/-- From `buffer = 7`, `bits = 0` and the output `AA` the sample calls append
`FB FF 00 35 AC`. -/
theorem sample_calls_output :
    (encode_single_blocks standard_derived_tbls.1 standard_derived_tbls.2
        [dc_255_call, ac_3_call] [0xAA] { buffer := 7, bits := 0, last_dc_val := fun _ => 0 }).1
      = [0xAA, 0xFB, 0xFF, 0x00, 0x35, 0xAC] := by
  decide

/-! ### Claims C1 to C4 -/

/-- C1 (evaluation at the failing input).  On the standard base tables, quality 0
stores 1 at position 0 of the luminance table while quality 1 stores 22, and quality
101 stores 16 there while quality 100 stores 1: the out-of-range qualities are not
mapped to the tables of the nearest in-range quality. -/
theorem set_quality_setting_out_of_range_differs :
    set_quality_setting std_luminance_quant_tbl std_chrominance_quant_tbl (fun _ _ => 0) 0 0 0 = 1
    ∧ set_quality_setting std_luminance_quant_tbl std_chrominance_quant_tbl (fun _ _ => 0) 1 0 0 = 22
    ∧ set_quality_setting std_luminance_quant_tbl std_chrominance_quant_tbl (fun _ _ => 0) 101 0 0 = 16
    ∧ set_quality_setting std_luminance_quant_tbl std_chrominance_quant_tbl (fun _ _ => 0) 100 0 0 = 1 := by
  refine ⟨?_, ?_, ?_, ?_⟩ <;>
  · unfold set_quality_setting
    rw [create_quant_table_other _ _ _ _ _ (by decide), create_quant_table_apply _ _ _ _ _ (by decide)]
    decide

/-- C2 (evaluation at the failing input).  For quality 1 the scale handed to
`create_quant_table` is 136, not 5000 / 1 = 5000, and for quality 19 it is 7, not
5000 / 19 = 263: the quotient is cut to the 8 bits of `unsigned char q`. -/
theorem set_quality_setting_q_truncates :
    set_quality_setting_q 1 = 136 ∧ 5000 / 1 = 5000
    ∧ set_quality_setting_q 19 = 7 ∧ 5000 / 19 = 263 := by
  decide

/-- C3.  For a scale below 256, a base table of 32-bit unsigned entries and a
position `i < 64`, `create_quant_table` stores
`min (max ((b[i] * s + 50) / 100) 1) 255` at position `i` of the table it is asked
to build, and leaves every other quantisation table as it was. -/
theorem create_quant_table_spec (m_quant_tbls : quant_tbls) (table_idx scale : Nat)
    (base_table : Nat → Nat) (i : Nat)
    (hs : scale < 0x100) (hb : ∀ k, k < 0x40 → base_table k < 0x100000000) (hi : i < 0x40) :
    create_quant_table m_quant_tbls table_idx scale base_table table_idx i
        = min (max ((base_table i * scale + 50) / 100) 1) 255
    ∧ ∀ j, j ≠ table_idx →
        create_quant_table m_quant_tbls table_idx scale base_table j = m_quant_tbls j := by
  refine ⟨?_, fun j hj => create_quant_table_other _ _ _ _ j hj⟩
  rw [create_quant_table_apply _ _ _ _ _ hi]
  exact create_quant_table_value_eq _ _ hs (hb i hi)

theorem create_quant_table_spec_witness :
    (50 : Nat) < 0x100 ∧ (∀ k, k < 0x40 → std_luminance_quant_tbl k < 0x100000000) ∧ (3 : Nat) < 0x40
    ∧ (create_quant_table (fun _ _ => 0) 0 50 std_luminance_quant_tbl 0 3
          = min (max ((std_luminance_quant_tbl 3 * 50 + 50) / 100) 1) 255
        ∧ ∀ j, j ≠ 0 →
          create_quant_table (fun _ _ => 0) 0 50 std_luminance_quant_tbl j = (fun _ _ => 0) j) :=
  ⟨by decide, by decide, by decide,
    create_quant_table_spec (fun _ _ => 0) 0 50 std_luminance_quant_tbl 3
      (by decide) (by decide) (by decide)⟩

/-- C4.  For every 8-bit quality, every pair of base tables and every position
`i < 64`, the values that `set_quality_setting` builds in the luminance table
(index 0) and in the chrominance table (index 1) lie in `[1, 255]`. -/
theorem set_quality_setting_value_range (lum chrom : Nat → Nat) (m_quant_tbls : quant_tbls)
    (quality i : Nat) (hq : quality < 0x100) (hi : i < 0x40) :
    (1 ≤ set_quality_setting lum chrom m_quant_tbls quality 0 i
      ∧ set_quality_setting lum chrom m_quant_tbls quality 0 i ≤ 255)
    ∧ (1 ≤ set_quality_setting lum chrom m_quant_tbls quality 1 i
      ∧ set_quality_setting lum chrom m_quant_tbls quality 1 i ≤ 255) := by
  have _ := hq
  unfold set_quality_setting
  rw [create_quant_table_other _ _ _ _ _ (by decide : (0 : Nat) ≠ 1),
    create_quant_table_apply _ _ _ _ _ hi, create_quant_table_apply _ _ _ _ _ hi]
  exact ⟨create_quant_table_value_range _ _, create_quant_table_value_range _ _⟩

theorem set_quality_setting_value_range_witness :
    (75 : Nat) < 0x100 ∧ (10 : Nat) < 0x40
    ∧ ((1 ≤ set_quality_setting std_luminance_quant_tbl std_chrominance_quant_tbl (fun _ _ => 0) 75 0 10
      ∧ set_quality_setting std_luminance_quant_tbl std_chrominance_quant_tbl (fun _ _ => 0) 75 0 10 ≤ 255)
    ∧ (1 ≤ set_quality_setting std_luminance_quant_tbl std_chrominance_quant_tbl (fun _ _ => 0) 75 1 10
      ∧ set_quality_setting std_luminance_quant_tbl std_chrominance_quant_tbl (fun _ _ => 0) 75 1 10 ≤ 255)) :=
  ⟨by decide, by decide,
    set_quality_setting_value_range std_luminance_quant_tbl std_chrominance_quant_tbl
      (fun _ _ => 0) 75 10 (by decide) (by decide)⟩

/-! ### Claims C5 to C7 -/

/-- C5 (counterexample).  The specification with `BITS[1] = 3`, `BITS[2] = 1` and the
symbols 0, 1, 2, 3 has a sum of counts of 4, and `derive_huffman_table` gives it the
entries (0, 1), (1, 1), (2, 1), (6, 2): symbols 0 and 2 both get the word `0`, symbol 1
the word `1` and symbol 3 the word `10`, so the words are not free of beginnings of
each other. -/
theorem derive_huffman_table_oversubscribed :
    bits_sum oversubscribed_table ≤ 0x100
    ∧ ∃ d, derive_huffman_table 1 oversubscribed_table zero_derived_tbl = some d
      ∧ (List.range 4).map (fun s => (d.code s, d.length s)) = [(0, 1), (1, 1), (2, 1), (6, 2)]
      ∧ code_word (d.code 0) (d.length 0) = [false]
      ∧ code_word (d.code 2) (d.length 2) = [false]
      ∧ code_word (d.code 1) (d.length 1) = [true]
      ∧ code_word (d.code 3) (d.length 3) = [true, false]
      ∧ ¬ words_unambiguous d := by
  refine ⟨by decide, _, rfl, by decide, by decide, by decide, by decide, by decide, ?_⟩
  intro h
  exact h 1 3 (by decide) (by decide) (by decide) (by decide) (by decide) (by decide)

/-- C5 (amended).  For every Huffman specification whose counts `BITS[1..16]` sum to at
most 256, `derive_huffman_table` returns a table in which every code length is at most
16, and if the counts also satisfy the Kraft inequality
`sum of BITS[l] * 2^(16 - l) ≤ 2^16`, no word assigned to a symbol begins the word
assigned to another symbol. -/
theorem derive_huffman_table_kraft (is_dc : Nat) (htbl : huffman_table)
    (dhtbl : derived_huffman_table) (hn : bits_sum htbl ≤ 0x100) :
    ∃ d, derive_huffman_table is_dc htbl dhtbl = some d
      ∧ (∀ s, s < 0x100 → d.length s ≠ 0 → d.length s ≤ 0x10)
      ∧ (kraft_sum htbl ≤ 2 ^ 0x10 → words_unambiguous d) := by
  obtain ⟨huffcode, _, h0, hchain, hres⟩ := derive_huffman_table_eq is_dc htbl dhtbl hn
  refine ⟨_, hres, fun s _ _ => derive_huffman_table_length_le htbl huffcode dhtbl s, ?_⟩
  intro hkraft
  exact (derive_fill_words htbl huffcode dhtbl hkraft h0 hchain).2

theorem derive_huffman_table_kraft_witness :
    bits_sum (m_dc_huff_tbls 0) ≤ 0x100 ∧ kraft_sum (m_dc_huff_tbls 0) ≤ 2 ^ 0x10
    ∧ ∃ d, derive_huffman_table 1 (m_dc_huff_tbls 0) zero_derived_tbl = some d
      ∧ (∀ s, s < 0x100 → d.length s ≠ 0 → d.length s ≤ 0x10)
      ∧ (kraft_sum (m_dc_huff_tbls 0) ≤ 2 ^ 0x10 → words_unambiguous d) :=
  ⟨by decide, by decide,
    derive_huffman_table_kraft 1 (m_dc_huff_tbls 0) zero_derived_tbl (by decide)⟩

/-- C6.  For every Huffman specification with `n`, the sum of `BITS[1..16]`, at most
256: `huffsize` lists each length `l` exactly `BITS[l]` times in increasing `l`, the
function returns, and for every symbol `s` below 256 the table has `length[s] = 0`
when `s` does not occur among `VALUES[0 .. n)`, and
`(code[s], length[s]) = (huffcode[p], huffsize[p])` for the last position `p < n` with
`VALUES[p] = s` when it does. -/
theorem derive_huffman_table_entries (is_dc : Nat) (htbl : huffman_table)
    (dhtbl : derived_huffman_table) (hn : bits_sum htbl ≤ 0x100) :
    derive_huffsize htbl
        = (List.range' 1 0x10).flatMap (fun l => List.replicate (htbl.bits l) l)
    ∧ ∃ huffcode d, derive_huffcode htbl = some huffcode
      ∧ derive_huffman_table is_dc htbl dhtbl = some d
      ∧ ∀ s, s < 0x100 →
        ((∀ p, p < bits_sum htbl → htbl.value p ≠ s) → d.length s = 0)
        ∧ (∀ p, p < bits_sum htbl → htbl.value p = s →
            (∀ q, p < q → q < bits_sum htbl → htbl.value q ≠ s) →
            d.code s = huffcode p ∧ d.length s = (derive_huffsize htbl).getD p 0) := by
  obtain ⟨huffcode, hcode, _, _, hres⟩ := derive_huffman_table_eq is_dc htbl dhtbl hn
  refine ⟨derive_huffsize_eq htbl, huffcode, _, hcode, hres, ?_⟩
  intro s _
  rcases derive_fill_cases htbl (derive_huffsize htbl ++ [0]) huffcode dhtbl s (bits_sum htbl)
    with ⟨hnone, hlen, _⟩ | ⟨p, hp, hvp, hlast, hc, hl⟩
  · exact ⟨fun _ => hlen, fun q hq hvq _ => absurd hvq (hnone q hq)⟩
  · refine ⟨fun hnone => absurd hvp (hnone p hp), ?_⟩
    intro q hq hvq hlastq
    have hpq : q = p := by
      rcases Nat.lt_trichotomy q p with h | h | h
      · exact absurd hvp (hlastq p h hp)
      · exact h
      · exact absurd hvq (hlast q h hq)
    subst hpq
    rw [hc, hl, getD_append_terminator]
    exact ⟨rfl, rfl⟩

theorem derive_huffman_table_entries_witness :
    bits_sum (m_dc_huff_tbls 1) ≤ 0x100
    ∧ (derive_huffsize (m_dc_huff_tbls 1)
        = (List.range' 1 0x10).flatMap
            (fun l => List.replicate ((m_dc_huff_tbls 1).bits l) l)
      ∧ ∃ huffcode d, derive_huffcode (m_dc_huff_tbls 1) = some huffcode
        ∧ derive_huffman_table 1 (m_dc_huff_tbls 1) zero_derived_tbl = some d
        ∧ ∀ s, s < 0x100 →
          ((∀ p, p < bits_sum (m_dc_huff_tbls 1) → (m_dc_huff_tbls 1).value p ≠ s) →
            d.length s = 0)
          ∧ (∀ p, p < bits_sum (m_dc_huff_tbls 1) → (m_dc_huff_tbls 1).value p = s →
              (∀ q, p < q → q < bits_sum (m_dc_huff_tbls 1) →
                (m_dc_huff_tbls 1).value q ≠ s) →
              d.code s = huffcode p
              ∧ d.length s = (derive_huffsize (m_dc_huff_tbls 1)).getD p 0)) :=
  ⟨by decide, derive_huffman_table_entries 1 (m_dc_huff_tbls 1) zero_derived_tbl (by decide)⟩

/-- C7.  For every specification with `n`, the sum of `BITS[1..16]`, between 1 and 256,
Figure C.2 returns, `huffcode[0] = 0`, and for every `p` with `p + 1 < n`,
`huffcode[p+1] = (huffcode[p] + 1) * 2^(huffsize[p+1] - huffsize[p])` modulo `2^32`,
whatever the number of unused lengths between `huffsize[p]` and `huffsize[p+1]`; these
are the codes that `derive_huffman_table` stores. -/
theorem derive_huffcode_is_canonical (is_dc : Nat) (htbl : huffman_table)
    (dhtbl : derived_huffman_table) (hn : bits_sum htbl ≤ 0x100) (h1 : 1 ≤ bits_sum htbl) :
    ∃ huffcode, derive_huffcode htbl = some huffcode
      ∧ huffcode 0 = 0
      ∧ (∀ p, p + 1 < bits_sum htbl →
        huffcode (p + 1)
          = ((huffcode p + 1)
              * 2 ^ ((derive_huffsize htbl).getD (p + 1) 0 - (derive_huffsize htbl).getD p 0))
            % 0x100000000)
      ∧ derive_huffman_table is_dc htbl dhtbl
          = some (derive_fill htbl (derive_huffsize htbl ++ [0]) huffcode (bits_sum htbl)
              dhtbl) := by
  obtain ⟨huffcode, hcode, h0, hchain, hres⟩ := derive_huffman_table_eq is_dc htbl dhtbl hn
  exact ⟨huffcode, hcode, h0 (by omega), hchain, hres⟩

theorem derive_huffcode_is_canonical_witness :
    bits_sum gap_table ≤ 0x100 ∧ 1 ≤ bits_sum gap_table
    ∧ derive_huffsize gap_table = [1, 3, 3]
    ∧ ∃ huffcode, derive_huffcode gap_table = some huffcode
      ∧ huffcode 0 = 0
      ∧ (∀ p, p + 1 < bits_sum gap_table →
        huffcode (p + 1)
          = ((huffcode p + 1)
              * 2 ^ ((derive_huffsize gap_table).getD (p + 1) 0
                  - (derive_huffsize gap_table).getD p 0))
            % 0x100000000)
      ∧ derive_huffman_table 0 gap_table zero_derived_tbl
          = some (derive_fill gap_table (derive_huffsize gap_table ++ [0]) huffcode
              (bits_sum gap_table) zero_derived_tbl) :=
  ⟨by decide, by decide, by decide,
    derive_huffcode_is_canonical 0 gap_table zero_derived_tbl (by decide) (by decide)⟩

/-! ### Claims C8 to C10 -/

/-- C8 (evaluation at the failing input).  With the four standard tables and one MCU
whose only non-zero coefficient is the DC 255 of the Cb block, the entropy-coded
segment is `28 A2 8A FE FF FF 03`: the `0xFF` byte that the flush of `encode_image`
writes is followed by `0xFF`, not by `0x00`. -/
theorem encode_image_scan_flush_stuffing :
    create_derived_huffman_tables.map (fun t => encode_image_scan t.1 t.2 [mcu_cb_255] 0)
      = some [0x28, 0xA2, 0x8A, 0xFE, 0xFF, 0xFF, 0x03]
    ∧ ¬ stuffing_holds [0x28, 0xA2, 0x8A, 0xFE, 0xFF, 0xFF, 0x03] := by
  refine ⟨?_, ?_⟩
  · set_option maxRecDepth 1000000 in
    decide
  · simp [stuffing_holds]

/-- C9 (evaluation at the failing input).  For the single emission of the code 1 of
size 1 the chunked writer with the flush of `encode_image` gives `FF FF` and the
reference writer `FF 00`; for the code `0xFFFF` of size 16 followed by it, `EMIT_BITS`
writes `FF 00 FF 00` as the reference does and the flush again `FF FF` for `FF 00`. -/
theorem chunked_writer_differs :
    chunked_writer [(1, 1)] 0 = [0xFF, 0xFF]
    ∧ reference_writer [(1, 1)] = [0xFF, 0x00]
    ∧ chunked_writer [(0xFFFF, 16), (1, 1)] 0 = [0xFF, 0x00, 0xFF, 0x00, 0xFF, 0xFF]
    ∧ reference_writer [(0xFFFF, 16), (1, 1)] = [0xFF, 0x00, 0xFF, 0x00, 0xFF, 0x00] := by
  refine ⟨?_, ?_, ?_, ?_⟩ <;> decide

/-- C10.  For an MCU of `short` DCs and an entry state whose three last DC values can
be subtracted on `int`, `encode_entropy` produces the output and bit buffer of
encoding Y0, Y1, Y2, Y3 with table index 0 and Cb, Cr with table index 1, in that
order, with the DC differences `Y0[0] - a`, `Y1[0] - Y0[0]`, `Y2[0] - Y1[0]`,
`Y3[0] - Y2[0]`, `Cb[0] - b`, `Cr[0] - c`, and leaves `last_dc_val = (Y3[0], Cb[0],
Cr[0])`; and the entropy loop of `encode_image`, which starts from `(0, 0, 0)`,
produces the output and bit buffer of encoding every block of the scan with its DC
minus the DC of the preceding block of the same component (0 for the first). -/
theorem encode_entropy_dc_prediction (dc ac : Nat → derived_huffman_table)
    (mcu : Nat → Nat → Int) (outputbuf : List Nat) (state : entropy_state)
    (mcus : List (Nat → Nat → Int)) (output_buffer : List Nat) (buffer : Nat)
    (hshort : ∀ i, i < 0x6 → short_ok (mcu i 0))
    (ha : int_ok (mcu 0 0 - state.last_dc_val 0))
    (hb : int_ok (mcu 4 0 - state.last_dc_val 1))
    (hc : int_ok (mcu 5 0 - state.last_dc_val 2))
    (hscan : ∀ m, m ∈ mcus → ∀ i, i < 0x6 → short_ok (m i 0)) :
    (same_emit (encode_entropy dc ac mcu outputbuf state)
        (encode_blocks dc ac
          [ { block := mcu 0, table_index := 0, diff := mcu 0 0 - state.last_dc_val 0 },
            { block := mcu 1, table_index := 0, diff := mcu 1 0 - mcu 0 0 },
            { block := mcu 2, table_index := 0, diff := mcu 2 0 - mcu 1 0 },
            { block := mcu 3, table_index := 0, diff := mcu 3 0 - mcu 2 0 },
            { block := mcu 4, table_index := 1, diff := mcu 4 0 - state.last_dc_val 1 },
            { block := mcu 5, table_index := 1, diff := mcu 5 0 - state.last_dc_val 2 } ]
          outputbuf state)
      ∧ (encode_entropy dc ac mcu outputbuf state).2.last_dc_val 0 = mcu 3 0
      ∧ (encode_entropy dc ac mcu outputbuf state).2.last_dc_val 1 = mcu 4 0
      ∧ (encode_entropy dc ac mcu outputbuf state).2.last_dc_val 2 = mcu 5 0)
    ∧ same_emit (encode_image_entropy dc ac mcus output_buffer buffer)
        (encode_blocks dc ac (scan_calls mcus) output_buffer
          { buffer := buffer, bits := 0, last_dc_val := fun _ => 0 }) := by
  refine ⟨?_, ?_⟩
  · exact encode_entropy_chain dc ac mcu (outputbuf, state) (outputbuf, state)
      (same_emit_refl _) hshort ha hb hc
  · have hz : short_ok (0 : Int) := by unfold short_ok; omega
    have h := encode_image_entropy_chain dc ac mcus
      (output_buffer, { buffer := buffer, bits := 0, last_dc_val := fun _ => 0 })
      (output_buffer, { buffer := buffer, bits := 0, last_dc_val := fun _ => 0 })
      (same_emit_refl _) hscan hz hz hz
    rw [calls_from_eq_scan_calls_from, scan_calls_from_zero] at h
    exact h

theorem encode_entropy_dc_prediction_witness :
    (∀ i, i < 0x6 → short_ok (mcu_sample i 0))
    ∧ int_ok (mcu_sample 0 0 - zero_entropy_state.last_dc_val 0)
    ∧ int_ok (mcu_sample 4 0 - zero_entropy_state.last_dc_val 1)
    ∧ int_ok (mcu_sample 5 0 - zero_entropy_state.last_dc_val 2)
    ∧ (∀ m, m ∈ [mcu_sample, mcu_cb_255] → ∀ i, i < 0x6 → short_ok (m i 0))
    ∧ ((same_emit
          (encode_entropy (fun _ => zero_derived_tbl) (fun _ => zero_derived_tbl) mcu_sample []
            zero_entropy_state)
          (encode_blocks (fun _ => zero_derived_tbl) (fun _ => zero_derived_tbl)
            [ { block := mcu_sample 0, table_index := 0,
                diff := mcu_sample 0 0 - zero_entropy_state.last_dc_val 0 },
              { block := mcu_sample 1, table_index := 0,
                diff := mcu_sample 1 0 - mcu_sample 0 0 },
              { block := mcu_sample 2, table_index := 0,
                diff := mcu_sample 2 0 - mcu_sample 1 0 },
              { block := mcu_sample 3, table_index := 0,
                diff := mcu_sample 3 0 - mcu_sample 2 0 },
              { block := mcu_sample 4, table_index := 1,
                diff := mcu_sample 4 0 - zero_entropy_state.last_dc_val 1 },
              { block := mcu_sample 5, table_index := 1,
                diff := mcu_sample 5 0 - zero_entropy_state.last_dc_val 2 } ]
            [] zero_entropy_state)
        ∧ (encode_entropy (fun _ => zero_derived_tbl) (fun _ => zero_derived_tbl) mcu_sample []
            zero_entropy_state).2.last_dc_val 0 = mcu_sample 3 0
        ∧ (encode_entropy (fun _ => zero_derived_tbl) (fun _ => zero_derived_tbl) mcu_sample []
            zero_entropy_state).2.last_dc_val 1 = mcu_sample 4 0
        ∧ (encode_entropy (fun _ => zero_derived_tbl) (fun _ => zero_derived_tbl) mcu_sample []
            zero_entropy_state).2.last_dc_val 2 = mcu_sample 5 0)
      ∧ same_emit
          (encode_image_entropy (fun _ => zero_derived_tbl) (fun _ => zero_derived_tbl)
            [mcu_sample, mcu_cb_255] [] 0)
          (encode_blocks (fun _ => zero_derived_tbl) (fun _ => zero_derived_tbl)
            (scan_calls [mcu_sample, mcu_cb_255]) []
            { buffer := 0, bits := 0, last_dc_val := fun _ => 0 })) := by
  have hcb : ∀ i, i < 0x6 → short_ok (mcu_cb_255 i 0) := by
    intro i _
    unfold short_ok mcu_cb_255
    split_ifs <;> decide
  have hscan : ∀ m, m ∈ [mcu_sample, mcu_cb_255] → ∀ i, i < 0x6 → short_ok (m i 0) := by
    intro m hm i hi
    rcases List.mem_cons.mp hm with h | h
    · subst h; exact mcu_sample_short i hi
    · rw [List.mem_singleton] at h
      subst h; exact hcb i hi
  have ha : int_ok (mcu_sample 0 0 - zero_entropy_state.last_dc_val 0) := by
    unfold int_ok; decide
  have hb : int_ok (mcu_sample 4 0 - zero_entropy_state.last_dc_val 1) := by
    unfold int_ok; decide
  have hc : int_ok (mcu_sample 5 0 - zero_entropy_state.last_dc_val 2) := by
    unfold int_ok; decide
  exact ⟨mcu_sample_short, ha, hb, hc, hscan,
    encode_entropy_dc_prediction (fun _ => zero_derived_tbl) (fun _ => zero_derived_tbl)
      mcu_sample [] zero_entropy_state [mcu_sample, mcu_cb_255] [] 0
      mcu_sample_short ha hb hc hscan⟩

/-! ## Claims on the emissions of one block -/

/-- C11: for every DC difference `diff` in [-65535, 65535], with `n` the bit length of
`|diff|`, `encode_entropy_single_block` first emits the code of the entry `n` of the
DC table and then `n` bits of the value `m`, with `m = diff` for `diff ≥ 0` and
`m = diff + 2^n - 1` for `diff < 0`, before its run-length part; `n = 0` for
`diff = 0`, `0 ≤ m < 2^n`, for `n ≥ 1` the top bit of `m` (the bit `2^(n-1)`) is set
iff `diff > 0`, and for `n = 0` the `PUT_BITS` of the magnitude leaves the bit buffer
and the bit count as they are. -/
theorem encode_block_emit_dc_magnitude (dcd acd : derived_huffman_table) (block : Nat → Int)
    (diff : Int) (s : emit_state) (h1 : -65535 ≤ diff) (h2 : diff ≤ 65535) :
    encode_block_emit dcd acd block diff s
        = encode_block_ac acd block
            (EMIT_BITS (if 0 ≤ diff then diff else diff + 2 ^ Nat.size diff.natAbs - 1)
              (Nat.size diff.natAbs)
              (EMIT_BITS (to_int (dcd.code (Nat.size diff.natAbs)))
                (dcd.length (Nat.size diff.natAbs)) s))
    ∧ (diff = 0 → Nat.size diff.natAbs = 0)
    ∧ 0 ≤ (if 0 ≤ diff then diff else diff + 2 ^ Nat.size diff.natAbs - 1)
    ∧ (if 0 ≤ diff then diff else diff + 2 ^ Nat.size diff.natAbs - 1)
        < 2 ^ Nat.size diff.natAbs
    ∧ (1 ≤ Nat.size diff.natAbs →
        ((2 : Int) ^ (Nat.size diff.natAbs - 1)
            ≤ (if 0 ≤ diff then diff else diff + 2 ^ Nat.size diff.natAbs - 1)
          ↔ 0 < diff))
    ∧ (Nat.size diff.natAbs = 0 →
        PUT_BITS (if 0 ≤ diff then diff else diff + 2 ^ Nat.size diff.natAbs - 1)
            (Nat.size diff.natAbs)
            (EMIT_BITS (to_int (dcd.code (Nat.size diff.natAbs)))
              (dcd.length (Nat.size diff.natAbs)) s)
          = EMIT_BITS (to_int (dcd.code (Nat.size diff.natAbs)))
              (dcd.length (Nat.size diff.natAbs)) s) := by
  obtain ⟨hP1, hP2, hlt, hgt, hhalf, hpos, hle⟩ := size_pow_bounds diff h1 h2
  have hm : (if 0 ≤ diff then diff else diff + 2 ^ Nat.size diff.natAbs - 1)
      = magnitude_value diff (Nat.size diff.natAbs) := by
    unfold magnitude_value
    by_cases hx : 0 ≤ diff
    · rw [if_pos hx]
      by_cases h0 : diff > 0
      · rw [if_pos h0]
      · rw [if_neg h0]
        have hd : diff = 0 := by omega
        subst hd
        simp
    · rw [if_neg hx, if_neg (by omega)]
  refine ⟨?_, ?_, ?_, ?_, ?_, ?_⟩
  · rw [encode_block_emit_eq, hm]
    unfold dc_trace
    rw [sign_nbits_size diff h1 h2, dc_magnitude_eq diff h1 h2]
    rfl
  · intro hd
    subst hd
    simp
  · by_cases hx : 0 ≤ diff
    · rw [if_pos hx]
      exact hx
    · rw [if_neg hx]
      omega
  · by_cases hx : 0 ≤ diff
    · rw [if_pos hx]
      exact hlt
    · rw [if_neg hx]
      omega
  · intro hn
    have h4 : (2 : Int) ^ Nat.size diff.natAbs = 2 * 2 ^ (Nat.size diff.natAbs - 1) := by
      rw [← pow_succ']
      congr 1
      omega
    have hd : diff ≠ 0 := by
      intro hd
      subst hd
      simp at hn
    have hh := hhalf hd
    by_cases hx : 0 ≤ diff
    · rw [if_pos hx]
      constructor
      · intro _
        omega
      · intro _
        omega
    · rw [if_neg hx]
      constructor
      · intro _
        omega
      · intro _
        omega
  · intro hn
    have hd : diff = 0 := by
      by_contra hd
      have := hpos hd
      omega
    subst hd
    rw [hn]
    exact PUT_BITS_zero _ (EMIT_BITS_put_buffer_lt _ _ _)

/-- Witness of C11 at the difference -5 (three bits, value 2) with zeroed tables and
an empty bit buffer. -/
theorem encode_block_emit_dc_magnitude_witness :
    (-65535 ≤ (-5 : Int) ∧ (-5 : Int) ≤ 65535)
    ∧ (encode_block_emit zero_derived_tbl zero_derived_tbl (fun _ => 0) (-5)
          { put_buffer := 0, put_bits := 0, outputbuf := [] }
        = encode_block_ac zero_derived_tbl (fun _ => 0)
            (EMIT_BITS
              (if 0 ≤ (-5 : Int) then -5 else -5 + 2 ^ Nat.size (-5 : Int).natAbs - 1)
              (Nat.size (-5 : Int).natAbs)
              (EMIT_BITS (to_int (zero_derived_tbl.code (Nat.size (-5 : Int).natAbs)))
                (zero_derived_tbl.length (Nat.size (-5 : Int).natAbs))
                { put_buffer := 0, put_bits := 0, outputbuf := [] }))) :=
  ⟨by decide,
    (encode_block_emit_dc_magnitude zero_derived_tbl zero_derived_tbl (fun _ => 0) (-5)
      { put_buffer := 0, put_bits := 0, outputbuf := [] } (by decide) (by decide)).1⟩

/-- C12 (counterexample).  With the table that gives the AC entries `0x10`, `0x20`,
`0x00` the codes `00`, `01`, `10`, and the block whose only non-zero coefficient is
-32768 at position 8, after one zero at position 1, the 63 `kloop` calls write the
bytes `5F FF 00`: the code `01` of the entry `(1 << 4) + 16 = 0x20` and the 16 bits
`0x7FFF`.  The items of the specification, with the symbol `(1 << 4) | 16 = 0x10`,
give the bytes `1F FF 00`. -/
theorem kloop_min_short_symbol :
    (derive_huffman_table 0 run_table zero_derived_tbl).map
        (fun t => (kloop_order.foldl (fun rs k => kloop t block_min_short k rs)
          (0, empty_emit_state)).2.outputbuf)
      = some [0x5F, 0xFF, 0x00]
    ∧ (derive_huffman_table 0 run_table zero_derived_tbl).map
        (fun t => (emit_sequence
          ((walk_items block_min_short kloop_order 0).map (emitted_bits t t))
          empty_emit_state).outputbuf)
      = some [0x1F, 0xFF, 0x00] := by
  have hsize : Nat.size (-32768 : Int).natAbs = 16 := by
    have h : (-32768 : Int).natAbs = 2 ^ 15 := by decide
    rw [h, Nat.size_pow]
  have hsplit : kloop_order = [1, 8] ++ kloop_order.drop 2 := by decide
  have hzero : ∀ k, k ∈ kloop_order.drop 2 → block_min_short k = 0 := by decide
  have htrace : (walk_trace block_min_short kloop_order).2
      = [emitted.ac_symbol 0x20, emitted.magnitude 32767 16] := by
    rw [hsplit, walk_trace_trailing block_min_short _ _ hzero]
    unfold walk_trace
    rw [List.foldl_cons, List.foldl_cons, List.foldl_nil,
      kloop_trace_min_short block_min_short 8 _ (by decide)]
    decide
  have hitems : walk_items block_min_short kloop_order 0
      = [emitted.ac_symbol 0x10, emitted.magnitude 32767 16] := by
    have hrest : ∀ (order : List Nat) (r : Nat), (∀ k, k ∈ order → block_min_short k = 0) →
        walk_items block_min_short order r = [] := by
      intro order
      induction order with
      | nil => intro r _; rfl
      | cons k order ih =>
        intro r h
        rw [walk_items_cons_zero _ _ _ _ (h k (List.mem_cons_self _ _))]
        exact ih _ (fun j hj => h j (List.mem_cons_of_mem _ hj))
    rw [hsplit]
    show walk_items block_min_short (1 :: 8 :: kloop_order.drop 2) 0 = _
    rw [walk_items_cons_zero _ _ _ _ (by decide),
      walk_items_cons_coefficient _ _ _ _ (by decide), hrest _ _ hzero]
    unfold coefficient_items
    have hv : block_min_short 8 = -32768 := by decide
    rw [hv, hsize]
    decide
  have hcode : ∀ t : derived_huffman_table,
      (kloop_order.foldl (fun rs k => kloop t block_min_short k rs)
          (0, empty_emit_state)).2.outputbuf
        = (emit_sequence
            ([emitted.ac_symbol 0x20, emitted.magnitude 32767 16].map (emitted_bits t t))
            empty_emit_state).outputbuf := by
    intro t
    rw [kloop_walk_eq_trace t t, htrace]
  simp only [hcode, hitems]
  refine ⟨?_, ?_⟩
  · set_option maxRecDepth 100000 in
    decide
  · set_option maxRecDepth 100000 in
    decide

/-- C12 (amended): for every block whose AC coefficients lie in [-32767, 32767], the 63
`kloop` calls of `encode_entropy_single_block`, which walk the AC positions in zig-zag
order from the run length 0, emit the items of the walk of the specification: nothing
for a zero coefficient, and for a non-zero coefficient `v` after a run of `r` zeros
`r / 16` times the code of ZRL (`0xF0`), the code of the AC symbol
`((r mod 16) << 4) | n` with `n` the bit length of `|v|`, and `n` bits of the value `v`
for `v > 0` and `v + 2^n - 1` for `v < 0`. -/
theorem kloop_walk_run_length (dcd acd : derived_huffman_table) (block : Nat → Int)
    (s : emit_state) (h : ∀ k, k ∈ kloop_order → -32767 ≤ block k ∧ block k ≤ 32767) :
    (kloop_order.foldl (fun rs k => kloop acd block k rs) (0, s)).2
      = emit_sequence ((walk_items block kloop_order 0).map (emitted_bits dcd acd)) s := by
  rw [kloop_walk_eq_trace dcd acd block s]
  unfold walk_trace
  rw [kloop_trace_foldl_items block kloop_order (0, []) h]
  rfl

/-- Witness of C12 at a block with the coefficients 5, -3 and 1 at the positions 1, 2
and 35, with zeroed tables. -/
theorem kloop_walk_run_length_witness :
    (∀ k, k ∈ kloop_order → -32767 ≤ block_sample k ∧ block_sample k ≤ 32767)
    ∧ (kloop_order.foldl (fun rs k => kloop zero_derived_tbl block_sample k rs)
          (0, empty_emit_state)).2
      = emit_sequence
          ((walk_items block_sample kloop_order 0).map
            (emitted_bits zero_derived_tbl zero_derived_tbl))
          empty_emit_state :=
  ⟨by decide,
    kloop_walk_run_length zero_derived_tbl zero_derived_tbl block_sample empty_emit_state
      (by decide)⟩

/-- C13: for every block of `short` coefficients, the run-length part of
`encode_entropy_single_block` emits the emissions of its 63 `kloop` calls and then, if
the coefficient at natural index 63 is zero, the code of EOB (the entry `0x00` of the
AC table) as its last emission, and no EOB if that coefficient is non-zero; no `kloop`
call emits the entry `0x00`, so EOB is emitted at most once; the zero coefficients
that end the walk add nothing to the emissions, whatever their number, so no ZRL is
emitted for them; and a block whose 63 AC coefficients are all zero emits the two
emissions of its DC difference and one EOB. -/
theorem encode_block_ac_end_of_block (dcd acd : derived_huffman_table) (block : Nat → Int)
    (diff : Int) (s : emit_state) (h : ∀ k, k ∈ kloop_order → short_ok (block k)) :
    encode_block_ac acd block s
        = emit_sequence ((ac_trace block).map (emitted_bits dcd acd)) s
    ∧ (block 63 = 0 →
        ac_trace block = (walk_trace block kloop_order).2 ++ [emitted.ac_symbol 0x00])
    ∧ (block 63 ≠ 0 → ac_trace block = (walk_trace block kloop_order).2)
    ∧ (∀ e, e ∈ (walk_trace block kloop_order).2 → e ≠ emitted.ac_symbol 0x00)
    ∧ (∀ pre post, kloop_order = pre ++ post → (∀ k, k ∈ post → block k = 0) →
        (walk_trace block kloop_order).2 = (walk_trace block pre).2)
    ∧ ((∀ k, k ∈ kloop_order → block k = 0) →
        ac_trace block = [emitted.ac_symbol 0x00]
        ∧ encode_block_emit dcd acd block diff s
            = emit_sequence
                ((dc_trace diff ++ [emitted.ac_symbol 0x00]).map (emitted_bits dcd acd)) s) := by
  have hpos : block 63 = 0 →
      ac_trace block = (walk_trace block kloop_order).2 ++ [emitted.ac_symbol 0x00] := by
    intro h0
    unfold ac_trace
    simp only
    rw [if_pos ((walk_trace_run block).mpr h0)]
  have hall : (∀ k, k ∈ kloop_order → block k = 0) →
      ac_trace block = [emitted.ac_symbol 0x00] := by
    intro hz
    rw [hpos (hz 63 (by decide))]
    have := walk_trace_trailing block [] kloop_order hz
    rw [List.nil_append] at this
    rw [this]
    rfl
  refine ⟨encode_block_ac_eq_trace dcd acd block s, hpos, ?_, ?_, ?_, ?_⟩
  · intro h0
    unfold ac_trace
    simp only
    rw [if_neg (fun hc => h0 ((walk_trace_run block).mp hc))]
  · exact kloop_trace_foldl_no_eob block kloop_order (0, []) h (by simp)
  · intro pre post hsplit hz
    rw [hsplit]
    exact walk_trace_trailing block pre post hz
  · intro hz
    refine ⟨hall hz, ?_⟩
    rw [encode_block_emit_eq_trace]
    unfold block_trace
    rw [hall hz]

/-- Witness of C13 at the block with the coefficients 5, -3 and 1 at the positions 1, 2
and 35, whose coefficient at 63 is zero, with zeroed tables. -/
theorem encode_block_ac_end_of_block_witness :
    (∀ k, k ∈ kloop_order → short_ok (block_sample k))
    ∧ block_sample 63 = 0
    ∧ ac_trace block_sample
        = (walk_trace block_sample kloop_order).2 ++ [emitted.ac_symbol 0x00] :=
  ⟨by unfold short_ok; decide, by decide,
    (encode_block_ac_end_of_block zero_derived_tbl zero_derived_tbl block_sample 7
      empty_emit_state (by unfold short_ok; decide)).2.1 (by decide)⟩

/-! ## Claims on the flush -/

/-- C14: for every entropy state with `k = bits ≤ 15` pending bits the flush of
`encode_image` appends the data bytes whose bits are the `k` pending bits, most
significant bit first, followed by 1-bits up to the byte boundary (fewer than 8), each
data byte `0xFF` followed by the one byte that the flush pushes behind it; there are
`(k + 7) / 8` data bytes, and for `k = 0` nothing is appended.  So for MCUs of `short`
coefficients and tables whose codes fit their lengths of at most 16 bits, the
entropy-coded segment consists of data bytes, `data1` written by the entropy loop and
`data2` by the flush, whose bits are the bits of all emissions of the scan followed by
1-bits up to the byte boundary, `(total bits + 7) / 8` data bytes in all. -/
theorem encode_image_flush_pads (output_buffer : List Nat) (state : entropy_state)
    (dc ac : Nat → derived_huffman_table) (mcus : List (Nat → Nat → Int)) (buffer : Nat)
    (hk : state.bits ≤ 15) (htab : tables_fit dc ac) (hs : mcus_short mcus) :
    (encode_image_flush output_buffer state
        = output_buffer ++ flush_bytes (bytes_of_bits
            (code_word state.buffer state.bits ++ List.replicate (pad_bits state.bits) true))
      ∧ bits_of_bytes (bytes_of_bits
            (code_word state.buffer state.bits ++ List.replicate (pad_bits state.bits) true))
          = code_word state.buffer state.bits ++ List.replicate (pad_bits state.bits) true
      ∧ (bytes_of_bits
            (code_word state.buffer state.bits
              ++ List.replicate (pad_bits state.bits) true)).length
          = (state.bits + 7) / 8
      ∧ pad_bits state.bits < 8
      ∧ (state.bits = 0 → encode_image_flush output_buffer state = output_buffer))
    ∧ ∃ data1 data2,
        (encode_image_entropy dc ac mcus [] buffer).1 = stuff_bytes data1
        ∧ encode_image_scan dc ac mcus buffer = stuff_bytes data1 ++ flush_bytes data2
        ∧ bits_of_bytes (data1 ++ data2)
            = emission_bits (calls_emissions dc ac (scan_calls mcus))
              ++ List.replicate
                (pad_bits (emission_bits (calls_emissions dc ac (scan_calls mcus))).length)
                true
        ∧ (data1 ++ data2).length
            = ((emission_bits (calls_emissions dc ac (scan_calls mcus))).length + 7) / 8 := by
  obtain ⟨hp1, hp2, hp3⟩ := pad_bits_lt state.bits
  have hlen : (code_word state.buffer state.bits
      ++ List.replicate (pad_bits state.bits) true).length = 8 * ((state.bits + 7) / 8) := by
    rw [List.length_append, code_word_length, List.length_replicate]
    omega
  refine ⟨⟨encode_image_flush_eq output_buffer state hk,
    bits_of_bytes_of_bits _ _ hlen, ?_, hp1, ?_⟩,
    encode_image_scan_bytes dc ac mcus buffer htab hs⟩
  · rw [bytes_of_bits_length, hlen]
    omega
  · intro h0
    rw [encode_image_flush_eq output_buffer state hk, h0]
    have : bytes_of_bits (code_word state.buffer 0 ++ List.replicate (pad_bits 0) true)
        = [] := by
      apply bytes_of_bits_short
      rw [List.length_append, code_word_length, List.length_replicate]
      decide
    rw [this]
    unfold flush_bytes
    simp

/-- Witness of C14 at the state with the three pending bits `101`, for which the
flush appends the one byte `0xBF`, and the scan of one MCU with zeroed tables. -/
theorem encode_image_flush_pads_witness :
    ((3 : Nat) ≤ 15 ∧ tables_fit (fun _ => zero_derived_tbl) (fun _ => zero_derived_tbl)
      ∧ mcus_short [mcu_cb_255])
    ∧ encode_image_flush [] { buffer := 5, bits := 3, last_dc_val := fun _ => 0 }
        = [] ++ flush_bytes (bytes_of_bits
            (code_word 5 3 ++ List.replicate (pad_bits 3) true))
    ∧ flush_bytes (bytes_of_bits (code_word 5 3 ++ List.replicate (pad_bits 3) true)) = [0xBF] :=
  ⟨⟨by decide, tables_fit_zero, mcus_short_cb_255⟩,
    (encode_image_flush_pads [] { buffer := 5, bits := 3, last_dc_val := fun _ => 0 }
      (fun _ => zero_derived_tbl) (fun _ => zero_derived_tbl) [mcu_cb_255] 0 (by decide)
      tables_fit_zero mcus_short_cb_255).1.1,
    by decide⟩

/-! ### Claims C15 to C19 -/

/-- C15.  `write_file_header` appends exactly the 20 bytes
`FF D8 FF E0 00 10 4A 46 49 46 00 01 01 00 00 01 00 01 00 00` to the output buffer and
leaves the bytes already in it unchanged; it reads no member of the encoder. -/
theorem write_file_header_bytes (output : List Nat) :
    write_file_header output
      = output ++ [0xFF, 0xD8, 0xFF, 0xE0, 0x00, 0x10, 0x4A, 0x46, 0x49, 0x46, 0x00, 0x01,
          0x01, 0x00, 0x00, 0x01, 0x00, 0x01, 0x00, 0x00]
    ∧ (write_file_header output).length = output.length + 20 := by
  have h := write_file_header_eq output
  refine ⟨h, ?_⟩
  rw [h, List.length_append]
  rfl

/-- C16.  For a table index 0 or 1 and a quantisation table of bytes,
`write_quant_table` appends exactly 69 bytes: `FF DB 00 43`, the index, then 64 bytes of
which the `i`-th is `value[jpeg_natural_order[i]]` of that table; the length field
`0x0043` is the number of bytes after the marker. -/
theorem write_quant_table_bytes (m_quant_tbls : quant_tbls) (jpeg_natural_order : Nat → Nat)
    (output_buf : List Nat) (index : Nat) (hidx : index < 2)
    (hval : ∀ i, i < 0x40 → m_quant_tbls index (jpeg_natural_order i) < 0x100) :
    write_quant_table m_quant_tbls jpeg_natural_order output_buf index
      = output_buf ++ ([0xFF, 0xDB, 0x00, 0x43, index]
          ++ (List.range 0x40).map (fun i => m_quant_tbls index (jpeg_natural_order i)))
    ∧ ([0xFF, 0xDB, 0x00, 0x43, index]
          ++ (List.range 0x40).map (fun i => m_quant_tbls index (jpeg_natural_order i))).length
        = 69
    ∧ 0x00 * 256 + 0x43 = 69 - 2 := by
  refine ⟨write_quant_table_eq m_quant_tbls jpeg_natural_order output_buf index hidx hval,
    dqt_bytes_length m_quant_tbls jpeg_natural_order index, by decide⟩

theorem write_quant_table_bytes_witness :
    (1 : Nat) < 2
    ∧ (∀ i, i < 0x40 →
        (fun _ k => std_chrominance_quant_tbl k : quant_tbls) 1 (jpeg_natural_order i) < 0x100)
    ∧ (write_quant_table (fun _ k => std_chrominance_quant_tbl k) jpeg_natural_order [0xAA] 1
        = [0xAA] ++ ([0xFF, 0xDB, 0x00, 0x43, 1]
            ++ (List.range 0x40).map
              (fun i => (fun _ k => std_chrominance_quant_tbl k : quant_tbls) 1
                (jpeg_natural_order i)))
      ∧ ([0xFF, 0xDB, 0x00, 0x43, 1]
            ++ (List.range 0x40).map
              (fun i => (fun _ k => std_chrominance_quant_tbl k : quant_tbls) 1
                (jpeg_natural_order i))).length = 69
      ∧ 0x00 * 256 + 0x43 = 69 - 2) :=
  ⟨by decide, by decide,
    write_quant_table_bytes (fun _ k => std_chrominance_quant_tbl k) jpeg_natural_order [0xAA] 1
      (by decide) (by decide)⟩

/-- C17.  For a width and a height of at most 65535, `write_sof` appends exactly the 19
bytes `FF C0 00 11 08`, `h / 256`, `h % 256`, `w / 256`, `w % 256`,
`03 01 22 00 02 11 01 03 11 01`, and the height and the width are the big-endian 16-bit
values of bytes 5, 6 and 7, 8. -/
theorem write_sof_bytes (output_buf : List Nat) (w h : Nat) (hw : w ≤ 65535) (hh : h ≤ 65535) :
    write_sof output_buf w h
      = output_buf ++ [0xFF, 0xC0, 0x00, 0x11, 0x08, h / 256, h % 256, w / 256, w % 256,
          0x03, 0x01, 0x22, 0x00, 0x02, 0x11, 0x01, 0x03, 0x11, 0x01]
    ∧ (h / 256 < 256 ∧ h % 256 < 256 ∧ (h / 256) * 256 + h % 256 = h)
    ∧ (w / 256 < 256 ∧ w % 256 < 256 ∧ (w / 256) * 256 + w % 256 = w) := by
  refine ⟨write_sof_eq output_buf w h (by omega) (by omega), ?_, ?_⟩ <;> omega

theorem write_sof_bytes_witness :
    (1920 : Nat) ≤ 65535 ∧ (1080 : Nat) ≤ 65535
    ∧ (write_sof [] 1920 1080
        = [] ++ [0xFF, 0xC0, 0x00, 0x11, 0x08, 1080 / 256, 1080 % 256, 1920 / 256, 1920 % 256,
            0x03, 0x01, 0x22, 0x00, 0x02, 0x11, 0x01, 0x03, 0x11, 0x01]
      ∧ (1080 / 256 < 256 ∧ 1080 % 256 < 256 ∧ (1080 / 256) * 256 + 1080 % 256 = 1080)
      ∧ (1920 / 256 < 256 ∧ 1920 % 256 < 256 ∧ (1920 / 256) * 256 + 1920 % 256 = 1920)) :=
  ⟨by decide, by decide, write_sof_bytes [] 1920 1080 (by decide) (by decide)⟩

/-- C18.  For a table index `t` and a flag `is_ac`, each 0 or 1, and a stored Huffman
specification of bytes whose counts `BITS[1..16]` sum to `n ≤ 256`,
`write_huffman_table` appends exactly `21 + n` bytes: `FF C4`, the big-endian 16-bit
length `19 + n`, the byte `(is_ac << 4) | t`, the 16 counts, then `VALUES[0 .. n)`; the
length field is the number of bytes after the marker. -/
theorem write_huffman_table_bytes (dc_huff_tbls ac_huff_tbls : Nat → huffman_table)
    (output_buf : List Nat) (t is_ac : Nat) (ht : t < 2) (hac : is_ac < 2)
    (hn : bits_sum (if is_ac ≠ 0 then ac_huff_tbls t else dc_huff_tbls t) ≤ 0x100)
    (hbits : ∀ i, 1 ≤ i → i ≤ 0x10 →
      (if is_ac ≠ 0 then ac_huff_tbls t else dc_huff_tbls t).bits i < 0x100)
    (hvalue : ∀ p, p < bits_sum (if is_ac ≠ 0 then ac_huff_tbls t else dc_huff_tbls t) →
      (if is_ac ≠ 0 then ac_huff_tbls t else dc_huff_tbls t).value p < 0x100) :
    write_huffman_table dc_huff_tbls ac_huff_tbls output_buf t is_ac
      = output_buf
        ++ ([0xFF, 0xC4,
              (19 + bits_sum (if is_ac ≠ 0 then ac_huff_tbls t else dc_huff_tbls t)) / 256,
              (19 + bits_sum (if is_ac ≠ 0 then ac_huff_tbls t else dc_huff_tbls t)) % 256,
              (is_ac <<< 4) ||| t]
            ++ (List.range' 1 0x10).map
                (if is_ac ≠ 0 then ac_huff_tbls t else dc_huff_tbls t).bits
            ++ (List.range (bits_sum (if is_ac ≠ 0 then ac_huff_tbls t else dc_huff_tbls t))).map
                (if is_ac ≠ 0 then ac_huff_tbls t else dc_huff_tbls t).value)
    ∧ (write_huffman_table dc_huff_tbls ac_huff_tbls output_buf t is_ac).length
        = output_buf.length
          + (21 + bits_sum (if is_ac ≠ 0 then ac_huff_tbls t else dc_huff_tbls t))
    ∧ ((19 + bits_sum (if is_ac ≠ 0 then ac_huff_tbls t else dc_huff_tbls t)) / 256) * 256
          + (19 + bits_sum (if is_ac ≠ 0 then ac_huff_tbls t else dc_huff_tbls t)) % 256
        = (21 + bits_sum (if is_ac ≠ 0 then ac_huff_tbls t else dc_huff_tbls t)) - 2 := by
  have h := write_huffman_table_eq dc_huff_tbls ac_huff_tbls output_buf t is_ac ht hac hn
    hbits hvalue
  refine ⟨h, ?_, by omega⟩
  rw [h, List.length_append, dht_bytes_length]

theorem write_huffman_table_bytes_witness :
    (1 : Nat) < 2 ∧ (1 : Nat) < 2
    ∧ bits_sum (if (1 : Nat) ≠ 0 then m_ac_huff_tbls 1 else m_dc_huff_tbls 1) ≤ 0x100
    ∧ (∀ i, 1 ≤ i → i ≤ 0x10 → (if (1 : Nat) ≠ 0 then m_ac_huff_tbls 1 else m_dc_huff_tbls 1).bits i < 0x100)
    ∧ (∀ p, p < bits_sum (if (1 : Nat) ≠ 0 then m_ac_huff_tbls 1 else m_dc_huff_tbls 1) → (if (1 : Nat) ≠ 0 then m_ac_huff_tbls 1 else m_dc_huff_tbls 1).value p < 0x100)
    ∧ (write_huffman_table m_dc_huff_tbls m_ac_huff_tbls [0xAA] 1 1
        = [0xAA]
          ++ ([0xFF, 0xC4, (19 + bits_sum (if (1 : Nat) ≠ 0 then m_ac_huff_tbls 1 else m_dc_huff_tbls 1)) / 256, (19 + bits_sum (if (1 : Nat) ≠ 0 then m_ac_huff_tbls 1 else m_dc_huff_tbls 1)) % 256,
                ((1 : Nat) <<< 4) ||| 1]
              ++ (List.range' 1 0x10).map (if (1 : Nat) ≠ 0 then m_ac_huff_tbls 1 else m_dc_huff_tbls 1).bits
              ++ (List.range (bits_sum (if (1 : Nat) ≠ 0 then m_ac_huff_tbls 1 else m_dc_huff_tbls 1))).map (if (1 : Nat) ≠ 0 then m_ac_huff_tbls 1 else m_dc_huff_tbls 1).value)
      ∧ (write_huffman_table m_dc_huff_tbls m_ac_huff_tbls [0xAA] 1 1).length
          = [0xAA].length + (21 + bits_sum (if (1 : Nat) ≠ 0 then m_ac_huff_tbls 1 else m_dc_huff_tbls 1))
      ∧ ((19 + bits_sum (if (1 : Nat) ≠ 0 then m_ac_huff_tbls 1 else m_dc_huff_tbls 1)) / 256) * 256 + (19 + bits_sum (if (1 : Nat) ≠ 0 then m_ac_huff_tbls 1 else m_dc_huff_tbls 1)) % 256
          = (21 + bits_sum (if (1 : Nat) ≠ 0 then m_ac_huff_tbls 1 else m_dc_huff_tbls 1)) - 2) :=
  ⟨by decide, by decide, by decide, fun i h1 h2 => m_ac_huff_tbls_bytes.1 i h1 h2,
    fun p hp => m_ac_huff_tbls_bytes.2 p hp,
    write_huffman_table_bytes m_dc_huff_tbls m_ac_huff_tbls [0xAA] 1 1 (by decide)
      (by decide) (by decide) (fun i h1 h2 => m_ac_huff_tbls_bytes.1 i h1 h2)
      (fun p hp => m_ac_huff_tbls_bytes.2 p hp)⟩

/-- C19.  The header that `encode_image` writes before the scan is, in this order and
with nothing in between, what `write_file_header`, `write_quant_table` for index 0 and
for index 1, `write_sof`, `write_huffman_table` for DC 0, AC 0, DC 1, AC 1 write, and
then the 14 bytes `FF DA 00 0C 03 01 00 02 11 03 11 00 3F 00`; its length is
`20 + 69 + 69 + 19 + (4 * 21 + the sum of the counts of the four tables) + 14`. -/
theorem encode_image_headers_layout (m_quant_tbls : quant_tbls)
    (jpeg_natural_order : Nat → Nat) (dc_huff_tbls ac_huff_tbls : Nat → huffman_table)
    (width height : Nat) :
    encode_image_headers m_quant_tbls jpeg_natural_order dc_huff_tbls ac_huff_tbls width height
      = write_file_header []
        ++ write_quant_table m_quant_tbls jpeg_natural_order [] 0
        ++ write_quant_table m_quant_tbls jpeg_natural_order [] 1
        ++ write_sof [] width height
        ++ write_huffman_table dc_huff_tbls ac_huff_tbls [] 0 0
        ++ write_huffman_table dc_huff_tbls ac_huff_tbls [] 0 1
        ++ write_huffman_table dc_huff_tbls ac_huff_tbls [] 1 0
        ++ write_huffman_table dc_huff_tbls ac_huff_tbls [] 1 1
        ++ [0xFF, 0xDA, 0x00, 0x0C, 0x03, 0x01, 0x00, 0x02, 0x11, 0x03, 0x11, 0x00, 0x3F, 0x00]
    ∧ (encode_image_headers m_quant_tbls jpeg_natural_order dc_huff_tbls ac_huff_tbls width
          height).length
        = 20 + 69 + 69 + 19
          + (4 * 21 + (bits_sum (dc_huff_tbls 0) + bits_sum (ac_huff_tbls 0)
              + bits_sum (dc_huff_tbls 1) + bits_sum (ac_huff_tbls 1)))
          + 14 := by
  have hlayout : encode_image_headers m_quant_tbls jpeg_natural_order dc_huff_tbls ac_huff_tbls
      width height
      = write_file_header []
        ++ write_quant_table m_quant_tbls jpeg_natural_order [] 0
        ++ write_quant_table m_quant_tbls jpeg_natural_order [] 1
        ++ write_sof [] width height
        ++ write_huffman_table dc_huff_tbls ac_huff_tbls [] 0 0
        ++ write_huffman_table dc_huff_tbls ac_huff_tbls [] 0 1
        ++ write_huffman_table dc_huff_tbls ac_huff_tbls [] 1 0
        ++ write_huffman_table dc_huff_tbls ac_huff_tbls [] 1 1
        ++ [0xFF, 0xDA, 0x00, 0x0C, 0x03, 0x01, 0x00, 0x02, 0x11, 0x03, 0x11, 0x00, 0x3F,
            0x00] := by
    unfold encode_image_headers write_frame_header write_scan_header
    dsimp only
    rw [write_sos_eq, write_huffman_table_append dc_huff_tbls ac_huff_tbls _ 1 1,
      write_huffman_table_append dc_huff_tbls ac_huff_tbls _ 1 0,
      write_huffman_table_append dc_huff_tbls ac_huff_tbls _ 0 1,
      write_huffman_table_append dc_huff_tbls ac_huff_tbls _ 0 0,
      write_sof_append, write_quant_table_append m_quant_tbls jpeg_natural_order _ 1,
      write_quant_table_append m_quant_tbls jpeg_natural_order _ 0]
    rfl
  refine ⟨hlayout, ?_⟩
  rw [hlayout]
  simp only [List.length_append, write_file_header_length, write_quant_table_length,
    write_sof_length, write_huffman_table_length, List.length_cons, List.length_nil]
  simp
  omega

/-! ## Claims on the reciprocal quadruples -/

/-- C20: for every quantization value `v` in [1, 255], the values that
`compute_reciprocal` stores for the divisor `8 * v` (correction at `dtbl[0x40]`, shift
at `dtbl[0xC0]`, both non-negative, reciprocal at `dtbl[0]` read as an unsigned 16 bit
value) divide every `x` in [0, 32767] by `8 * v` with rounding to nearest:
`((x + corr) * recip) / 2^(16 + shift) = (x + (8 * v) / 2) / (8 * v)`. -/
theorem compute_reciprocal_divides (v : Nat) (hv1 : 1 ≤ v) (hv2 : v ≤ 255)
    (dtbl : Nat → Int) (x : Nat) (hx : x ≤ 32767) :
    0 ≤ (compute_reciprocal (8 * v) dtbl).1 (0x40 * 1)
    ∧ 0 ≤ (compute_reciprocal (8 * v) dtbl).1 (0x40 * 3)
    ∧ ((x : Int) + (compute_reciprocal (8 * v) dtbl).1 (0x40 * 1))
          * (to_ushort ((compute_reciprocal (8 * v) dtbl).1 (0x40 * 0)) : Int)
          / 2 ^ (16 + (compute_reciprocal (8 * v) dtbl).1 (0x40 * 3)).toNat
        = ((x : Int) + (8 * (v : Int)) / 2) / (8 * (v : Int)) := by
  obtain ⟨e0, e1, _, e3, _⟩ := compute_reciprocal_stores (8 * v) dtbl
  obtain ⟨hc, hs, hok⟩ := compute_reciprocal_values_ok v hv1 hv2
  rw [e0, e1, e3]
  refine ⟨hc, hs, ?_⟩
  have h := reciprocal_divides _ _ _ _ hok x hx
  obtain ⟨c, hc'⟩ := Int.eq_ofNat_of_zero_le hc
  obtain ⟨s, hs'⟩ := Int.eq_ofNat_of_zero_le hs
  rw [hc', hs'] at h ⊢
  simp only [Int.toNat_ofNat] at h
  have e : (16 + (s : Int)).toNat = 16 + s := by omega
  rw [e]
  exact_mod_cast h

/-- Witness of C20 at `v = 3` (divisor 24) and `x = 1000`. -/
theorem compute_reciprocal_divides_witness :
    (1 ≤ 3 ∧ 3 ≤ 255 ∧ 1000 ≤ 32767)
    ∧ (0 ≤ (compute_reciprocal (8 * 3) (fun _ => 0)).1 (0x40 * 1)
      ∧ 0 ≤ (compute_reciprocal (8 * 3) (fun _ => 0)).1 (0x40 * 3)
      ∧ (((1000 : Nat) : Int) + (compute_reciprocal (8 * 3) (fun _ => 0)).1 (0x40 * 1))
            * (to_ushort ((compute_reciprocal (8 * 3) (fun _ => 0)).1 (0x40 * 0)) : Int)
            / 2 ^ (16 + (compute_reciprocal (8 * 3) (fun _ => 0)).1 (0x40 * 3)).toNat
          = (((1000 : Nat) : Int) + (8 * ((3 : Nat) : Int)) / 2) / (8 * ((3 : Nat) : Int))) :=
  ⟨by decide, compute_reciprocal_divides 3 (by decide) (by decide) (fun _ => 0) 1000 (by decide)⟩

/-! ## Claims on the value returned by `compute_reciprocal` and on the host part of
`encode_image` -/

/-- C21 (counterexample).  For the quantization values 1, 2 and 255, the divisors 8,
16 and 2040, `compute_reciprocal` returns 1 and not 0; the shifts it stores are 2, 3
and 10, so `r` is 18, 19 and 26, above 16. -/
theorem compute_reciprocal_ret_nonzero :
    (compute_reciprocal (8 * 1) (fun _ => 0)).2 = 1
    ∧ (compute_reciprocal (8 * 2) (fun _ => 0)).2 = 1
    ∧ (compute_reciprocal (8 * 255) (fun _ => 0)).2 = 1
    ∧ (compute_reciprocal (8 * 1) (fun _ => 0)).1 (0x40 * 3) = 2
    ∧ (compute_reciprocal (8 * 2) (fun _ => 0)).1 (0x40 * 3) = 3
    ∧ (compute_reciprocal (8 * 255) (fun _ => 0)).1 (0x40 * 3) = 10 := by
  refine ⟨?_, ?_, ?_, ?_, ?_, ?_⟩ <;> decide

/-- C21 (amended): for every quantization value `v` in [1, 255], `compute_reciprocal`
called with the divisor `8 * v` returns 1, the value it returns when `r > 16`, and
never 0; the four values it stores are those of `compute_reciprocal_values`, whatever
it returns. -/
theorem compute_reciprocal_returns_one (v : Nat) (hv1 : 1 ≤ v) (hv2 : v ≤ 255)
    (dtbl : Nat → Int) :
    (compute_reciprocal (8 * v) dtbl).2 = 1
    ∧ (compute_reciprocal (8 * v) dtbl).2 ≠ 0
    ∧ (compute_reciprocal (8 * v) dtbl).1 (0x40 * 0) = (compute_reciprocal_values (8 * v)).reciprocal
    ∧ (compute_reciprocal (8 * v) dtbl).1 (0x40 * 1) = (compute_reciprocal_values (8 * v)).correction
    ∧ (compute_reciprocal (8 * v) dtbl).1 (0x40 * 2) = (compute_reciprocal_values (8 * v)).scale
    ∧ (compute_reciprocal (8 * v) dtbl).1 (0x40 * 3) = (compute_reciprocal_values (8 * v)).shift := by
  obtain ⟨e0, e1, e2, e3, e4⟩ := compute_reciprocal_stores (8 * v) dtbl
  have hr := compute_reciprocal_values_ret v hv1 hv2
  refine ⟨?_, ?_, e0, e1, e2, e3⟩
  · rw [e4, hr]
  · rw [e4, hr]
    decide

/-- Witness of C21 (amended) at `v = 16`, the divisor 128. -/
theorem compute_reciprocal_returns_one_witness :
    (1 ≤ 16 ∧ 16 ≤ 255) ∧ (compute_reciprocal (8 * 16) (fun _ => 0)).2 = 1 :=
  ⟨by decide, (compute_reciprocal_returns_one 16 (by decide) (by decide) (fun _ => 0)).1⟩

/-- C22: `state.buffer` is not initialised by `encode_image`; for every two values of
it, with `bits = 0` and `last_dc_val = (0, 0, 0)`, the same derived tables and the same
MCUs, the bytes of all `encode_entropy` calls followed by the flush are the same, and
so are the value returned and the bytes written by `encode_image` for the same
tables, arguments and blocks read back from the device. -/
theorem encode_image_deterministic (m_quant_tbls : quant_tbls)
    (jpeg_natural_order : Nat → Nat) (m_dc_huff_tbls m_ac_huff_tbls : Nat → huffman_table)
    (dc ac : Nat → derived_huffman_table) (image_null fp_null : Bool) (width height : Nat)
    (device_blocks : host_blocks) (mcus : List (Nat → Nat → Int)) (output_buffer : List Nat)
    (buffer1 buffer2 : Nat) :
    (encode_image_entropy dc ac mcus output_buffer buffer1).1
        = (encode_image_entropy dc ac mcus output_buffer buffer2).1
    ∧ encode_image_scan dc ac mcus buffer1 = encode_image_scan dc ac mcus buffer2
    ∧ encode_image m_quant_tbls jpeg_natural_order m_dc_huff_tbls m_ac_huff_tbls dc ac
          image_null fp_null width height device_blocks buffer1
        = encode_image m_quant_tbls jpeg_natural_order m_dc_huff_tbls m_ac_huff_tbls dc ac
          image_null fp_null width height device_blocks buffer2 := by
  refine ⟨(encode_image_entropy_agree dc ac mcus output_buffer buffer1 buffer2).1, ?_, ?_⟩
  · unfold encode_image_scan
    exact encode_image_flush_agree _ _ (encode_image_entropy_agree dc ac mcus [] buffer1 buffer2)
  · unfold encode_image
    simp only
    rw [encode_image_flush_agree _ _
      (encode_image_entropy_agree dc ac _ _ buffer1 buffer2)]

/-- C23 (counterexample).  For the width 1 and the height `2^35`, `nbh` is cut to the
32 bits of `cl_uint` and is 0, so the condition of the fix-up holds and the DC of
block 2 of the super block `2^31 - 1` becomes 5, the DC of its block 1, where it was
0; with `nbh = ceil(H / 8) = 2^32` and `nsbh = ceil(H / 16) = 2^31` the condition
`2 * (nsbh - 1) + 1 ≥ nbh` of the specification does not hold. -/
theorem encode_image_fixup_wraps :
    encode_image_nbh 34359738368 = 0
    ∧ encode_image_nsbh 34359738368 = 2147483648
    ∧ (encode_image_fixup 1 34359738368 blocks_y1).y_blocks 2147483647 2 0 = 5
    ∧ blocks_y1.y_blocks 2147483647 2 0 = 0
    ∧ ¬ (2 * ((34359738368 + 15) / 16 - 1) + 1 ≥ (34359738368 + 7) / 8) := by
  refine ⟨?_, ?_, ?_, ?_, ?_⟩ <;> decide

/-- C23 (amended): for every width and height in [1, 2^32 - 1], `nbh`, `nsbh`, `nsbw`
are `ceil(H / 8)`, `ceil(H / 16)`, `ceil(W / 16)`; the condition
`2 * (nsbh - 1) + 1 ≥ nbh` holds iff `nbh = 2 * nsbh - 1`, iff
`((H - 1) mod 16) + 1 ≤ 8`; when it holds the fix-up of `encode_image` gives the DC of
block 1 to the DCs of the blocks 2 and 3 of each of the `nsbw` super blocks of the
last row, `(nsbh - 1) * nsbw .. (nsbh - 1) * nsbw + nsbw - 1`, and leaves every other
coefficient of `y_blocks` as it is; when it does not hold `y_blocks` is unchanged; and
`cb_blocks`, `cr_blocks` are never changed. -/
theorem encode_image_fixup_bottom_row (width height : Nat) (blocks : host_blocks)
    (hw1 : 1 ≤ width) (hw2 : width < 2 ^ 32) (hh1 : 1 ≤ height) (hh2 : height < 2 ^ 32) :
    (encode_image_nbh height = (height + 7) / 8
      ∧ encode_image_nsbh height = (height + 15) / 16
      ∧ encode_image_nsbw width = (width + 15) / 16)
    ∧ (2 * ((height + 15) / 16 - 1) + 1 ≥ (height + 7) / 8
        ↔ (height + 7) / 8 = 2 * ((height + 15) / 16) - 1)
    ∧ ((height + 7) / 8 = 2 * ((height + 15) / 16) - 1 ↔ (height - 1) % 16 + 1 ≤ 8)
    ∧ (2 * ((height + 15) / 16 - 1) + 1 ≥ (height + 7) / 8 →
        ∀ id b k, (encode_image_fixup width height blocks).y_blocks id b k
          = if ((height + 15) / 16 - 1) * ((width + 15) / 16) ≤ id
                ∧ id < ((height + 15) / 16 - 1) * ((width + 15) / 16) + (width + 15) / 16
                ∧ (b = 2 ∨ b = 3) ∧ k = 0
            then blocks.y_blocks id 1 0 else blocks.y_blocks id b k)
    ∧ (¬ (2 * ((height + 15) / 16 - 1) + 1 ≥ (height + 7) / 8) →
        (encode_image_fixup width height blocks).y_blocks = blocks.y_blocks)
    ∧ (encode_image_fixup width height blocks).cb_blocks = blocks.cb_blocks
    ∧ (encode_image_fixup width height blocks).cr_blocks = blocks.cr_blocks := by
  have e1 := encode_image_nbh_eq height hh2
  have e2 := encode_image_nsbh_eq height hh2
  have e3 := encode_image_nsbw_eq width hw2
  obtain ⟨l1, l2⟩ := encode_image_fixup_locals height hh1 hh2
  have hbase : to_size_t ((((height + 15) / 16 - 1) * ((width + 15) / 16) : Nat) : Int)
      = ((height + 15) / 16 - 1) * ((width + 15) / 16) := by
    rw [to_size_t_natCast]
    apply Nat.mod_eq_of_lt
    have a1 : (height + 15) / 16 - 1 < 2 ^ 28 := by omega
    have a2 : (width + 15) / 16 ≤ 2 ^ 28 := by omega
    calc ((height + 15) / 16 - 1) * ((width + 15) / 16)
        ≤ 2 ^ 28 * 2 ^ 28 := Nat.mul_le_mul (by omega) a2
      _ < 2 ^ 64 := by decide
  have hsum : ((height + 15) / 16 - 1) * ((width + 15) / 16) + (width + 15) / 16 ≤ 2 ^ 64 := by
    have a1 : (height + 15) / 16 - 1 < 2 ^ 28 := by omega
    have a2 : (width + 15) / 16 ≤ 2 ^ 28 := by omega
    have : ((height + 15) / 16 - 1) * ((width + 15) / 16) ≤ 2 ^ 28 * 2 ^ 28 :=
      Nat.mul_le_mul (by omega) a2
    have : (2 : Nat) ^ 28 * 2 ^ 28 + 2 ^ 28 ≤ 2 ^ 64 := by decide
    omega
  refine ⟨⟨e1, e2, e3⟩, by omega, by omega, ?_, ?_, rfl, rfl⟩
  · intro hc id b k
    unfold encode_image_fixup
    simp only
    rw [l1, e1, e3, hbase, encode_image_fixup_fold _ _ _ _ (by rw [l2]; exact hc) _ hsum]
  · intro hc
    unfold encode_image_fixup
    simp only
    rw [l1, e1, e3, hbase, encode_image_fixup_fold_skip _ _ _ _ (by rw [l2]; exact hc)]

/-- Witness of C23 (amended) at the width 20 and the height 40, for which 5 block rows
and 3 super block rows exist and the fix-up is applied to the super blocks 4 and 5. -/
theorem encode_image_fixup_bottom_row_witness :
    ((1 : Nat) ≤ 20 ∧ (20 : Nat) < 2 ^ 32 ∧ (1 : Nat) ≤ 40 ∧ (40 : Nat) < 2 ^ 32)
    ∧ 2 * ((40 + 15) / 16 - 1) + 1 ≥ (40 + 7) / 8
    ∧ ∀ id b k, (encode_image_fixup 20 40 blocks_y1).y_blocks id b k
        = if ((40 + 15) / 16 - 1) * ((20 + 15) / 16) ≤ id
              ∧ id < ((40 + 15) / 16 - 1) * ((20 + 15) / 16) + (20 + 15) / 16
              ∧ (b = 2 ∨ b = 3) ∧ k = 0
          then blocks_y1.y_blocks id 1 0 else blocks_y1.y_blocks id b k :=
  ⟨by decide, by decide,
    (encode_image_fixup_bottom_row 20 40 blocks_y1 (by decide) (by decide) (by decide)
      (by decide)).2.2.2.1 (by decide)⟩

/-- C24 (evaluation at the failing inputs).  With a null image pointer `encode_image`
returns 2 and writes nothing.  With an image, a file that opens and the width 0, or
the height 0, it returns 0 and writes the header followed by the marker `FF D9`, which
is not empty, whatever the other dimension, the tables and the blocks are. -/
theorem encode_image_zero_dimension (m_quant_tbls : quant_tbls)
    (jpeg_natural_order : Nat → Nat) (dc_huff_tbls ac_huff_tbls : Nat → huffman_table)
    (dc ac : Nat → derived_huffman_table) (fp_null : Bool) (width height : Nat)
    (device_blocks : host_blocks) (state_buffer : Nat) :
    ((encode_image m_quant_tbls jpeg_natural_order dc_huff_tbls ac_huff_tbls dc ac
          true fp_null width height device_blocks state_buffer).ret = 2
      ∧ (encode_image m_quant_tbls jpeg_natural_order dc_huff_tbls ac_huff_tbls dc ac
          true fp_null width height device_blocks state_buffer).written = [])
    ∧ ((encode_image m_quant_tbls jpeg_natural_order dc_huff_tbls ac_huff_tbls dc ac
          false false 0 height device_blocks state_buffer).ret = 0
      ∧ (encode_image m_quant_tbls jpeg_natural_order dc_huff_tbls ac_huff_tbls dc ac
          false false 0 height device_blocks state_buffer).written
        = encode_image_headers m_quant_tbls jpeg_natural_order dc_huff_tbls
            ac_huff_tbls 0 height ++ [0xFF, 0xD9])
    ∧ ((encode_image m_quant_tbls jpeg_natural_order dc_huff_tbls ac_huff_tbls dc ac
          false false width 0 device_blocks state_buffer).ret = 0
      ∧ (encode_image m_quant_tbls jpeg_natural_order dc_huff_tbls ac_huff_tbls dc ac
          false false width 0 device_blocks state_buffer).written
        = encode_image_headers m_quant_tbls jpeg_natural_order dc_huff_tbls
            ac_huff_tbls width 0 ++ [0xFF, 0xD9])
    ∧ (∀ w h, encode_image_headers m_quant_tbls jpeg_natural_order dc_huff_tbls
          ac_huff_tbls w h ++ [0xFF, 0xD9] ≠ [])
    ∧ (encode_image_headers m_quant_tbls jpeg_natural_order m_dc_huff_tbls
          m_ac_huff_tbls 0 8 ++ [0xFF, 0xD9]).length = 625 := by
  refine ⟨⟨rfl, rfl⟩, ⟨rfl, ?_⟩, ⟨rfl, ?_⟩, ?_, ?_⟩
  · unfold encode_image
    simp only [Bool.false_eq_true, if_false]
    rw [encode_image_mcus_zero_width, encode_image_no_mcus]
  · unfold encode_image
    simp only [Bool.false_eq_true, if_false]
    rw [encode_image_mcus_zero_height, encode_image_no_mcus]
  · intro w h hc
    have := congrArg List.length hc
    rw [List.length_append] at this
    simp at this
  · have hl := (encode_image_headers_length m_quant_tbls jpeg_natural_order
      m_dc_huff_tbls m_ac_huff_tbls 0 8)
    rw [List.length_append, hl]
    decide

/-! ## Claims on the entropy state and the bits written -/

/-- C25 (counterexample).  With the four standard tables, from `buffer = 0` and
`bits = 0`, three calls of `encode_entropy_single_block` for a block of zeros after
the DC 0 emit three times the words `00` and `1010`; the first 16 bits are written as
`28 A2`, and the state is left with `bits = 2` and `buffer = 0xA28A`, which is not
below `2^2`: the bits that were written stay in the buffer above the pending ones. -/
theorem encode_single_blocks_buffer_high :
    create_derived_huffman_tables.map
        (fun t =>
          ((encode_single_blocks t.1 t.2 [zero_call, zero_call, zero_call] []
              zero_entropy_state).1,
            (encode_single_blocks t.1 t.2 [zero_call, zero_call, zero_call] []
              zero_entropy_state).2.buffer,
            (encode_single_blocks t.1 t.2 [zero_call, zero_call, zero_call] []
              zero_entropy_state).2.bits))
      = some ([0x28, 0xA2], 0xA28A, 2)
    ∧ ¬ (0xA28A < 2 ^ 2) := by
  refine ⟨?_, by decide⟩
  set_option maxRecDepth 1000000 in
  decide

/-- C25 (amended): starting from `buffer = 0` and `bits = 0`, after every sequence of
calls of `encode_entropy_single_block` with `short` coefficients and `last_dc_val` and
tables whose codes fit their lengths of at most 16 bits, `state.buffer` is the number
written by all bits emitted so far, most significant bit first, modulo `2^64`, and at
most 15 bits are pending: the low `state.bits` bits are the pending bits and the bits
above them are the bits already written, not zeros. -/
theorem encode_single_blocks_buffer_value (dc ac : Nat → derived_huffman_table)
    (calls : List single_block_call) (outputbuf : List Nat) (last_dc_val : Nat → Int)
    (htab : tables_fit dc ac) (hs : calls_short calls) :
    (encode_single_blocks dc ac calls outputbuf
        { buffer := 0, bits := 0, last_dc_val := last_dc_val }).2.buffer
      = bits_value (emission_bits (single_blocks_emissions dc ac calls)) % 2 ^ 64
    ∧ (encode_single_blocks dc ac calls outputbuf
        { buffer := 0, bits := 0, last_dc_val := last_dc_val }).2.bits ≤ 15
    ∧ code_word (encode_single_blocks dc ac calls outputbuf
          { buffer := 0, bits := 0, last_dc_val := last_dc_val }).2.buffer
        (encode_single_blocks dc ac calls outputbuf
          { buffer := 0, bits := 0, last_dc_val := last_dc_val }).2.bits
      = (emission_bits (single_blocks_emissions dc ac calls)).drop
          ((emission_bits (single_blocks_emissions dc ac calls)).length
            - (encode_single_blocks dc ac calls outputbuf
                { buffer := 0, bits := 0, last_dc_val := last_dc_val }).2.bits) := by
  have hfit := single_blocks_emissions_fit dc ac calls htab hs
  rw [encode_single_blocks_eq_emit]
  simp only
  have h0 : writer_inv outputbuf [] []
      { put_buffer := 0, put_bits := 0, outputbuf := outputbuf } :=
    ⟨Nat.zero_le _, by simp [stuff_bytes], by simp, rfl⟩
  obtain ⟨data1, ⟨hp, _, _, hbits⟩, hlen⟩ :=
    emit_sequence_inv outputbuf (single_blocks_emissions dc ac calls) [] [] _ h0 hfit
  have hv := emit_sequence_value (single_blocks_emissions dc ac calls)
    { put_buffer := 0, put_bits := 0, outputbuf := outputbuf } [] rfl hfit
  rw [List.nil_append] at hv hbits
  rw [List.nil_append] at hbits
  refine ⟨hv, hp, ?_⟩
  have hl : (bits_of_bytes data1).length
      = (emission_bits (single_blocks_emissions dc ac calls)).length
        - (emit_sequence (single_blocks_emissions dc ac calls)
            { put_buffer := 0, put_bits := 0, outputbuf := outputbuf }).put_bits := by
    have := congrArg List.length hbits
    rw [List.length_append, code_word_length] at this
    omega
  rw [← hl]
  conv_rhs => rw [hbits]
  rw [List.drop_left]

/-- Witness of C25 (amended) at two calls with the standard tables, a luminance block
with the DC 255 and the coefficient 1 at index 8, and a chrominance block with the DC
difference 5 and the coefficients 3 and 1: 44 bits are emitted, `FB FF 00 35 AC` is
written, 12 bits are pending and the buffer `0xFBFF35ACFD4` holds all 44 bits. -/
theorem encode_single_blocks_buffer_value_witness :
    (tables_fit standard_derived_tbls.1 standard_derived_tbls.2
      ∧ calls_short [dc_255_call, ac_3_call])
    ∧ ((encode_single_blocks standard_derived_tbls.1 standard_derived_tbls.2
          [dc_255_call, ac_3_call] [] { buffer := 0, bits := 0, last_dc_val := fun _ => 0 }).2.buffer
        = bits_value (emission_bits (single_blocks_emissions standard_derived_tbls.1
            standard_derived_tbls.2 [dc_255_call, ac_3_call])) % 2 ^ 64
      ∧ (encode_single_blocks standard_derived_tbls.1 standard_derived_tbls.2
          [dc_255_call, ac_3_call] [] { buffer := 0, bits := 0, last_dc_val := fun _ => 0 }).2.bits
        ≤ 15
      ∧ code_word (encode_single_blocks standard_derived_tbls.1 standard_derived_tbls.2
            [dc_255_call, ac_3_call] []
            { buffer := 0, bits := 0, last_dc_val := fun _ => 0 }).2.buffer
          (encode_single_blocks standard_derived_tbls.1 standard_derived_tbls.2
            [dc_255_call, ac_3_call] []
            { buffer := 0, bits := 0, last_dc_val := fun _ => 0 }).2.bits
        = (emission_bits (single_blocks_emissions standard_derived_tbls.1
            standard_derived_tbls.2 [dc_255_call, ac_3_call])).drop
            ((emission_bits (single_blocks_emissions standard_derived_tbls.1
                standard_derived_tbls.2 [dc_255_call, ac_3_call])).length
              - (encode_single_blocks standard_derived_tbls.1 standard_derived_tbls.2
                  [dc_255_call, ac_3_call] []
                  { buffer := 0, bits := 0, last_dc_val := fun _ => 0 }).2.bits))
    ∧ ((encode_single_blocks standard_derived_tbls.1 standard_derived_tbls.2
          [dc_255_call, ac_3_call] [] { buffer := 0, bits := 0, last_dc_val := fun _ => 0 }).1,
        (encode_single_blocks standard_derived_tbls.1 standard_derived_tbls.2
          [dc_255_call, ac_3_call] []
          { buffer := 0, bits := 0, last_dc_val := fun _ => 0 }).2.buffer,
        (encode_single_blocks standard_derived_tbls.1 standard_derived_tbls.2
          [dc_255_call, ac_3_call] []
          { buffer := 0, bits := 0, last_dc_val := fun _ => 0 }).2.bits)
        = ([0xFB, 0xFF, 0x00, 0x35, 0xAC], 0xFBFF35ACFD4, 12)
    ∧ single_blocks_emissions standard_derived_tbls.1 standard_derived_tbls.2
          [dc_255_call, ac_3_call]
        = [(62, 6), (255, 8), (12, 4), (1, 1), (10, 4), (6, 3), (5, 3), (4, 3), (3, 2),
           (122, 7), (1, 1), (0, 2)] :=
  ⟨⟨tables_fit_standard, calls_short_sample⟩,
    encode_single_blocks_buffer_value standard_derived_tbls.1 standard_derived_tbls.2
      [dc_255_call, ac_3_call] [] (fun _ => 0) tables_fit_standard calls_short_sample,
    sample_calls_state, sample_calls_emissions⟩

/-- C26: for every block whose AC coefficients lie in [-1023, 1023] and whose DC
difference lies in [-2047, 2047], `encode_entropy_single_block` is the bit writer run
on the emissions of the block, and every table entry among them is a DC category
`n ≤ 11`, ZRL (`0xF0`), EOB (`0x00`) or an AC symbol `(r << 4) | n` with `r ≤ 15` and
`1 ≤ n ≤ 10`; so every table index is below 256, and the four standard derived tables
give each of these entries a length other than 0. -/
theorem block_trace_listed (dcd acd : derived_huffman_table) (block : Nat → Int) (diff : Int)
    (s : emit_state) (hac : ∀ k, k ∈ kloop_order → -1023 ≤ block k ∧ block k ≤ 1023)
    (hdc : -2047 ≤ diff ∧ diff ≤ 2047) :
    encode_block_emit dcd acd block diff s
        = emit_sequence ((block_trace block diff).map (emitted_bits dcd acd)) s
    ∧ (∀ e, e ∈ block_trace block diff → listed_emission e)
    ∧ (∀ e i, e ∈ block_trace block diff →
        (e = emitted.dc_symbol i ∨ e = emitted.ac_symbol i) → i < 256)
    ∧ ∃ t, create_derived_huffman_tables = some t
      ∧ ∀ ti e i, ti < 2 → e ∈ block_trace block diff →
        (e = emitted.dc_symbol i → (t.1 ti).length i ≠ 0)
        ∧ (e = emitted.ac_symbol i → (t.2 ti).length i ≠ 0) := by
  have hl := block_trace_listed_all block diff hac hdc
  refine ⟨encode_block_emit_eq_trace dcd acd block diff s, hl,
    fun e i he hi => listed_index_lt e (hl e he) i hi, ?_⟩
  obtain ⟨t, ht, hlen⟩ := standard_tables_listed
  refine ⟨t, ht, ?_⟩
  intro ti e i hti he
  obtain ⟨a1, a2, a3, a4⟩ := hlen ti hti
  have hle := hl e he
  refine ⟨?_, ?_⟩
  · intro hi
    rcases hle with ⟨n, hn, hn11⟩ | h | h | ⟨r, n, hrn, _, _, _⟩ | ⟨v, n, hv⟩
    · rw [hn] at hi
      injection hi with hi
      rw [← hi]
      exact a1 n hn11
    · rw [h] at hi
      injection hi
    · rw [h] at hi
      injection hi
    · rw [hrn] at hi
      injection hi
    · rw [hv] at hi
      injection hi
  · intro hi
    rcases hle with ⟨n, hn, _⟩ | h | h | ⟨r, n, hrn, hr, hn1, hn10⟩ | ⟨v, n, hv⟩
    · rw [hn] at hi
      injection hi
    · rw [h] at hi
      injection hi with hi
      rw [← hi]
      exact a2
    · rw [h] at hi
      injection hi with hi
      rw [← hi]
      exact a3
    · rw [hrn] at hi
      injection hi with hi
      rw [← hi]
      exact a4 r n hr hn1 hn10
    · rw [hv] at hi
      injection hi

/-- Witness of C26 at the sample block, with the coefficients 5, -3 and 1, and the DC
difference 7. -/
theorem block_trace_listed_witness :
    ((∀ k, k ∈ kloop_order → -1023 ≤ block_sample k ∧ block_sample k ≤ 1023)
      ∧ (-2047 ≤ (7 : Int) ∧ (7 : Int) ≤ 2047))
    ∧ ∀ e, e ∈ block_trace block_sample 7 → listed_emission e :=
  ⟨⟨by decide, by decide⟩,
    (block_trace_listed zero_derived_tbl zero_derived_tbl block_sample 7 empty_emit_state
      (by decide) (by decide)).2.1⟩

/-- C27 (counterexample).  The specification with `BITS[15] = 2` and `BITS[16] = 255`
(every count fits an `unsigned char`) has the Kraft sum `2 * 2 + 255 = 259 ≤ 2^16` and
257 codes; Figure C.1 stores 257 lengths and the terminating zero at `huffsize[257]`,
past the `0x101` entries of `huffsize`, and `derive_huffman_table` has no result. -/
theorem derive_huffman_table_overlong :
    kraft_sum overlong_table = 259 ∧ kraft_sum overlong_table ≤ 2 ^ 0x10
    ∧ (∀ l, overlong_table.bits l ≤ 0xFF)
    ∧ bits_sum overlong_table = 257
    ∧ (derive_huffsize overlong_table).length = 257
    ∧ derive_huffman_table 0 overlong_table zero_derived_tbl = none := by
  refine ⟨by decide, by decide, ?_, by decide, ?_, ?_⟩
  · intro l
    unfold overlong_table
    simp only
    split
    · decide
    · split <;> decide
  · rw [derive_huffsize_length]
    decide
  · unfold derive_huffman_table
    simp only
    rw [derive_huffsize_length, if_neg (by decide)]

/-- C27 (amended): for every Huffman specification with at most 256 codes and
`sum of BITS[l] * 2^(16 - l) ≤ 2^16`, `derive_huffman_table` returns, every list
position `p` has a code `huffcode[p] < 2^huffsize[p]`, codes of equal length are
strictly increasing in `p`, and for all positions `p < q` the `huffsize[p]`-bit word
`huffcode[p]` does not begin the `huffsize[q]`-bit word `huffcode[q]`; with pairwise
distinct `VALUES` the entry of the symbol at position `p` is `(huffcode[p],
huffsize[p])` and no word of the derived table begins the word of another symbol. -/
theorem derive_huffman_table_canonical_words (is_dc : Nat) (htbl : huffman_table)
    (dhtbl : derived_huffman_table) (hn : bits_sum htbl ≤ 0x100)
    (hkraft : kraft_sum htbl ≤ 2 ^ 0x10) :
    ∃ huffcode d, derive_huffcode htbl = some huffcode
      ∧ derive_huffman_table is_dc htbl dhtbl = some d
      ∧ (∀ p, p < bits_sum htbl → huffcode p < 2 ^ (derive_huffsize htbl).getD p 0)
      ∧ (∀ p q, p < q → q < bits_sum htbl →
          (derive_huffsize htbl).getD p 0 = (derive_huffsize htbl).getD q 0 →
          huffcode p < huffcode q)
      ∧ (∀ p q, p < q → q < bits_sum htbl →
          ¬ (code_word (huffcode p) ((derive_huffsize htbl).getD p 0)
              <+: code_word (huffcode q) ((derive_huffsize htbl).getD q 0)))
      ∧ ((∀ p q, p < bits_sum htbl → q < bits_sum htbl → htbl.value p = htbl.value q → p = q) →
          (∀ p, p < bits_sum htbl →
            d.code (htbl.value p) = huffcode p
            ∧ d.length (htbl.value p) = (derive_huffsize htbl).getD p 0)
          ∧ words_unambiguous d) := by
  obtain ⟨huffcode, hcode, h0, hchain, hres⟩ := derive_huffman_table_eq is_dc htbl dhtbl hn
  obtain ⟨hpos, hmono, hk⟩ := derive_huffsize_kraft htbl hkraft
  have heq := canonical_code_eq_kraft (derive_huffsize htbl) (bits_sum htbl) huffcode
    hpos hmono hk h0 hchain
  refine ⟨huffcode, _, hcode, hres, ?_, ?_, ?_, ?_⟩
  · intro p hp
    exact canonical_code_fits _ _ _ hpos hk heq p hp
  · intro p q hpq hq hsame
    exact canonical_codes_increase _ _ _ heq p q hpq hq hsame
  · intro p q hpq hq
    exact canonical_words_apart _ _ _ hpos hmono hk heq p q (by omega) hq (by omega)
  · intro hd
    refine ⟨?_, (derive_fill_words htbl huffcode dhtbl hkraft h0 hchain).2⟩
    intro p hp
    have h := derive_fill_distinct htbl (derive_huffsize htbl ++ [0]) huffcode dhtbl
      (bits_sum htbl) hd p hp
    rw [getD_append_terminator] at h
    exact h

/-- Witness of C27 at the standard DC specification of the luminance. -/
theorem derive_huffman_table_canonical_words_witness :
    (bits_sum (m_dc_huff_tbls 0) ≤ 0x100 ∧ kraft_sum (m_dc_huff_tbls 0) ≤ 2 ^ 0x10)
    ∧ ∃ huffcode d, derive_huffcode (m_dc_huff_tbls 0) = some huffcode
      ∧ derive_huffman_table 1 (m_dc_huff_tbls 0) zero_derived_tbl = some d
      ∧ (∀ p, p < bits_sum (m_dc_huff_tbls 0) →
          huffcode p < 2 ^ (derive_huffsize (m_dc_huff_tbls 0)).getD p 0)
      ∧ (∀ p q, p < q → q < bits_sum (m_dc_huff_tbls 0) →
          (derive_huffsize (m_dc_huff_tbls 0)).getD p 0
            = (derive_huffsize (m_dc_huff_tbls 0)).getD q 0 →
          huffcode p < huffcode q)
      ∧ (∀ p q, p < q → q < bits_sum (m_dc_huff_tbls 0) →
          ¬ (code_word (huffcode p) ((derive_huffsize (m_dc_huff_tbls 0)).getD p 0)
              <+: code_word (huffcode q) ((derive_huffsize (m_dc_huff_tbls 0)).getD q 0)))
      ∧ ((∀ p q, p < bits_sum (m_dc_huff_tbls 0) → q < bits_sum (m_dc_huff_tbls 0) →
            (m_dc_huff_tbls 0).value p = (m_dc_huff_tbls 0).value q → p = q) →
          (∀ p, p < bits_sum (m_dc_huff_tbls 0) →
            d.code ((m_dc_huff_tbls 0).value p) = huffcode p
            ∧ d.length ((m_dc_huff_tbls 0).value p)
                = (derive_huffsize (m_dc_huff_tbls 0)).getD p 0)
          ∧ words_unambiguous d) :=
  ⟨⟨by decide, by decide⟩,
    derive_huffman_table_canonical_words 1 (m_dc_huff_tbls 0) zero_derived_tbl
      (by decide) (by decide)⟩

/-- C29: with at most 15 bits pending on entry and derived code lengths of at most 16,
`encode_entropy_single_block` is the run of `EMIT_BITS` on the emissions of the block
(`EMIT_CODE` being two of them), for every block and `last_dc_val`; at every one of
its `PUT_BITS`, at most 15 bits are pending before it and at most 31 after it, and
after the `CHECKBUF15` that follows at most 15 again, so `state.bits ≤ 15` on exit;
and over the entropy loop of `encode_image`, which starts with `bits = 0`,
`state.bits ≤ 15` after every MCU. -/
theorem encode_entropy_single_block_pending (dc ac : Nat → derived_huffman_table)
    (block : Nat → Int) (ti : Nat) (last_dc_val : Int) (outputbuf : List Nat)
    (state : entropy_state) (mcus : List (Nat → Nat → Int)) (output_buffer : List Nat)
    (buffer : Nat) (hb : state.bits ≤ 15)
    (hlen : ∀ i s, (dc i).length s ≤ 16 ∧ (ac i).length s ≤ 16) :
    encode_entropy_single_block dc ac block ti last_dc_val outputbuf state
        = ((emit_sequence
              ((block_trace block (to_int (block 0 - last_dc_val))).map
                (emitted_bits (dc ti) (ac ti)))
              { put_buffer := state.buffer, put_bits := state.bits,
                outputbuf := outputbuf }).outputbuf,
            { buffer := (emit_sequence
                ((block_trace block (to_int (block 0 - last_dc_val))).map
                  (emitted_bits (dc ti) (ac ti)))
                { put_buffer := state.buffer, put_bits := state.bits,
                  outputbuf := outputbuf }).put_buffer,
              bits := (emit_sequence
                ((block_trace block (to_int (block 0 - last_dc_val))).map
                  (emitted_bits (dc ti) (ac ti)))
                { put_buffer := state.buffer, put_bits := state.bits,
                  outputbuf := outputbuf }).put_bits,
              last_dc_val := state.last_dc_val })
    ∧ (∀ pre e post,
        (block_trace block (to_int (block 0 - last_dc_val))).map (emitted_bits (dc ti) (ac ti))
          = pre ++ e :: post →
        (emit_sequence pre
            { put_buffer := state.buffer, put_bits := state.bits,
              outputbuf := outputbuf }).put_bits ≤ 15
        ∧ (PUT_BITS e.1 e.2 (emit_sequence pre
            { put_buffer := state.buffer, put_bits := state.bits,
              outputbuf := outputbuf })).put_bits ≤ 31
        ∧ (EMIT_BITS e.1 e.2 (emit_sequence pre
            { put_buffer := state.buffer, put_bits := state.bits,
              outputbuf := outputbuf })).put_bits ≤ 15)
    ∧ (encode_entropy_single_block dc ac block ti last_dc_val outputbuf state).2.bits ≤ 15
    ∧ (encode_image_entropy dc ac mcus output_buffer buffer).2.bits ≤ 15 := by
  refine ⟨encode_entropy_single_block_eq_emit dc ac block ti last_dc_val outputbuf state,
    ?_, encode_entropy_single_block_bits_le dc ac hlen block ti last_dc_val outputbuf state hb,
    encode_image_entropy_bits_le dc ac hlen mcus output_buffer buffer⟩
  exact emit_sequence_peak _ _ hb
    (block_trace_sizes (dc ti) (ac ti) (fun s => (hlen ti s).1) (fun s => (hlen ti s).2) _ _)

/-- Witness of C29 at a state with 15 pending bits, the sample block and zeroed
tables. -/
theorem encode_entropy_single_block_pending_witness :
    ((15 : Nat) ≤ 15
      ∧ ∀ i s, ((fun _ => zero_derived_tbl : Nat → derived_huffman_table) i).length s ≤ 16
        ∧ ((fun _ => zero_derived_tbl : Nat → derived_huffman_table) i).length s ≤ 16)
    ∧ (encode_entropy_single_block (fun _ => zero_derived_tbl) (fun _ => zero_derived_tbl)
          block_sample 0 0 [] { buffer := 0x7FFF, bits := 15, last_dc_val := fun _ => 0 }).2.bits
        ≤ 15
    ∧ (encode_image_entropy (fun _ => zero_derived_tbl) (fun _ => zero_derived_tbl)
          [mcu_sample, mcu_cb_255] [] 0).2.bits ≤ 15 :=
  ⟨⟨by decide, lengths_zero⟩,
    (encode_entropy_single_block_pending (fun _ => zero_derived_tbl)
      (fun _ => zero_derived_tbl) block_sample 0 0 []
      { buffer := 0x7FFF, bits := 15, last_dc_val := fun _ => 0 } [mcu_sample, mcu_cb_255] [] 0
      (by decide) lengths_zero).2.2⟩

/-- C30: for every sequence of calls of `encode_entropy_single_block` with `short`
arguments and tables whose codes fit their lengths of at most 16 bits, from
`bits = 0` and an output vector `out0`: the output is `out0`, unchanged, followed by
stuffed bytes; taking the `0x00` after every `0xFF` out of the appended bytes gives
data bytes whose bits, most significant bit first, followed by the low `state.bits`
bits of `state.buffer`, are exactly the words of all emissions in their order; and in
the appended bytes every `0xFF` is followed at once by `0x00`. -/
theorem encode_single_blocks_bits (dc ac : Nat → derived_huffman_table)
    (calls : List single_block_call) (out0 : List Nat) (buffer : Nat)
    (last_dc_val : Nat → Int) (htab : tables_fit dc ac) (hs : calls_short calls) :
    ∃ appended,
      (encode_single_blocks dc ac calls out0
          { buffer := buffer, bits := 0, last_dc_val := last_dc_val }).1 = out0 ++ appended
      ∧ stuffing_holds appended
      ∧ bits_of_bytes (unstuff_bytes appended)
          ++ code_word
              (encode_single_blocks dc ac calls out0
                { buffer := buffer, bits := 0, last_dc_val := last_dc_val }).2.buffer
              (encode_single_blocks dc ac calls out0
                { buffer := buffer, bits := 0, last_dc_val := last_dc_val }).2.bits
        = emission_bits (single_blocks_emissions dc ac calls)
      ∧ appended = stuff_bytes (unstuff_bytes appended)
      ∧ (∀ c, c ∈ unstuff_bytes appended → c < 0x100) := by
  have hfit := single_blocks_emissions_fit dc ac calls htab hs
  rw [encode_single_blocks_eq_emit]
  simp only
  have h0 : writer_inv out0 [] []
      { put_buffer := buffer, put_bits := 0, outputbuf := out0 } :=
    ⟨Nat.zero_le _, by simp [stuff_bytes], by simp, rfl⟩
  obtain ⟨data1, ⟨_, hout, hlt, hbits⟩, _⟩ :=
    emit_sequence_inv out0 (single_blocks_emissions dc ac calls) [] [] _ h0 hfit
  simp only [List.nil_append] at hout hbits hlt
  refine ⟨stuff_bytes data1, hout, stuffing_holds_stuff_bytes data1, ?_, ?_, ?_⟩
  · rw [unstuff_stuff_bytes]
    exact hbits.symm
  · rw [unstuff_stuff_bytes]
  · rw [unstuff_stuff_bytes]
    exact hlt

/-- Witness of C30 at two calls with the standard tables, a luminance block with the DC
255 and the coefficient 1 at index 8, and a chrominance block with the DC difference 5
and the coefficients 3 and 1, from the output `AA` and a buffer that holds 7: 44 bits
are emitted, `FB FF 00 35 AC` is appended, with the `0x00` stuffed after the `0xFF`,
and 12 bits are pending. -/
theorem encode_single_blocks_bits_witness :
    (tables_fit standard_derived_tbls.1 standard_derived_tbls.2
      ∧ calls_short [dc_255_call, ac_3_call])
    ∧ (∃ appended,
      (encode_single_blocks standard_derived_tbls.1 standard_derived_tbls.2
          [dc_255_call, ac_3_call] [0xAA]
          { buffer := 7, bits := 0, last_dc_val := fun _ => 0 }).1 = [0xAA] ++ appended
      ∧ stuffing_holds appended
      ∧ bits_of_bytes (unstuff_bytes appended)
          ++ code_word
              (encode_single_blocks standard_derived_tbls.1 standard_derived_tbls.2
                [dc_255_call, ac_3_call] [0xAA]
                { buffer := 7, bits := 0, last_dc_val := fun _ => 0 }).2.buffer
              (encode_single_blocks standard_derived_tbls.1 standard_derived_tbls.2
                [dc_255_call, ac_3_call] [0xAA]
                { buffer := 7, bits := 0, last_dc_val := fun _ => 0 }).2.bits
        = emission_bits (single_blocks_emissions standard_derived_tbls.1
            standard_derived_tbls.2 [dc_255_call, ac_3_call])
      ∧ appended = stuff_bytes (unstuff_bytes appended)
      ∧ (∀ c, c ∈ unstuff_bytes appended → c < 0x100))
    ∧ (encode_single_blocks standard_derived_tbls.1 standard_derived_tbls.2
          [dc_255_call, ac_3_call] [0xAA]
          { buffer := 7, bits := 0, last_dc_val := fun _ => 0 }).1
        = [0xAA, 0xFB, 0xFF, 0x00, 0x35, 0xAC]
    ∧ unstuff_bytes [0xFB, 0xFF, 0x00, 0x35, 0xAC] = [0xFB, 0xFF, 0x35, 0xAC]
    ∧ (emission_bits (single_blocks_emissions standard_derived_tbls.1
          standard_derived_tbls.2 [dc_255_call, ac_3_call])).length = 44 :=
  ⟨⟨tables_fit_standard, calls_short_sample⟩,
    encode_single_blocks_bits standard_derived_tbls.1 standard_derived_tbls.2
      [dc_255_call, ac_3_call] [0xAA] 7 (fun _ => 0) tables_fit_standard calls_short_sample,
    sample_calls_output, by decide, by rw [sample_calls_emissions]; decide⟩

/-! ## Claim on the normalisation of the reciprocal quadruples -/

/-- C31: for every quantization value `v` in [1, 255], the divisor `8 * v` fits an
`unsigned short` and is not 1, so the branch `divisor == 1` is not taken, and the
values that `compute_reciprocal` stores satisfy: the shift at `dtbl[0xC0]` lies in
[2, 10]; the scale at `dtbl[0x80]` is `2^(16 - shift)`, so `scale * 2^shift = 2^16` and
the scale fits a signed 16 bit value; the correction at `dtbl[0x40]` is `8v / 2` or
`8v / 2 + 1`; the reciprocal `fq` computed lies in [2^15, 2^16 - 1], the value stored
at `dtbl[0]` is its conversion to `short`, which is negative, and read as an unsigned
16 bit value it is `fq` again. -/
theorem compute_reciprocal_quadruple (v : Nat) (hv1 : 1 ≤ v) (hv2 : v ≤ 255)
    (dtbl : Nat → Int) :
    (to_ushort (shl (v : Int) 0x3) = 8 * v ∧ 8 * v ≠ 1)
    ∧ (2 ≤ (compute_reciprocal (8 * v) dtbl).1 (0x40 * 3)
      ∧ (compute_reciprocal (8 * v) dtbl).1 (0x40 * 3) ≤ 10)
    ∧ ((compute_reciprocal (8 * v) dtbl).1 (0x40 * 2)
        = ((2 ^ (16 - ((compute_reciprocal (8 * v) dtbl).1 (0x40 * 3)).toNat) : Nat) : Int)
      ∧ (compute_reciprocal (8 * v) dtbl).1 (0x40 * 2)
          * ((2 ^ ((compute_reciprocal (8 * v) dtbl).1 (0x40 * 3)).toNat : Nat) : Int) = 0x10000
      ∧ 0 < (compute_reciprocal (8 * v) dtbl).1 (0x40 * 2)
      ∧ (compute_reciprocal (8 * v) dtbl).1 (0x40 * 2) ≤ 0x7FFF)
    ∧ ((compute_reciprocal (8 * v) dtbl).1 (0x40 * 1) = ((8 * v / 2 : Nat) : Int)
      ∨ (compute_reciprocal (8 * v) dtbl).1 (0x40 * 1) = ((8 * v / 2 : Nat) : Int) + 1)
    ∧ (0x8000 ≤ compute_reciprocal_fq (8 * v) ∧ compute_reciprocal_fq (8 * v) ≤ 0xFFFF
      ∧ (compute_reciprocal (8 * v) dtbl).1 (0x40 * 0) = to_short (compute_reciprocal_fq (8 * v))
      ∧ (compute_reciprocal (8 * v) dtbl).1 (0x40 * 0) < 0
      ∧ to_ushort ((compute_reciprocal (8 * v) dtbl).1 (0x40 * 0))
          = compute_reciprocal_fq (8 * v)) := by
  obtain ⟨e0, e1, e2, e3, _⟩ := compute_reciprocal_stores (8 * v) dtbl
  have hne : 8 * v ≠ 1 := by omega
  have h := reciprocal_quadruple_ok_all v (by
    rw [List.mem_range']
    exact ⟨v - 1, by omega, by omega⟩)
  unfold reciprocal_quadruple_ok at h
  obtain ⟨s1, s2, c1, c2, c3, c4, k, f1, f2, r1, r2⟩ := of_decide_eq_true h
  rw [e0, e1, e2, e3]
  refine ⟨⟨?_, hne⟩, ⟨s1, s2⟩, ⟨c1, c2, c3, c4⟩, k, f1, f2,
    compute_reciprocal_fq_eq (8 * v) hne, r1, r2⟩
  unfold to_ushort shl
  have e : ((v : Int) * 2 ^ 0x3) % 0x10000 = ((8 * v : Nat) : Int) := by
    have : (2 : Int) ^ 0x3 = 8 := by decide
    rw [this]
    omega
  rw [e]
  exact Int.toNat_ofNat _

/-- Witness of C31 at `v = 3` (divisor 24). -/
theorem compute_reciprocal_quadruple_witness :
    (1 ≤ 3 ∧ 3 ≤ 255)
    ∧ ((to_ushort (shl ((3 : Nat) : Int) 0x3) = 8 * 3 ∧ 8 * 3 ≠ 1)
    ∧ (2 ≤ (compute_reciprocal (8 * 3) (fun _ => 0)).1 (0x40 * 3)
      ∧ (compute_reciprocal (8 * 3) (fun _ => 0)).1 (0x40 * 3) ≤ 10)
    ∧ ((compute_reciprocal (8 * 3) (fun _ => 0)).1 (0x40 * 2)
        = ((2 ^ (16 - ((compute_reciprocal (8 * 3) (fun _ => 0)).1 (0x40 * 3)).toNat) : Nat) : Int)
      ∧ (compute_reciprocal (8 * 3) (fun _ => 0)).1 (0x40 * 2)
          * ((2 ^ ((compute_reciprocal (8 * 3) (fun _ => 0)).1 (0x40 * 3)).toNat : Nat) : Int)
          = 0x10000
      ∧ 0 < (compute_reciprocal (8 * 3) (fun _ => 0)).1 (0x40 * 2)
      ∧ (compute_reciprocal (8 * 3) (fun _ => 0)).1 (0x40 * 2) ≤ 0x7FFF)
    ∧ ((compute_reciprocal (8 * 3) (fun _ => 0)).1 (0x40 * 1) = ((8 * 3 / 2 : Nat) : Int)
      ∨ (compute_reciprocal (8 * 3) (fun _ => 0)).1 (0x40 * 1) = ((8 * 3 / 2 : Nat) : Int) + 1)
    ∧ (0x8000 ≤ compute_reciprocal_fq (8 * 3) ∧ compute_reciprocal_fq (8 * 3) ≤ 0xFFFF
      ∧ (compute_reciprocal (8 * 3) (fun _ => 0)).1 (0x40 * 0)
          = to_short (compute_reciprocal_fq (8 * 3))
      ∧ (compute_reciprocal (8 * 3) (fun _ => 0)).1 (0x40 * 0) < 0
      ∧ to_ushort ((compute_reciprocal (8 * 3) (fun _ => 0)).1 (0x40 * 0))
          = compute_reciprocal_fq (8 * 3))) :=
  ⟨by decide, compute_reciprocal_quadruple 3 (by decide) (by decide) (fun _ => 0)⟩

end jpeg
